import Mathlib

/-!
# Rhyme Analyzer: a shallow embedding of `src/rhyme-analyzer/main.js`

JavaScript strings are modelled as `String` (their characters as `List Char`),
arrays as `List`, numbers that are array indices or counters as `Nat`, and the
distances and thresholds (JavaScript doubles) as exact rationals `ℚ`.
Where the rounding of double arithmetic decides what the program returns, the
section on double arithmetic gives the distance test with binary64 rounding
(`rhymeDistanceDouble`, `tryJoinDouble`, `analyzeDouble`).
A raised `TypeError` is modelled by `Except.error`.
-/

namespace Rhymer

/-! ## Settings and constant tables -/

/-- The settings object, `DEFAULT_SETTINGS` gives its fields. -/
structure Settings where
  autoAnalyzeOnType : Bool
  perfectThreshold : ℚ
  slantThreshold : ℚ
  assonanceEnabled : Bool
  assonanceThreshold : ℚ
  ignoreStopwords : Bool
deriving DecidableEq

/-- The constant `DEFAULT_SETTINGS`. -/
def DEFAULT_SETTINGS : Settings :=
  { autoAnalyzeOnType := true
    perfectThreshold := 18 / 100
    slantThreshold := 50 / 100
    assonanceEnabled := true
    assonanceThreshold := 35 / 100
    ignoreStopwords := true }

/-- The members of the set `STOPWORDS`. -/
def STOPWORDS : List String :=
  ["the", "and", "a", "an", "of", "to", "in", "is", "it", "that", "for", "on", "with", "as",
   "at", "by", "be", "or", "but", "if", "so", "then", "than", "this", "these", "those", "from",
   "are", "was", "were", "will", "would", "could", "should", "i", "you", "he", "she", "we",
   "they", "me", "him", "her", "us", "them", "my", "your", "his", "its", "our", "their"]

/-- The own properties of the object literal `CUSTOM_ARPA`, in source order. -/
def CUSTOM_ARPA_OWN : List (String × List String) :=
  [("lekker", ["L", "EH1", "K", "ER0"]),
   ("bru", ["B", "R", "UW1"]),
   ("boet", ["B", "UH1", "T"]),
   ("ja", ["Y", "AA1"]),
   ("ain't", ["EY1", "N", "T"])]

/-- The property names every object literal inherits from `Object.prototype`;
each of them holds a function (or, for `__proto__`, the prototype object):
a truthy value that is not an array and has no `slice` method. -/
def OBJECT_PROTOTYPE_KEYS : List String :=
  ["constructor", "__defineGetter__", "__defineSetter__", "hasOwnProperty",
   "__lookupGetter__", "__lookupSetter__", "isPrototypeOf", "propertyIsEnumerable",
   "toString", "valueOf", "__proto__", "toLocaleString"]

/-! ## Phonemes: `stripStress`, `isVowelPhone`, `phonesToNucleusCoda` -/

/-- The one-character class `[0-2]`. -/
def isStressDigit (c : Char) : Bool := c == '0' || c == '1' || c == '2'

/-- Source `stripStress(p)`: `p.replace(/[0-2]$/,'')` removes one stress digit
at the very end of the string. -/
def stripStress (p : String) : String :=
  match p.data.getLast? with
  | some c => if isStressDigit c then ⟨p.data.dropLast⟩ else p
  | none => p

/-- The alternatives of the regular expression in `isVowelPhone`. -/
def VOWEL_CODES : List String :=
  ["AA", "AE", "AH", "AO", "AW", "AY", "EH", "ER", "EY", "IH", "IY", "OW", "OY", "UH", "UW"]

/-- Unanchored search: does `pat` occur somewhere in `s`? -/
def occursIn (pat : List Char) : List Char → Bool
  | [] => pat.isPrefixOf []
  | c :: cs => pat.isPrefixOf (c :: cs) || occursIn pat cs

/-- Source `isVowelPhone(p)`: the regular expression `/AA|AE|...|UW/` is not
anchored, it tests whether one of the codes occurs in the stripped phoneme. -/
def isVowelPhone (p : String) : Bool :=
  VOWEL_CODES.any (fun v => occursIn v.data (stripStress p).data)

/-- The object `{ nucleus, coda }`. -/
structure NucleusCoda where
  nucleus : List String
  coda : List String
deriving DecidableEq, Repr

/-- The descending loop `for (i=phones.length-1; i>=0; i--)` of
`phonesToNucleusCoda`, entered with `n = i + 1`: the index of the last vowel
phoneme among the first `n`, `none` standing for `lastV === -1`. -/
def lastVowelBelow (phones : List String) : Nat → Option Nat
  | 0 => none
  | n + 1 => if isVowelPhone (phones.getD n "") then some n else lastVowelBelow phones n

/-- Source `phonesToNucleusCoda(phones)`. -/
def phonesToNucleusCoda (phones : List String) : NucleusCoda :=
  match lastVowelBelow phones phones.length with
  | none => { nucleus := [], coda := (phones.drop (phones.length - 2)).map stripStress }
  | some lastV =>
    { nucleus := [stripStress (phones.getD lastV "")]
      coda := (phones.drop (lastV + 1)).map stripStress }

/-! ## The distance model -/

/-- The table `FAM` of `vowelFamily`. -/
def FAM : List (String × String) :=
  [("AA", "low-back"), ("AH", "low-back"), ("AO", "low-back"), ("AE", "low-front"),
   ("EH", "mid-front"), ("EY", "mid-front"), ("ER", "r-colored"), ("IH", "high-front"),
   ("IY", "high-front"), ("OW", "mid-back"), ("UH", "mid-back"), ("UW", "high-back"),
   ("AY", "diph"), ("AW", "diph"), ("OY", "diph")]

/-- Source `vowelFamily(nuc)`. `nuc[0]` is falsy when the array is empty or its
first entry is the empty string. `FAM[base] || base` is the table entry, else
`base`; for a `base` that names a property inherited from `Object.prototype`
the source obtains that property's value, which is equal (`===`) only to
itself, exactly as the string `base` is here. -/
def vowelFamily (nuc : List String) : String :=
  match nuc.head? with
  | none => "unk"
  | some p =>
    if p = "" then "unk"
    else
      let base := stripStress p
      (FAM.lookup base).getD base

/-- Source `vowelClass(nuc)`. -/
def vowelClass (nuc : List String) : String :=
  match nuc.head? with
  | none => "unk"
  | some p => if p = "" then "unk" else stripStress p

/-- Source `nucleusDistance(a,b)`. -/
def nucleusDistance (a b : List String) : ℚ :=
  let ca := vowelClass a
  let cb := vowelClass b
  if ca = cb then 0
  else
    let fa := vowelFamily a
    let fb := vowelFamily b
    if fa = fb then 1 / 4 else 1

/-- The equivalence table inside `codaDistance`. -/
def CODA_EQ : List (String × String) :=
  [("S", "S"), ("Z", "S"), ("T", "T"), ("D", "T"), ("F", "F"), ("V", "F"), ("K", "K"),
   ("G", "K"), ("M", "N"), ("N", "N"), ("NG", "N"), ("R", "R"), ("L", "L"), ("B", "B"),
   ("P", "P"), ("CH", "CH"), ("JH", "CH"), ("SH", "SH"), ("ZH", "SH")]

/-- The arrow function `eq` of `codaDistance`: the table entry, else `c` itself
(see `vowelFamily` for inherited property names). -/
def codaEq (c : String) : String := (CODA_EQ.lookup c).getD c

/-- The expression `aC[aC.length-i]||''` for `i ≥ 1`: the `i`-th entry from the
end, the empty string when there is none. -/
def fromEnd (aC : List String) (i : Nat) : String :=
  if i ≤ aC.length then aC.getD (aC.length - i) "" else ""

/-- One pass of the loop body of `codaDistance` on the pair `(score, comp)`. -/
def codaStep (aC bC : List String) (acc : Nat × Nat) (i : Nat) : Nat × Nat :=
  let a := codaEq (fromEnd aC i)
  let b := codaEq (fromEnd bC i)
  if a = "" ∧ b = "" then acc
  else (acc.1 + (if a = b then 0 else 1), acc.2 + 1)

/-- The loop `for (i=1; i<=Math.min(3,len); i++)` of `codaDistance`, giving the
final `(score, comp)`. -/
def codaLoop (aC bC : List String) : Nat × Nat :=
  ((List.range (min 3 (max aC.length bC.length))).map (· + 1)).foldl (codaStep aC bC) (0, 0)

/-- Source `codaDistance(aC,bC)`. -/
def codaDistance (aC bC : List String) : ℚ :=
  if max aC.length bC.length = 0 then 6 / 10
  else
    let sc := codaLoop aC bC
    if sc.2 = 0 then 6 / 10 else (sc.1 : ℚ) / (sc.2 : ℚ)

/-- Source `rhymeDistance(a,b)`. -/
def rhymeDistance (a b : NucleusCoda) : ℚ :=
  7 / 10 * nucleusDistance a.nucleus b.nucleus + 3 / 10 * codaDistance a.coda b.coda

/-! ## Cleaning words and the heuristic phonemes -/

/-- The method `toLowerCase` on one character. Only the ASCII letters, the
apostrophe and the hyphen survive the filter that `cleanWord` applies next, so
the characters whose lower-case form contains one of them are spelled out:
`A`-`Z`, the Kelvin sign U+212A (lower case `k`) and U+0130 (lower case `i`
followed by U+0307). Every other character has a lower-case form without
ASCII characters and is kept as it is. -/
def lowerChar (c : Char) : List Char :=
  if c.isUpper then [c.toLower]
  else if c = Char.ofNat 0x212A then ['k']
  else if c = Char.ofNat 0x0130 then ['i', Char.ofNat 0x0307]
  else [c]

/-- The method `toLowerCase` on a string. -/
def toLowerCase (s : List Char) : List Char := s.flatMap lowerChar

/-- The character class `[a-zA-Z'\-]`. -/
def isCleanChar (c : Char) : Bool := c.isAlpha || c == '\'' || c == '-'

/-- Source `cleanWord(w)`: lower case, keep letters, apostrophes and hyphens,
then remove the apostrophes at both ends. -/
def cleanWord (w : String) : String :=
  let kept := (toLowerCase w.data).filter isCleanChar
  let noLead := kept.dropWhile (· == '\'')
  ⟨(noLead.reverse.dropWhile (· == '\'')).reverse⟩

/-- One `s.replace(re, ()=>{ push(ph); return ' '; })` of `heuristicPhones` for
a regular expression that is an alternation of two-letter literals: scanning
from the left, every match becomes one blank; the result is the new `s` and
the number of matches (each of them pushes `ph`). -/
def replaceDigraphs (alts : List (Char × Char)) : List Char → List Char × Nat
  | [] => ([], 0)
  | [c] => ([c], 0)
  | c :: d :: rest =>
    if alts.contains (c, d) then
      let r := replaceDigraphs alts rest
      (' ' :: r.1, r.2 + 1)
    else
      let r := replaceDigraphs alts (d :: rest)
      (c :: r.1, r.2)

/-- The list `reps` of `heuristicPhones`. -/
def REPS : List (List (Char × Char) × String) :=
  [([('o', 'y'), ('o', 'i')], "OY1"),
   ([('a', 'y'), ('a', 'i'), ('e', 'y'), ('e', 'i')], "AY1"),
   ([('o', 'o')], "UW1"),
   ([('o', 'w'), ('o', 'u')], "OW1"),
   ([('a', 'u')], "AO1"),
   ([('e', 'e'), ('i', 'e'), ('e', 'i')], "IY1"),
   ([('e', 'a')], "EH1")]

/-- One pass of `for (const [re,ph] of reps)` on the pair `(s, out)`. -/
def repStep (st : List Char × List String) (rep : List (Char × Char) × String) :
    List Char × List String :=
  let r := replaceDigraphs rep.1 st.1
  (r.1, st.2 ++ List.replicate r.2 rep.2)

/-- The table `{a:'AE1',e:'EH1',i:'IH1',o:'OW1',u:'UH1'}`. -/
def SINGLE_VOWELS : List (Char × String) :=
  [('a', "AE1"), ('e', "EH1"), ('i', "IH1"), ('o', "OW1"), ('u', "UH1")]

/-- The replacement of `/[aeiou]/g`: every vowel letter becomes a blank and
pushes its phoneme; the result is the new `s` and the phonemes pushed. -/
def replaceVowels : List Char → List Char × List String
  | [] => ([], [])
  | c :: cs =>
    let r := replaceVowels cs
    match SINGLE_VOWELS.lookup c with
    | some p => (' ' :: r.1, p :: r.2)
    | none => (c :: r.1, r.2)

/-- The class `\w` of a regular expression without flags. -/
def isWordChar (c : Char) : Bool := c.isAlphanum || c == '_'

/-- The replacement of `/y\b/g`: a `y` followed by a non-word character or by
the end of the string becomes a blank and pushes `IY1`. -/
def replaceFinalY : List Char → List Char × Nat
  | [] => ([], 0)
  | c :: cs =>
    let r := replaceFinalY cs
    let boundary := match cs with
      | [] => true
      | d :: _ => !isWordChar d
    if c == 'y' && boundary then (' ' :: r.1, r.2 + 1) else (c :: r.1, r.2)

/-- The class `\s` of a regular expression. -/
def isSpace (c : Char) : Bool :=
  let n := c.toNat
  n == 9 || n == 10 || n == 11 || n == 12 || n == 13 || n == 32 || n == 0xA0 || n == 0x1680 ||
  (0x2000 ≤ n && n ≤ 0x200A) || n == 0x2028 || n == 0x2029 || n == 0x202F || n == 0x205F ||
  n == 0x3000 || n == 0xFEFF

/-- The consonant table `map` of `heuristicPhones`. -/
def CONSONANTS : List (Char × String) :=
  [('b', "B"), ('c', "K"), ('d', "D"), ('f', "F"), ('g', "G"), ('h', "HH"), ('j', "JH"),
   ('k', "K"), ('l', "L"), ('m', "M"), ('n', "N"), ('p', "P"), ('q', "K"), ('r', "R"),
   ('s', "S"), ('t', "T"), ('v', "V"), ('w', "W"), ('x', "K"), ('y', "Y"), ('z', "Z")]

/-- The final loop of `heuristicPhones`: `map[ch]&&out.push(map[ch])`. -/
def consonantPhones : List Char → List String
  | [] => []
  | ch :: cs =>
    match CONSONANTS.lookup ch with
    | some p => p :: consonantPhones cs
    | none => consonantPhones cs

/-- Source `heuristicPhones(word)`. -/
def heuristicPhones (word : String) : List String :=
  let w := toLowerCase word.data
  let st := REPS.foldl repStep (w, [])
  let v := replaceVowels st.1
  let y := replaceFinalY v.1
  let out := st.2 ++ v.2 ++ List.replicate y.2 "IY1"
    ++ consonantPhones (y.1.filter (fun c => !isSpace c))
  if out.length = 0 then ["AH0"] else out

/-! ## The tokenizer -/

/-- A word token `{ word, line, pos }`. -/
structure Token where
  word : String
  line : Nat
  pos : Nat
deriving DecidableEq, Repr

/-- The call `text.split(/\n/)`. -/
def splitLines : List Char → List (List Char)
  | [] => [[]]
  | c :: cs =>
    if c == '\n' then [] :: splitLines cs
    else
      match splitLines cs with
      | [] => [[c]]
      | l :: ls => (c :: l) :: ls

/-- The character class `[A-Za-z']`. -/
def isTokenChar (c : Char) : Bool := c.isAlpha || c == '\''

/-- The call `line.match(/[A-Za-z']+|[^A-Za-z'\s]+/g) || []`: the maximal runs of
token characters and the maximal runs of characters that are neither token
characters nor white space, from left to right. -/
def matchParts : List Char → List (List Char)
  | [] => []
  | c :: cs =>
    if isSpace c && !isTokenChar c then matchParts cs
    else
      match cs with
      | [] => [[c]]
      | d :: _ =>
        if (isSpace d && !isTokenChar d) || (isTokenChar c != isTokenChar d) then
          [c] :: matchParts cs
        else
          match matchParts cs with
          | [] => [[c]]
          | p :: ps => (c :: p) :: ps

/-- The test `/^[A-Za-z']+$/.test(t)`. -/
def isWordPart (t : List Char) : Bool := !t.isEmpty && t.all isTokenChar

/-- The inner loop of `tokenize` over the parts of line `li`, from index `idx`. -/
def lineTokens (li : Nat) : List (List Char) → Nat → List Token
  | [], _ => []
  | t :: ts, idx =>
    if isWordPart t then
      let cleaned := cleanWord ⟨t⟩
      if cleaned ≠ "" then { word := cleaned, line := li, pos := idx } :: lineTokens li ts (idx + 1)
      else lineTokens li ts (idx + 1)
    else lineTokens li ts (idx + 1)

/-- The outer loop of `tokenize` over the lines, from line index `li`. -/
def tokenizeLines : List (List Char) → Nat → List Token
  | [], _ => []
  | l :: ls, li => lineTokens li (matchParts l) 0 ++ tokenizeLines ls (li + 1)

/-- Source `tokenize(text)`. -/
def tokenize (text : String) : List Token := tokenizeLines (splitLines text.data) 0

/-! ## The analyzer object: arrays, the phoneme cache, `wordToPhones` -/

/-- The error a failing method call raises. -/
inductive JsError where
  | typeError
deriving DecidableEq, Repr

deriving instance DecidableEq for Except

/-- What a property lookup on `CUSTOM_ARPA`, or a lookup in the phoneme cache,
can hold: a reference to an array of phonemes, or a value inherited from
`Object.prototype` (truthy, without a `slice` method). -/
inductive JsValue where
  | array (addr : Nat)
  | inherited
deriving DecidableEq, Repr

/-- A JavaScript `Map` as the list of its entries in insertion order. -/
abbrev JsMap (κ ν : Type) := List (κ × ν)

/-- The method `Map.prototype.get`, `none` for `undefined`. -/
def JsMap.get {κ ν : Type} [DecidableEq κ] : JsMap κ ν → κ → Option ν
  | [], _ => none
  | (k, v) :: m, key => if k = key then some v else JsMap.get m key

/-- The method `Map.prototype.set`: an existing key keeps its place and gets the
new value, a new key is appended. -/
def JsMap.set {κ ν : Type} [DecidableEq κ] : JsMap κ ν → κ → ν → JsMap κ ν
  | [], key, val => [(key, val)]
  | (k, v) :: m, key, val =>
    if k = key then (k, val) :: m else (k, v) :: JsMap.set m key val

/-- The arrays of phonemes that exist (array references are indices into `heap`)
and the field `phoneCache` of the `RhymeAnalyzer` instance. Arrays are mutable
objects: two references to one address see each other's writes. -/
structure World where
  heap : List (List String)
  phoneCache : JsMap String JsValue
deriving DecidableEq, Repr

/-- The state right after `new RhymeAnalyzer(settings)`: the arrays of the
`CUSTOM_ARPA` literal exist, at the addresses `0, 1, ...` in source order, and
the cache is an empty `Map`. -/
def World.fresh : World :=
  { heap := CUSTOM_ARPA_OWN.map Prod.snd, phoneCache := [] }

/-- The index of `key` among the own properties of `CUSTOM_ARPA`. -/
def ownIndex (key : String) : List (String × List String) → Nat → Option Nat
  | [], _ => none
  | (k, _) :: rest, n => if k = key then some n else ownIndex key rest (n + 1)

/-- The property lookup `CUSTOM_ARPA[key]`: an own property, else a property
inherited from `Object.prototype`, else `undefined` (`none`). -/
def CUSTOM_ARPA (key : String) : Option JsValue :=
  match ownIndex key CUSTOM_ARPA_OWN 0 with
  | some a => some (.array a)
  | none => if OBJECT_PROTOTYPE_KEYS.contains key then some .inherited else none

/-- Allocation of a new array with the given content; its address is returned. -/
def World.alloc (W : World) (content : List String) : Nat × World :=
  (W.heap.length, { W with heap := W.heap ++ [content] })

/-- The call `v.slice()`: a new array with the content of the array `v`; a
`TypeError` when `v` is not an array (`v.slice is not a function`). -/
def World.slice (W : World) : JsValue → Except JsError Nat × World
  | .array a =>
    let r := W.alloc (W.heap.getD a [])
    (.ok r.1, r.2)
  | .inherited => (.error .typeError, W)

/-- Source `wordToPhones(w)`: the reference to the returned array (or the error
raised) and the state afterwards. -/
def wordToPhones (W : World) (w : String) : Except JsError Nat × World :=
  let key := cleanWord w
  if key = "" then
    let r := W.alloc []
    (.ok r.1, r.2)
  else
    match W.phoneCache.get key with
    | some c => W.slice c
    | none =>
      let found : JsValue × World :=
        match CUSTOM_ARPA key with
        | some v => (v, W)
        | none =>
          let r := W.alloc (heuristicPhones key)
          (.array r.1, r.2)
      let W2 : World := { found.2 with phoneCache := found.2.phoneCache.set key found.1 }
      W2.slice found.1

/-- The content of the array a call of `wordToPhones` returned. -/
def returnedPhones (r : Except JsError Nat × World) : Except JsError (List String) :=
  match r.1 with
  | .ok a => .ok (r.2.heap.getD a [])
  | .error e => .error e

/-! ## `isLineEnd`, spans and `analyze` -/

/-- Source `isLineEnd(i, words)`; reading `words[i].line` raises a `TypeError`
when `i` is not an index into `words`. The loop body returns in its first
pass, so only `words[i+1]` is inspected. -/
def isLineEnd (i : Nat) (words : List Token) : Except JsError Bool :=
  match words[i]? with
  | none => .error .typeError
  | some w =>
    match words[i + 1]? with
    | none => .ok true
    | some next => .ok (next.line != w.line)

/-- A span `{ i, line, word, nucleus, coda, bucketKey, isEnd }`. -/
structure Span where
  i : Nat
  line : Nat
  word : String
  nucleus : List String
  coda : List String
  bucketKey : String
  isEnd : Bool
deriving DecidableEq, Repr

/-- The nucleus and coda of a span as one object, the argument shape of
`rhymeDistance`. -/
def Span.nc (s : Span) : NucleusCoda := { nucleus := s.nucleus, coda := s.coda }

/-- The expression `x||'_'` for an array entry `x` (`none` when absent). -/
def orUnderscore : Option String → String
  | none => "_"
  | some p => if p = "" then "_" else p

/-- The template string `${nucleus[0]||'_'}|${coda[coda.length-1]||'_'}`. -/
def bucketKeyOf (nc : NucleusCoda) : String :=
  orUnderscore nc.nucleus.head? ++ "|" ++ orUnderscore nc.coda.getLast?

/-- The first loop of `analyze`, over the tokens still to visit (`w = words[i]`
is the head of that list): the spans pushed from `i` on, with the state after. -/
def buildSpans (settings : Settings) (words : List Token) :
    List Token → Nat → World → Except JsError (List Span) × World
  | [], _, W => (.ok [], W)
  | w :: rest, i, W =>
    if settings.ignoreStopwords && STOPWORDS.contains w.word then
      buildSpans settings words rest (i + 1) W
    else
      match wordToPhones W w.word with
      | (.error e, W1) => (.error e, W1)
      | (.ok addr, W1) =>
        let nc := phonesToNucleusCoda (W1.heap.getD addr [])
        match isLineEnd i words with
        | .error e => (.error e, W1)
        | .ok isEnd =>
          let span : Span :=
            { i := i, line := w.line, word := w.word, nucleus := nc.nucleus, coda := nc.coda
              bucketKey := bucketKeyOf nc, isEnd := isEnd }
          match buildSpans settings words rest (i + 1) W1 with
          | (.error e, W2) => (.error e, W2)
          | (.ok spans, W2) => (.ok (span :: spans), W2)

/-- One pass of the loop that fills `buckets`: a new key gets an empty array,
then `sIdx` is pushed to the array of the key. -/
def bucketPush (buckets : JsMap String (List Nat)) (k : String) (sIdx : Nat) :
    JsMap String (List Nat) :=
  match buckets.get k with
  | none => buckets.set k [sIdx]
  | some arr => buckets.set k (arr ++ [sIdx])

/-- The loop that fills a `Map` of buckets from the keys of the spans, from span
index `sIdx` on. -/
def fillBuckets : List String → Nat → JsMap String (List Nat) → JsMap String (List Nat)
  | [], _, buckets => buckets
  | k :: ks, sIdx, buckets => fillBuckets ks (sIdx + 1) (bucketPush buckets k sIdx)

/-- The arrow function `tryJoin` of `analyze` (both indices are indices into
`spans` wherever `analyze` calls it). -/
def tryJoin (settings : Settings) (spans : List Span) (aIdx bIdx : Nat) : Bool :=
  match spans[aIdx]?, spans[bIdx]? with
  | some a, some b =>
    let d := rhymeDistance a.nc b.nc
    let endPair := a.isEnd && b.isEnd
    let th := if endPair then settings.perfectThreshold else settings.slantThreshold
    decide (d ≤ th)
  | _, _ => false

/-- The variables `groups` and `groupOf` of `analyze`. -/
structure Grouping where
  groups : List (List Nat)
  groupOf : List Int
deriving DecidableEq, Repr

/-- The inner loop `for (y=x+1; y<arr.length; y++)` over the rest of a bucket,
on the pair of the group under construction and `groupOf`; `gid` is
`groups.length`. -/
def joinLoop (join : Nat → Nat → Bool) (aIdx : Nat) (gid : Nat) :
    List Nat → List Nat × List Int → List Nat × List Int
  | [], st => st
  | bIdx :: rest, st =>
    if st.2[bIdx]? ≠ some (-1) then joinLoop join aIdx gid rest st
    else if join aIdx bIdx then
      joinLoop join aIdx gid rest (st.1 ++ [bIdx], st.2.set bIdx (gid : Int))
    else joinLoop join aIdx gid rest st

/-- One pass of the loop `for (x=0; x<arr.length; x++)` over a bucket: `aIdx` is
`arr[x]` and `rest` holds the entries of `arr` after `x`. -/
def anchorStep (join : Nat → Nat → Bool) (aIdx : Nat) (rest : List Nat) (G : Grouping) :
    Grouping :=
  if G.groupOf[aIdx]? ≠ some (-1) then G
  else
    let r := joinLoop join aIdx G.groups.length rest
      ([aIdx], G.groupOf.set aIdx (G.groups.length : Int))
    if r.1.length > 1 then { groups := G.groups ++ [r.1], groupOf := r.2 }
    else { groups := G.groups, groupOf := r.2.set aIdx (-1) }

/-- The loop `for (x=0; x<arr.length; x++)` over one bucket (the entries of
`arr` from `x` on). -/
def bucketLoop (join : Nat → Nat → Bool) : List Nat → Grouping → Grouping
  | [], G => G
  | aIdx :: rest, G => bucketLoop join rest (anchorStep join aIdx rest G)

/-- The loop `for (const arr of buckets.values())` of the rhyme grouping. -/
def groupLoop (join : Nat → Nat → Bool) : List (List Nat) → Grouping → Grouping
  | [], G => G
  | arr :: arrs, G => groupLoop join arrs (bucketLoop join arr G)

/-- The rhyme grouping of `analyze`: the final `groups`. -/
def rhymeGroups (settings : Settings) (spans : List Span) : List (List Nat) :=
  let buckets := fillBuckets (spans.map Span.bucketKey) 0 []
  (groupLoop (tryJoin settings spans) (buckets.map Prod.snd)
    { groups := [], groupOf := List.replicate spans.length (-1) }).groups

/-- The expression `spans[idx].nucleus` (`idx` is an index into `spans` wherever
`analyze` evaluates it). -/
def nucleusAt (spans : List Span) (idx : Nat) : List String :=
  match spans[idx]? with
  | some s => s.nucleus
  | none => []

/-- The inner loop `for (j=i+1; j<arr.length; j++)` of the assonance grouping,
over the positions `j` still to visit, on the pair of `gi` and `used`. -/
def assonanceInner (settings : Settings) (spans : List Span) (arr : List Nat) (i : Nat) :
    List Nat → List Nat × List Bool → List Nat × List Bool
  | [], st => st
  | j :: js, st =>
    if st.2.getD j false then assonanceInner settings spans arr i js st
    else
      let d := nucleusDistance (nucleusAt spans (arr.getD i 0)) (nucleusAt spans (arr.getD j 0))
      if d ≤ settings.assonanceThreshold then
        assonanceInner settings spans arr i js (st.1 ++ [arr.getD j 0], st.2.set j true)
      else assonanceInner settings spans arr i js st

/-- The loop `for (i=0; i<arr.length; i++)` of the assonance grouping, over the
positions `i` still to visit, on the pair of `assonance` and `used`. -/
def assonanceOuter (settings : Settings) (spans : List Span) (arr : List Nat) :
    List Nat → List (List Nat) × List Bool → List (List Nat) × List Bool
  | [], st => st
  | i :: rest, st =>
    if st.2.getD i false then assonanceOuter settings spans arr rest st
    else
      let r := assonanceInner settings spans arr i rest ([arr.getD i 0], st.2.set i true)
      if r.1.length > 1 then assonanceOuter settings spans arr rest (st.1 ++ [r.1], r.2)
      else assonanceOuter settings spans arr rest (st.1, r.2)

/-- The loop `for (const arr of aBuckets.values())`, on `assonance`. -/
def assonanceLoop (settings : Settings) (spans : List Span) :
    List (List Nat) → List (List Nat) → List (List Nat)
  | [], assonance => assonance
  | arr :: arrs, assonance =>
    assonanceLoop settings spans arrs
      (assonanceOuter settings spans arr (List.range arr.length)
        (assonance, List.replicate arr.length false)).1

/-- The assonance grouping of `analyze`: the final `assonance`. -/
def assonanceGroups (settings : Settings) (spans : List Span) : List (List Nat) :=
  if settings.assonanceEnabled then
    let aBuckets := fillBuckets (spans.map (fun s => orUnderscore s.nucleus.head?)) 0 []
    assonanceLoop settings spans (aBuckets.map Prod.snd) []
  else []

/-- The loop `for (const sIdx of groups[gi])` that records the line-final spans
of group `gi` in the `Map` `lineFinalGroup`. -/
def lineFinalStep (spans : List Span) (gi : Nat) : List Nat → JsMap Nat Nat → JsMap Nat Nat
  | [], m => m
  | sIdx :: rest, m =>
    match spans[sIdx]? with
    | some s =>
      if s.isEnd then lineFinalStep spans gi rest (m.set s.line gi)
      else lineFinalStep spans gi rest m
    | none => lineFinalStep spans gi rest m

/-- The loop `for (gi=0; gi<groups.length; gi++)` that fills `lineFinalGroup`,
over the groups from index `gi` on. -/
def lineFinalLoop (spans : List Span) : List (List Nat) → Nat → JsMap Nat Nat → JsMap Nat Nat
  | [], _, m => m
  | g :: gs, gi, m => lineFinalLoop spans gs (gi + 1) (lineFinalStep spans gi g m)

/-- The expression `spans.reduce((m,s)=>Math.max(m,s.line), -1)+1`. -/
def lineCountOf (spans : List Span) : Nat :=
  (spans.foldl (fun (m : Int) s => max m (s.line : Int)) (-1) + 1).toNat

/-- The call `String.fromCharCode(code)`: the string of the one UTF-16 code unit
`code mod 2^16`. -/
def fromCharCode (code : Nat) : String := String.singleton (Char.ofNat (code % 65536))

/-- The variables `schemeLetters`, `nextCode` and `scheme` of `analyze`. -/
structure SchemeState where
  schemeLetters : JsMap Nat String
  nextCode : Nat
  scheme : List String
deriving DecidableEq, Repr

/-- One pass of the loop `for (l=0; l<lineCount; l++)`. -/
def schemeStep (lineFinalGroup : JsMap Nat Nat) (st : SchemeState) (l : Nat) : SchemeState :=
  match lineFinalGroup.get l with
  | none => { st with scheme := st.scheme ++ ["-"] }
  | some g =>
    let st1 : SchemeState :=
      match st.schemeLetters.get g with
      | some _ => st
      | none =>
        { st with schemeLetters := st.schemeLetters.set g (fromCharCode st.nextCode)
                  nextCode := st.nextCode + 1 }
    { st1 with scheme := st1.scheme ++ [(st1.schemeLetters.get g).getD "undefined"] }

/-- The rhyme scheme of `analyze`: the final `scheme`. -/
def schemeOf (spans : List Span) (groups : List (List Nat)) : List String :=
  let lineFinalGroup := lineFinalLoop spans groups 0 []
  ((List.range (lineCountOf spans)).foldl (schemeStep lineFinalGroup)
    { schemeLetters := [], nextCode := 65, scheme := [] }).scheme

/-- The object `{ words, spans, groups, assonance, scheme }` that `analyze`
returns. -/
structure Result where
  words : List Token
  spans : List Span
  groups : List (List Nat)
  assonance : List (List Nat)
  scheme : List String
deriving DecidableEq, Repr

/-- Source `analyze(text)` of an instance with the given `settings`, run in the
state `W`: the result (or the error raised) and the state afterwards. -/
def analyze (settings : Settings) (W : World) (text : String) : Except JsError Result × World :=
  let words := tokenize text
  match buildSpans settings words words 0 W with
  | (.error e, W1) => (.error e, W1)
  | (.ok spans, W1) =>
    let groups := rhymeGroups settings spans
    (.ok { words := words, spans := spans, groups := groups
           assonance := assonanceGroups settings spans
           scheme := schemeOf spans groups }, W1)

/-- The call `new RhymeAnalyzer(settings).analyze(text)`: `analyze` on a new
instance, whose cache is empty. -/
def analyzeFresh (settings : Settings) (text : String) : Except JsError Result :=
  (analyze settings World.fresh text).1


/-! ## The cache seen from outside: pure descriptions and sessions of calls -/

/-- The phonemes of a non-empty cleaned word as a function of the word alone:
what `wordToPhones` computes on a cache miss. -/
def phonesOf (key : String) : Except JsError (List String) :=
  match CUSTOM_ARPA key with
  | some (.array a) => .ok (World.fresh.heap.getD a [])
  | some .inherited => .error .typeError
  | none => .ok (heuristicPhones key)

/-- The content of the array `wordToPhones(w)` returns, as a function of `w`
alone. -/
def wordToPhonesPure (w : String) : Except JsError (List String) :=
  if cleanWord w = "" then .ok [] else phonesOf (cleanWord w)

/-- The first loop of `analyze` with `wordToPhonesPure` in the place of the
cached lookup. -/
def buildSpansPure (settings : Settings) (words : List Token) :
    List Token → Nat → Except JsError (List Span)
  | [], _ => .ok []
  | w :: rest, i =>
    if settings.ignoreStopwords && STOPWORDS.contains w.word then
      buildSpansPure settings words rest (i + 1)
    else
      match wordToPhonesPure w.word with
      | .error e => .error e
      | .ok ph =>
        let nc := phonesToNucleusCoda ph
        match isLineEnd i words with
        | .error e => .error e
        | .ok isEnd =>
          let span : Span :=
            { i := i, line := w.line, word := w.word, nucleus := nc.nucleus, coda := nc.coda
              bucketKey := bucketKeyOf nc, isEnd := isEnd }
          match buildSpansPure settings words rest (i + 1) with
          | .error e => .error e
          | .ok spans => .ok (span :: spans)

/-- The result of `analyze` from the spans on: groups, assonance and scheme. -/
def resultOf (settings : Settings) (words : List Token) (spans : List Span) : Result :=
  let groups := rhymeGroups settings spans
  { words := words, spans := spans, groups := groups
    assonance := assonanceGroups settings spans
    scheme := schemeOf spans groups }

/-- The function `analyze` without the cache. -/
def analyzePure (settings : Settings) (text : String) : Except JsError Result :=
  let words := tokenize text
  match buildSpansPure settings words words 0 with
  | .error e => .error e
  | .ok spans => .ok (resultOf settings words spans)

/-- What the code around a `RhymeAnalyzer` instance can do between two calls:
call `wordToPhones` and keep the returned array, call `analyze` (the arrays
inside its result are built by `map` and array literals, the instance keeps no
reference to them), or overwrite the content of an array with any other
content. -/
inductive Action where
  | callWordToPhones (w : String)
  | callAnalyze (text : String)
  | mutate (addr : Nat) (content : List String)

/-- An instance in use: its state and the arrays the callers hold a reference
to (the arrays `wordToPhones` returned to them). -/
structure Session where
  world : World
  held : List Nat

/-- The session of a new instance. -/
def Session.fresh : Session := { world := World.fresh, held := [] }

/-- The arrays the callers hold after a call that returned `r`. -/
def heldAfter (r : Except JsError Nat × World) (held : List Nat) : List Nat :=
  match r.1 with
  | .ok a => a :: held
  | .error _ => held

/-- One action of the callers. They reach only the arrays they hold, so
`mutate` on another address changes nothing. -/
def Session.step (settings : Settings) (S : Session) : Action → Session
  | .callWordToPhones w =>
    { world := (wordToPhones S.world w).2, held := heldAfter (wordToPhones S.world w) S.held }
  | .callAnalyze text => { S with world := (analyze settings S.world text).2 }
  | .mutate addr content =>
    if addr ∈ S.held then
      { S with world := { S.world with heap := S.world.heap.set addr content } }
    else S

/-- A sequence of actions, from the left. -/
def Session.run (settings : Settings) (acts : List Action) (S : Session) : Session :=
  acts.foldl (Session.step settings) S

/-- The invariant of a session: the arrays of `CUSTOM_ARPA` are untouched, the
callers hold only arrays that are not in the cache, and every cache entry is
what a cache miss would compute. -/
structure Coherent (S : Session) : Prop where
  base : ∀ a, a < World.fresh.heap.length → S.world.heap[a]? = World.fresh.heap[a]?
  held_lt : ∀ a ∈ S.held, World.fresh.heap.length ≤ a ∧ a < S.world.heap.length
  held_free : ∀ a ∈ S.held, ∀ key, S.world.phoneCache.get key ≠ some (.array a)
  cached : ∀ key v, S.world.phoneCache.get key = some v →
    CUSTOM_ARPA key = some v ∨
    (CUSTOM_ARPA key = none ∧
      ∃ a, v = .array a ∧ S.world.heap[a]? = some (heuristicPhones key))

/-- Does the loop of `codaDistance`, run on a coda against itself, find a
position to compare: is one of the last three entries a non-empty string? -/
def comparesSome (coda : List String) : Bool := (coda.reverse.take 3).any (fun e => e != "")

/-- The invariant of a `Map` of buckets that holds the indices below `m` of the
list `keys`: distinct keys, every bucket strictly increasing, and an index is
in the bucket of a key exactly when it is below `m` and carries that key. -/
structure BucketsWF (keys : List String) (m : Nat) (buckets : JsMap String (List Nat)) :
    Prop where
  nodupKeys : (buckets.map Prod.fst).Nodup
  sorted : ∀ p ∈ buckets, p.2.Pairwise (· < ·)
  mem_iff : ∀ p ∈ buckets, ∀ idx, idx ∈ p.2 ↔ (idx < m ∧ keys[idx]? = some p.1)
  cover : ∀ idx, idx < m → ∃ p ∈ buckets, idx ∈ p.2

/-- The test `groupOf[idx] === -1`: span `idx` is in no group so far. -/
def Grouping.free (groupOf : List Int) (idx : Nat) : Bool := decide (groupOf[idx]? = some (-1))

/-- The entries that the inner loop of anchor `aIdx` joins: the entries of `rest`
that are in no group so far and pass `tryJoin`. -/
def joined (join : Nat → Nat → Bool) (aIdx : Nat) (rest : List Nat) (groupOf : List Int) :
    List Nat :=
  rest.filter (fun b => Grouping.free groupOf b && join aIdx b)

/-- Spans `p` and `q` are both marked as grouped and one group holds both. -/
def Together (p q : Nat) (G : Grouping) : Prop :=
  G.groupOf[p]? ≠ some (-1) ∧ G.groupOf[q]? ≠ some (-1) ∧ ∃ g ∈ G.groups, p ∈ g ∧ q ∈ g

/-- Spans `p` and `q` share their fate so far: both are in no group, or one
group holds both. -/
def Sync (p q : Nat) (G : Grouping) : Prop :=
  (G.groupOf[p]? = some (-1) ∧ G.groupOf[q]? = some (-1)) ∨ Together p q G

/-- Every phoneme the tables of the source hold: the entries of `CUSTOM_ARPA`,
of `reps`, of the two tables of `heuristicPhones`, `IY1` and the default
`AH0`. -/
def PHONES : List String :=
  ["L", "EH1", "K", "ER0", "B", "R", "UW1", "UH1", "T", "Y", "AA1", "EY1", "N",
   "OY1", "AY1", "OW1", "AO1", "IY1", "AE1", "IH1",
   "D", "F", "G", "HH", "JH", "M", "P", "S", "V", "W", "Z", "AH0"]

/-- The phonemes of `PHONES` without their stress digit. -/
def STRIPPED : List String := PHONES.map stripStress

/-- What the first loop of `analyze` makes of the token `w = words[i]` when it
pushes a span for it. -/
structure SpanFrom (settings : Settings) (words : List Token) (w : Token) (i : Nat) (s : Span) :
    Prop where
  index : s.i = i
  line : s.line = w.line
  word : s.word = w.word
  notStop : settings.ignoreStopwords = true → STOPWORDS.contains s.word = false
  phones : ∃ ph, wordToPhonesPure w.word = .ok ph ∧
    s.nucleus = (phonesToNucleusCoda ph).nucleus ∧ s.coda = (phonesToNucleusCoda ph).coda
  key : s.bucketKey = bucketKeyOf s.nc
  isEnd : isLineEnd i words = .ok s.isEnd

/-! ## Worked examples -/

/-- The result of `analyze` on the two lines `cat` and `cat` under the default
settings. -/
def resultCatCat : Result :=
  { words := [⟨"cat", 0, 0⟩, ⟨"cat", 1, 0⟩]
    spans :=
      [⟨0, 0, "cat", ["AE"], ["K", "T"], "AE|T", true⟩,
       ⟨1, 1, "cat", ["AE"], ["K", "T"], "AE|T", true⟩]
    groups := [[0, 1]]
    assonance := [[0, 1]]
    scheme := ["A", "A"] }

/-- The result of `analyze` on the three lines `cat`, `hat` and `the` under the
default settings. -/
def resultCatHatThe : Result :=
  { words := [⟨"cat", 0, 0⟩, ⟨"hat", 1, 0⟩, ⟨"the", 2, 0⟩]
    spans :=
      [⟨0, 0, "cat", ["AE"], ["K", "T"], "AE|T", true⟩,
       ⟨1, 1, "hat", ["AE"], ["HH", "T"], "AE|T", true⟩]
    groups := [[0, 1]]
    assonance := [[0, 1]]
    scheme := ["A", "A"] }

/-- The result of `analyze` on the three lines `best`, `melt` and `melt the`
under the default settings. -/
def resultBestMelt : Result :=
  { words := [⟨"best", 0, 0⟩, ⟨"melt", 1, 0⟩, ⟨"melt", 2, 0⟩, ⟨"the", 2, 1⟩]
    spans :=
      [⟨0, 0, "best", ["EH"], ["B", "S", "T"], "EH|T", true⟩,
       ⟨1, 1, "melt", ["EH"], ["M", "L", "T"], "EH|T", true⟩,
       ⟨2, 2, "melt", ["EH"], ["M", "L", "T"], "EH|T", false⟩]
    groups := [[0, 2]]
    assonance := [[0, 1, 2]]
    scheme := ["A", "-", "-"] }

/-- The result of `analyze` on the line `the cat` under the default settings. -/
def resultTheCat : Result :=
  { words := [⟨"the", 0, 0⟩, ⟨"cat", 0, 1⟩]
    spans := [⟨1, 0, "cat", ["AE"], ["K", "T"], "AE|T", true⟩]
    groups := []
    assonance := []
    scheme := ["-"] }

/-- The invariant of `groups` and `groupOf` in the greedy loops: every group is
an anchor followed by at least one partner that passed the join test, in
strictly increasing order; different groups share no member; and every member
of a group is marked in `groupOf`. -/
structure GroupsWF (join : Nat → Nat → Bool) (G : Grouping) : Prop where
  anchored : ∀ g ∈ G.groups, ∃ a J, g = a :: J ∧ J ≠ [] ∧ (a :: J).Pairwise (· < ·) ∧
    ∀ b ∈ J, join a b = true
  disjoint : G.groups.Pairwise List.Disjoint
  marked : ∀ g ∈ G.groups, ∀ idx ∈ g, G.groupOf[idx]? ≠ some (-1)

/-- Span `idx` is a line-final span of line `l`. -/
def LineFinalAt (spans : List Span) (idx l : Nat) : Prop :=
  ∃ s, spans[idx]? = some s ∧ s.isEnd = true ∧ s.line = l

/-- The scheme entry of a line whose entry in `lineFinalGroup` is `g`
(`none` for `undefined`), read from the letters assigned. -/
def entryOf (letters : JsMap Nat String) : Option Nat → String
  | none => "-"
  | some g => (letters.get g).getD "undefined"

/-- The invariant of the scheme loop after the lines `lines`: the next code
follows the letters issued, the letter at position `i` of `schemeLetters` is the
character of code `65 + i`, the keys are the groups met so far, and the scheme
holds the entries of the lines. -/
structure SchemeInv (M : JsMap Nat Nat) (lines : List Nat) (st : SchemeState) : Prop where
  code : st.nextCode = 65 + st.schemeLetters.length
  letters : ∀ (i g : Nat) (c : String), st.schemeLetters[i]? = some (g, c) →
    c = fromCharCode (65 + i)
  keys : (st.schemeLetters.map Prod.fst).Nodup
  seen : ∀ g, g ∈ st.schemeLetters.map Prod.fst ↔ ∃ l ∈ lines, M.get l = some g
  scheme : st.scheme = lines.map (fun l => entryOf st.schemeLetters (M.get l))

/-- The result of `analyze` on the two lines `cat the` and `hat` under the
default settings. -/
def resultCatTheHat : Result :=
  { words := [⟨"cat", 0, 0⟩, ⟨"the", 0, 1⟩, ⟨"hat", 1, 0⟩]
    spans :=
      [⟨0, 0, "cat", ["AE"], ["K", "T"], "AE|T", false⟩,
       ⟨2, 1, "hat", ["AE"], ["HH", "T"], "AE|T", true⟩]
    groups := [[0, 1]]
    assonance := [[0, 1]]
    scheme := ["-", "A"] }

/-- A text of 54 lines: 27 words with pairwise different rhyme buckets, each
on two lines in a row. -/
def TWENTY_SEVEN_COUPLETS : String :=
  "ab\nab\nad\nad\naf\naf\nag\nag\nak\nak\nal\nal\nam\nam\nap\nap\nar\nar\nav\nav\naz\naz\neb\neb\ned\ned\nef\nef\neg\neg\nek\nek\nel\nel\nem\nem\nen\nen\nep\nep\ner\ner\nev\nev\nez\nez\nib\nib\nid\nid\nig\nig\nik\nik"

/-! ## The distance test in double arithmetic

JavaScript numbers are IEEE 754 binary64 values: a decimal literal stands for the
nearest such value and every arithmetic operation returns the value nearest to
the exact result. The definitions above compute the distances exactly; the
definitions of this section round as the engine does. -/

/-- The power `2 ^ e` for an integer exponent `e`. -/
def pow2 (e : Int) : ℚ :=
  if 0 ≤ e then ((2 ^ e.toNat : Nat) : ℚ) else 1 / ((2 ^ (-e).toNat : Nat) : ℚ)

/-- The number of binary digits of `n`, counted in at most `fuel` steps; `n`
steps are enough for `n`. -/
def binaryDigits : Nat → Nat → Nat
  | 0, _ => 0
  | fuel + 1, n => if n = 0 then 0 else binaryDigits fuel (n / 2) + 1

/-- The integer `⌊log₂ q⌋` of a positive rational `q`: the difference `k` of the
numbers of binary digits of numerator and denominator, or `k - 1`. -/
def floorLog2 (q : ℚ) : Int :=
  let k : Int :=
    (binaryDigits q.num.natAbs q.num.natAbs : Int) - (binaryDigits q.den q.den : Int)
  if pow2 k ≤ q then k else k - 1

/-- The integer nearest to `q`, the even one of the two when `q` is half way. -/
def roundHalfEven (q : ℚ) : Int :=
  let f := Rat.floor q
  let r := q - (f : ℚ)
  if r < 1 / 2 then f
  else if 1 / 2 < r then f + 1
  else if f % 2 = 0 then f else f + 1

/-- The binary64 value nearest to `q`, the one with the even significand when
`q` is half way (round to nearest, ties to even): the significand has 53 bits
and the exponent of its last bit is at least `-1074`. No value that the program
rounds reaches `2 ^ 1024`, where a binary64 value overflows. -/
def roundDouble (q : ℚ) : ℚ :=
  if q = 0 then 0
  else
    let e := max (floorLog2 (if q < 0 then -q else q) - 52) (-1074)
    (roundHalfEven (q / pow2 e) : ℚ) * pow2 e

/-- Source `codaDistance(aC,bC)` in double arithmetic: the literal `0.6` and the
quotient `score/comp` of two small integers are rounded. -/
def codaDistanceDouble (aC bC : List String) : ℚ :=
  if max aC.length bC.length = 0 then roundDouble (6 / 10)
  else
    let sc := codaLoop aC bC
    if sc.2 = 0 then roundDouble (6 / 10) else roundDouble ((sc.1 : ℚ) / (sc.2 : ℚ))

/-- Source `rhymeDistance(a,b)` in double arithmetic: the literals `0.7` and
`0.3`, the two products and the sum are rounded. The values `0.0`, `0.25` and
`1.0` of `nucleusDistance` are binary64 values. -/
def rhymeDistanceDouble (a b : NucleusCoda) : ℚ :=
  roundDouble
    (roundDouble (roundDouble (7 / 10) * nucleusDistance a.nucleus b.nucleus) +
      roundDouble (roundDouble (3 / 10) * codaDistanceDouble a.coda b.coda))

/-- The arrow function `tryJoin` of `analyze` in double arithmetic: `d<=th`
compares the rounded distance with the binary64 value of the threshold (a
threshold of `2 ^ 1024` or more is `Infinity`; it compares with a distance, at
most 1, as its rounded value here does). -/
def tryJoinDouble (settings : Settings) (spans : List Span) (aIdx bIdx : Nat) : Bool :=
  match spans[aIdx]?, spans[bIdx]? with
  | some a, some b =>
    let d := rhymeDistanceDouble a.nc b.nc
    let endPair := a.isEnd && b.isEnd
    let th := if endPair then settings.perfectThreshold else settings.slantThreshold
    decide (d ≤ roundDouble th)
  | _, _ => false

/-- The rhyme grouping of `analyze` with the join test in double arithmetic. -/
def rhymeGroupsDouble (settings : Settings) (spans : List Span) : List (List Nat) :=
  let buckets := fillBuckets (spans.map Span.bucketKey) 0 []
  (groupLoop (tryJoinDouble settings spans) (buckets.map Prod.snd)
    { groups := [], groupOf := List.replicate spans.length (-1) }).groups

/-- Source `analyze(text)` with the join test in double arithmetic, run in the
state `W`. -/
def analyzeDouble (settings : Settings) (W : World) (text : String) :
    Except JsError Result × World :=
  let words := tokenize text
  match buildSpans settings words words 0 W with
  | (.error e, W1) => (.error e, W1)
  | (.ok spans, W1) =>
    let groups := rhymeGroupsDouble settings spans
    (.ok { words := words, spans := spans, groups := groups
           assonance := assonanceGroups settings spans
           scheme := schemeOf spans groups }, W1)

/-- The result of `analyze` on the two lines `best` and `melt` when
`perfectThreshold` is `0.19999999999999998` (default settings otherwise). -/
def resultBestMeltNear : Result :=
  { words := [⟨"best", 0, 0⟩, ⟨"melt", 1, 0⟩]
    spans :=
      [⟨0, 0, "best", ["EH"], ["B", "S", "T"], "EH|T", true⟩,
       ⟨1, 1, "melt", ["EH"], ["M", "L", "T"], "EH|T", true⟩]
    groups := [[0, 1]]
    assonance := [[0, 1]]
    scheme := ["A", "A"] }

/-! ## Lemmas on the distance model -/

theorem nucleusDistance_comm (a b : List String) : nucleusDistance a b = nucleusDistance b a := by
  unfold nucleusDistance
  by_cases h : vowelClass a = vowelClass b
  · simp [h]
  · have h' : ¬ vowelClass b = vowelClass a := fun e => h e.symm
    by_cases hf : vowelFamily a = vowelFamily b
    · simp [h, h', hf]
    · have hf' : ¬ vowelFamily b = vowelFamily a := fun e => hf e.symm
      simp [h, h', hf, hf']

theorem codaStep_comm (aC bC : List String) : codaStep aC bC = codaStep bC aC := by
  funext acc i
  unfold codaStep
  by_cases h : codaEq (fromEnd aC i) = codaEq (fromEnd bC i)
  · simp [h]
  · have h' : ¬ codaEq (fromEnd bC i) = codaEq (fromEnd aC i) := fun e => h e.symm
    simp [h, h', and_comm]

theorem codaLoop_comm (aC bC : List String) : codaLoop aC bC = codaLoop bC aC := by
  unfold codaLoop
  rw [codaStep_comm aC bC, max_comm]

theorem codaDistance_comm (aC bC : List String) : codaDistance aC bC = codaDistance bC aC := by
  unfold codaDistance
  rw [codaLoop_comm aC bC, max_comm]

theorem nucleusDistance_self (a : List String) : nucleusDistance a a = 0 := by
  simp [nucleusDistance]

theorem lookup_some_mem {α β : Type} [BEq α] [LawfulBEq α] (k : α) (v : β) :
    ∀ l : List (α × β), l.lookup k = some v → (k, v) ∈ l
  | [], h => by simp [List.lookup] at h
  | (k', v') :: l, h => by
    by_cases hk : k = k'
    · subst hk
      simp [List.lookup] at h
      subst h
      simp
    · have hb : (k == k') = false := by simpa using hk
      simp [List.lookup, hb] at h
      exact List.mem_cons_of_mem _ (lookup_some_mem k v l h)

theorem codaEq_eq_empty (e : String) : codaEq e = "" ↔ e = "" := by
  constructor
  · intro h
    unfold codaEq at h
    cases hl : CODA_EQ.lookup e with
    | none => simpa [hl] using h
    | some v =>
      rw [hl] at h
      simp at h
      subst h
      have hm := lookup_some_mem e "" CODA_EQ hl
      have hall : ∀ p ∈ CODA_EQ, p.2 ≠ "" := by decide
      exact absurd rfl (hall _ hm)
  · intro h; subst h; decide

theorem codaLoop_self_fold (c : List String) (L : List Nat) (acc : Nat × Nat) :
    (L.foldl (codaStep c c) acc).1 = acc.1 ∧
    ((L.foldl (codaStep c c) acc).2 = 0 ↔ acc.2 = 0 ∧ ∀ i ∈ L, fromEnd c i = "") := by
  induction L generalizing acc with
  | nil => simp
  | cons i L ih =>
    simp only [List.foldl_cons]
    obtain ⟨h1, h2⟩ := ih (codaStep c c acc i)
    rw [h1, h2]
    by_cases he : fromEnd c i = ""
    · have : codaStep c c acc i = acc := by
        simp [codaStep, (codaEq_eq_empty _).2 he]
      simp [this, he]
    · have hne : ¬ codaEq (fromEnd c i) = "" := fun h => he ((codaEq_eq_empty _).1 h)
      have : codaStep c c acc i = (acc.1, acc.2 + 1) := by
        simp [codaStep, hne]
      simp [this, he]

theorem fromEnd_eq_reverse (c : List String) (k : Nat) (hk : k < c.length) :
    fromEnd c (k + 1) = c.reverse.getD k "" := by
  unfold fromEnd
  have h1 : k + 1 ≤ c.length := hk
  simp only [h1, if_true]
  rw [List.getD_eq_getElem?_getD, List.getD_eq_getElem?_getD, List.getElem?_reverse hk]
  congr 2
  omega

theorem codaLoop_self_comp (c : List String) :
    (codaLoop c c).2 = 0 ↔ comparesSome c = false := by
  unfold codaLoop comparesSome
  rw [(codaLoop_self_fold c _ (0, 0)).2]
  simp only [max_self, true_and, List.mem_map, List.mem_range, forall_exists_index, and_imp,
    forall_apply_eq_imp_iff₂, List.any_eq_false, bne_iff_ne, ne_eq, not_not]
  constructor
  · intro h e he
    obtain ⟨k, hk, rfl⟩ := List.getElem_of_mem he
    have hk3 : k < 3 ∧ k < c.reverse.length := by
      simpa [List.length_take] using hk
    have hkc : k < c.length := by simpa using hk3.2
    have := h k (by omega)
    rw [fromEnd_eq_reverse c k hkc] at this
    rw [List.getElem_take]
    rw [List.getD_eq_getElem?_getD, List.getElem?_eq_getElem hk3.2] at this
    simpa using this
  · intro h k hk
    have hkc : k < c.length := by omega
    rw [fromEnd_eq_reverse c k hkc]
    have hkr : k < c.reverse.length := by simpa using hkc
    rw [List.getD_eq_getElem?_getD, List.getElem?_eq_getElem hkr]
    simp only [Option.getD_some]
    apply h
    have hk2 : k < (c.reverse.take 3).length := by
      simp [List.length_take]; omega
    have : (c.reverse.take 3)[k] = c.reverse[k] := List.getElem_take ..
    rw [← this]
    exact List.getElem_mem hk2

theorem codaDistance_self (c : List String) :
    codaDistance c c = if comparesSome c then 0 else 6 / 10 := by
  unfold codaDistance
  have hs := (codaLoop_self_fold c
    ((List.range (min 3 (max c.length c.length))).map (· + 1)) (0, 0)).1
  have hc := codaLoop_self_comp c
  by_cases hlen : max c.length c.length = 0
  · have hnil : c = [] := by
      have : c.length = 0 := by simpa using hlen
      exact List.length_eq_zero.mp this
    subst hnil
    simp [comparesSome]
  · simp only [hlen, if_false]
    by_cases h0 : (codaLoop c c).2 = 0
    · simp [h0, hc.1 h0]
    · have hne : comparesSome c = true := by
        cases hcs : comparesSome c with
        | true => rfl
        | false => exact absurd (hc.2 hcs) h0
      have hscore : (codaLoop c c).1 = 0 := by
        unfold codaLoop; simpa using hs
      simp [h0, hne, hscore]

theorem rhymeDistance_self (a : NucleusCoda) :
    rhymeDistance a a = if comparesSome a.coda then 0 else 9 / 50 := by
  unfold rhymeDistance
  rw [nucleusDistance_self, codaDistance_self]
  split <;> norm_num


/-! ## The cache never changes a result -/

theorem JsMap.get_set {κ ν : Type} [DecidableEq κ] (m : JsMap κ ν) (k k' : κ) (v : ν) :
    (m.set k v).get k' = if k = k' then some v else m.get k' := by
  induction m with
  | nil =>
    by_cases h : k = k' <;> simp [JsMap.set, JsMap.get, h]
  | cons p m ih =>
    obtain ⟨k0, v0⟩ := p
    by_cases h0 : k0 = k
    · subst h0
      by_cases h : k0 = k' <;> simp [JsMap.set, JsMap.get, h]
    · by_cases h1 : k0 = k'
      · subst h1
        have hk : ¬ k = k0 := fun e => h0 e.symm
        simp [JsMap.set, JsMap.get, h0, hk]
      · simp [JsMap.set, JsMap.get, h0, h1, ih]

theorem ownIndex_bound (key : String) :
    ∀ (l : List (String × List String)) (n a : Nat),
      ownIndex key l n = some a → n ≤ a ∧ a < n + l.length
  | [], n, a, h => by simp [ownIndex] at h
  | (k, _) :: rest, n, a, h => by
    unfold ownIndex at h
    by_cases hk : k = key
    · simp [hk] at h
      subst h
      simp
    · simp [hk] at h
      have := ownIndex_bound key rest (n + 1) a h
      simp only [List.length_cons]
      omega

theorem CUSTOM_ARPA_array_lt (key : String) (a : Nat)
    (h : CUSTOM_ARPA key = some (.array a)) : a < World.fresh.heap.length := by
  unfold CUSTOM_ARPA at h
  cases ho : ownIndex key CUSTOM_ARPA_OWN 0 with
  | none =>
    rw [ho] at h
    by_cases hc : OBJECT_PROTOTYPE_KEYS.contains key = true <;> simp [hc] at h
  | some b =>
    rw [ho] at h
    simp at h
    subst h
    have := (ownIndex_bound key CUSTOM_ARPA_OWN 0 b ho).2
    simpa [World.fresh] using this

theorem Coherent.fresh : Coherent Session.fresh where
  base := fun _ _ => rfl
  held_lt := by simp [Session.fresh]
  held_free := by simp [Session.fresh]
  cached := by simp [Session.fresh, World.fresh, JsMap.get]

theorem Coherent.fresh_le {S : Session} (h : Coherent S) :
    World.fresh.heap.length ≤ S.world.heap.length := by
  by_contra hlt
  have hlt : S.world.heap.length < World.fresh.heap.length := by omega
  have := h.base S.world.heap.length hlt
  rw [List.getElem?_eq_none (le_refl _), List.getElem?_eq_getElem hlt] at this
  exact absurd this (by simp)

theorem Coherent.cached_lt {S : Session} (h : Coherent S) (key : String) (a : Nat)
    (hc : S.world.phoneCache.get key = some (.array a)) : a < S.world.heap.length := by
  rcases h.cached key _ hc with h1 | ⟨_, b, hb, hh⟩
  · exact lt_of_lt_of_le (CUSTOM_ARPA_array_lt key a h1) h.fresh_le
  · cases hb
    by_contra hge
    rw [List.getElem?_eq_none (by omega)] at hh
    exact absurd hh (by simp)

theorem Coherent.cached_content {S : Session} (h : Coherent S) (key : String) (v : JsValue)
    (hc : S.world.phoneCache.get key = some v) :
    (match v with
      | .array a => Except.ok (S.world.heap.getD a [])
      | .inherited => Except.error JsError.typeError) = phonesOf key := by
  rcases h.cached key v hc with h1 | ⟨h1, b, hb, hh⟩
  · cases v with
    | inherited => simp [phonesOf, h1]
    | array a =>
      have hlt := CUSTOM_ARPA_array_lt key a h1
      simp only [phonesOf, h1]
      rw [List.getD_eq_getElem?_getD, List.getD_eq_getElem?_getD, h.base a hlt]
  · subst hb
    simp [phonesOf, h1, List.getD_eq_getElem?_getD, hh]

/-- Holding fewer arrays keeps a session coherent. -/
theorem Coherent.forget {W : World} {held held' : List Nat}
    (h : Coherent { world := W, held := held }) (hsub : ∀ a ∈ held', a ∈ held) :
    Coherent { world := W, held := held' } where
  base := h.base
  held_lt := fun a ha => h.held_lt a (hsub a ha)
  held_free := fun a ha => h.held_free a (hsub a ha)
  cached := h.cached

/-- Allocation keeps a session coherent, and the new array may be handed out. -/
theorem Coherent.alloc {W : World} {held : List Nat}
    (h : Coherent { world := W, held := held }) (content : List String) :
    Coherent { world := (W.alloc content).2, held := (W.alloc content).1 :: held } where
  base := by
    intro a ha
    have hle := h.fresh_le
    simp only [World.alloc] at hle ⊢
    rw [List.getElem?_append_left (by omega)]
    exact h.base a ha
  held_lt := by
    intro a ha
    have hle := h.fresh_le
    simp only [World.alloc, List.mem_cons, List.length_append, List.length_singleton] at ha hle ⊢
    rcases ha with rfl | ha
    · omega
    · have := h.held_lt a ha
      simp only at this
      omega
  held_free := by
    intro a ha key hc
    simp only [World.alloc, List.mem_cons] at ha hc
    rcases ha with rfl | ha
    · have := h.cached_lt key _ hc
      simp at this
    · exact h.held_free a ha key hc
  cached := by
    intro key v hc
    simp only [World.alloc] at hc ⊢
    rcases h.cached key v hc with h1 | ⟨h1, b, hb, hh⟩
    · exact Or.inl h1
    · refine Or.inr ⟨h1, b, hb, ?_⟩
      have hlt : b < W.heap.length := by
        by_contra hge
        simp only at hh
        rw [List.getElem?_eq_none (by omega)] at hh
        exact absurd hh (by simp)
      rw [List.getElem?_append_left hlt]
      exact hh

theorem alloc_getD (W : World) (content : List String) :
    (W.alloc content).2.heap.getD (W.alloc content).1 [] = content := by
  simp [World.alloc, List.getD_eq_getElem?_getD]


/-- A cache entry that a cache miss would compute, for an array no caller
holds, keeps a session coherent. -/
theorem Coherent.cache_set {W : World} {held : List Nat}
    (h : Coherent { world := W, held := held }) (key : String) (v : JsValue)
    (hv : CUSTOM_ARPA key = some v ∨
      (CUSTOM_ARPA key = none ∧ ∃ a, v = .array a ∧ W.heap[a]? = some (heuristicPhones key)))
    (hfree : ∀ a ∈ held, v ≠ .array a) :
    Coherent { world := { W with phoneCache := W.phoneCache.set key v }, held := held } where
  base := h.base
  held_lt := h.held_lt
  held_free := by
    intro a ha key' hc
    simp only [JsMap.get_set] at hc
    by_cases hk : key = key'
    · simp only [hk, if_true, Option.some.injEq] at hc
      exact hfree a ha hc
    · simp only [hk, if_false] at hc
      exact h.held_free a ha key' hc
  cached := by
    intro key' v' hc
    simp only [JsMap.get_set] at hc ⊢
    by_cases hk : key = key'
    · simp only [hk, if_true, Option.some.injEq] at hc
      subst hk; subst hc
      exact hv
    · simp only [hk, if_false] at hc
      exact h.cached key' v' hc

theorem slice_coherent {W : World} {held : List Nat}
    (h : Coherent { world := W, held := held }) (key : String) (v : JsValue)
    (hc : W.phoneCache.get key = some v) :
    returnedPhones (W.slice v) = phonesOf key ∧
    Coherent { world := (W.slice v).2, held := heldAfter (W.slice v) held } := by
  have hcont := h.cached_content key v hc
  cases v with
  | inherited =>
    refine ⟨?_, ?_⟩
    · simpa [World.slice, returnedPhones] using hcont
    · simpa [World.slice, heldAfter] using h
  | array a =>
    refine ⟨?_, ?_⟩
    · simp only [World.slice, returnedPhones]
      rw [alloc_getD]
      exact hcont
    · simpa [World.slice, heldAfter] using h.alloc (W.heap.getD a [])

theorem wordToPhones_coherent {W : World} {held : List Nat}
    (h : Coherent { world := W, held := held }) (w : String) :
    returnedPhones (wordToPhones W w) = wordToPhonesPure w ∧
    Coherent { world := (wordToPhones W w).2, held := heldAfter (wordToPhones W w) held } := by
  unfold wordToPhones wordToPhonesPure
  by_cases hkey : cleanWord w = ""
  · simp only [hkey, if_true]
    refine ⟨?_, ?_⟩
    · simp only [returnedPhones]
      rw [alloc_getD]
    · simpa [heldAfter] using h.alloc []
  · simp only [hkey, if_false]
    cases hget : W.phoneCache.get (cleanWord w) with
    | some c => exact slice_coherent h (cleanWord w) c hget
    | none =>
      simp only
      cases hcus : CUSTOM_ARPA (cleanWord w) with
      | some v =>
        simp only
        have hfree : ∀ a ∈ held, v ≠ .array a := by
          intro a ha hva
          subst hva
          have h1 := CUSTOM_ARPA_array_lt _ a hcus
          have h2 := (h.held_lt a ha).1
          omega
        have h2 := h.cache_set (cleanWord w) v (Or.inl hcus) hfree
        exact slice_coherent h2 (cleanWord w) v (by simp [JsMap.get_set])
      | none =>
        simp only
        have h1 := @Coherent.forget _ _ held (h.alloc (heuristicPhones (cleanWord w)))
          (fun a ha => List.mem_cons_of_mem _ ha)
        have hfree : ∀ a ∈ held, JsValue.array (W.alloc (heuristicPhones (cleanWord w))).1
            ≠ .array a := by
          intro a ha hva
          have h2 := (h.held_lt a ha).2
          simp only [World.alloc, JsValue.array.injEq] at hva h2
          omega
        have h2 := h1.cache_set (cleanWord w) (.array (W.alloc (heuristicPhones (cleanWord w))).1)
          (Or.inr ⟨hcus, _, rfl, by simp [World.alloc]⟩) hfree
        exact slice_coherent h2 (cleanWord w) _ (by simp [JsMap.get_set])


theorem buildSpans_coherent (settings : Settings) (words : List Token) :
    ∀ (rest : List Token) (i : Nat) (W : World) (held : List Nat),
      Coherent { world := W, held := held } →
      (buildSpans settings words rest i W).1 = buildSpansPure settings words rest i ∧
      Coherent { world := (buildSpans settings words rest i W).2, held := held }
  | [], _, W, held, h => by simpa [buildSpans, buildSpansPure] using h
  | w :: rest, i, W, held, h => by
    unfold buildSpans buildSpansPure
    by_cases hstop : (settings.ignoreStopwords && STOPWORDS.contains w.word) = true
    · simp only [hstop, if_true]
      exact buildSpans_coherent settings words rest (i + 1) W held h
    · simp only [hstop, if_false]
      obtain ⟨hret, hcoh⟩ := wordToPhones_coherent h w.word
      rcases hr : wordToPhones W w.word with ⟨r1, W1⟩
      rw [hr] at hret hcoh
      cases r1 with
      | error e =>
        simp only [returnedPhones] at hret
        simp only [← hret]
        exact ⟨rfl, by simpa [heldAfter] using hcoh⟩
      | ok addr =>
        simp only [returnedPhones] at hret
        simp only [← hret]
        have hcoh1 : Coherent { world := W1, held := held } :=
          hcoh.forget (fun a ha => by simp [heldAfter, ha])
        cases hle : isLineEnd i words with
        | error e => exact ⟨rfl, hcoh1⟩
        | ok isEnd =>
          simp only
          obtain ⟨ih1, ih2⟩ := buildSpans_coherent settings words rest (i + 1) W1 held hcoh1
          rcases hb : buildSpans settings words rest (i + 1) W1 with ⟨r2, W2⟩
          rw [hb] at ih1 ih2
          simp only at ih1 ih2
          rw [← ih1]
          cases r2 with
          | error e => exact ⟨rfl, ih2⟩
          | ok spans => exact ⟨rfl, ih2⟩

theorem analyze_coherent (settings : Settings) (text : String) {W : World} {held : List Nat}
    (h : Coherent { world := W, held := held }) :
    (analyze settings W text).1 = analyzePure settings text ∧
    Coherent { world := (analyze settings W text).2, held := held } := by
  unfold analyze analyzePure
  obtain ⟨h1, h2⟩ := buildSpans_coherent settings (tokenize text) (tokenize text) 0 W held h
  rcases hb : buildSpans settings (tokenize text) (tokenize text) 0 W with ⟨r, W1⟩
  rw [hb] at h1 h2
  simp only at h1 h2
  simp only [hb, ← h1]
  cases r with
  | error e => exact ⟨rfl, h2⟩
  | ok spans => exact ⟨rfl, h2⟩

theorem analyzeFresh_eq_pure (settings : Settings) (text : String) :
    analyzeFresh settings text = analyzePure settings text :=
  (analyze_coherent settings text Coherent.fresh).1

/-- Overwriting an array a caller holds keeps a session coherent. -/
theorem Coherent.mutate {S : Session} (h : Coherent S) (addr : Nat) (content : List String)
    (ha : addr ∈ S.held) :
    Coherent { S with world := { S.world with heap := S.world.heap.set addr content } } where
  base := by
    intro a hlt
    have h1 := (h.held_lt addr ha).1
    simp only
    rw [List.getElem?_set_ne (by omega)]
    exact h.base a hlt
  held_lt := by
    intro a ha'
    simpa using h.held_lt a ha'
  held_free := h.held_free
  cached := by
    intro key v hc
    rcases h.cached key v hc with h1 | ⟨h1, b, hb, hh⟩
    · exact Or.inl h1
    · refine Or.inr ⟨h1, b, hb, ?_⟩
      have hne : addr ≠ b := by
        intro e
        subst e
        subst hb
        exact h.held_free addr ha key hc
      simp only
      rw [List.getElem?_set_ne hne]
      exact hh

theorem Coherent.step (settings : Settings) {S : Session} (h : Coherent S) (act : Action) :
    Coherent (S.step settings act) := by
  cases act with
  | callWordToPhones w => exact (@wordToPhones_coherent S.world S.held h w).2
  | callAnalyze text => exact (@analyze_coherent settings text S.world S.held h).2
  | mutate addr content =>
    unfold Session.step
    by_cases ha : addr ∈ S.held
    · simp only [ha, if_true]
      exact h.mutate addr content ha
    · simp only [ha, if_false]
      exact h

theorem Coherent.run (settings : Settings) (acts : List Action) :
    ∀ {S : Session}, Coherent S → Coherent (S.run settings acts) := by
  induction acts with
  | nil => intro S h; exact h
  | cons act acts ih =>
    intro S h
    exact ih (h.step settings act)


/-! ## `wordToPhones` returns phonemes -/

theorem heuristicPhones_ne_nil (word : String) : heuristicPhones word ≠ [] := by
  unfold heuristicPhones
  simp only
  split
  · simp
  · rename_i h
    intro e
    rw [e] at h
    simp at h

theorem toLower_not_upper (c : Char) (h : c.isUpper = true) : c.toLower.isUpper = false := by
  have hb : 65 ≤ c.toNat ∧ c.toNat ≤ 90 := by
    simp only [Char.isUpper, Bool.and_eq_true, decide_eq_true_eq] at h
    exact ⟨h.1, h.2⟩
  unfold Char.toLower
  simp only [ge_iff_le, hb.1, hb.2, and_self, if_true]
  obtain ⟨h1, h2⟩ := hb
  generalize c.toNat = n at h1 h2
  interval_cases n <;> decide

theorem lowerChar_not_upper (c0 c : Char) (h : c ∈ lowerChar c0) : c.isUpper = false := by
  unfold lowerChar at h
  by_cases hu : c0.isUpper = true
  · rw [if_pos hu, List.mem_singleton] at h
    subst h
    exact toLower_not_upper c0 hu
  · rw [if_neg hu] at h
    by_cases hk : c0 = Char.ofNat 0x212A
    · rw [if_pos hk, List.mem_singleton] at h
      subst h
      decide
    · rw [if_neg hk] at h
      by_cases hi : c0 = Char.ofNat 0x0130
      · rw [if_pos hi] at h
        have hall : ∀ d ∈ ['i', Char.ofNat 0x0307], d.isUpper = false := by decide
        exact hall c h
      · rw [if_neg hi, List.mem_singleton] at h
        subst h
        simpa using hu

theorem cleanWord_chars (w : String) (c : Char) (h : c ∈ (cleanWord w).data) :
    isCleanChar c = true ∧ c.isUpper = false := by
  unfold cleanWord at h
  simp only [List.mem_reverse] at h
  have h1 := (List.dropWhile_sublist _).subset h
  rw [List.mem_reverse] at h1
  have h2 := (List.dropWhile_sublist _).subset h1
  rw [List.mem_filter] at h2
  refine ⟨h2.2, ?_⟩
  have h3 := h2.1
  unfold toLowerCase at h3
  rw [List.mem_flatMap] at h3
  obtain ⟨c0, _, hc⟩ := h3
  exact lowerChar_not_upper c0 c hc

theorem CUSTOM_ARPA_inherited_clean (w : String)
    (h : CUSTOM_ARPA (cleanWord w) = some .inherited) : cleanWord w = "constructor" := by
  unfold CUSTOM_ARPA at h
  cases ho : ownIndex (cleanWord w) CUSTOM_ARPA_OWN 0 with
  | some a => rw [ho] at h; simp at h
  | none =>
    rw [ho] at h
    by_cases hc : OBJECT_PROTOTYPE_KEYS.contains (cleanWord w) = true
    · have hmem : cleanWord w ∈ OBJECT_PROTOTYPE_KEYS := by
        rw [List.contains_iff_exists_mem_beq] at hc
        obtain ⟨k, hk, hkeq⟩ := hc
        rw [beq_iff_eq] at hkeq
        rw [hkeq]
        exact hk
      have hall : ∀ k ∈ OBJECT_PROTOTYPE_KEYS,
          k.data.all (fun c => isCleanChar c && !c.isUpper) = true → k = "constructor" := by
        decide
      apply hall _ hmem
      rw [List.all_eq_true]
      intro c hcm
      have := cleanWord_chars w c hcm
      simp [this.1, this.2]
    · rw [if_neg hc] at h
      cases h

theorem phonesOf_ne_nil (key : String) (h : CUSTOM_ARPA key ≠ some .inherited) :
    ∃ ph, phonesOf key = .ok ph ∧ ph ≠ [] := by
  unfold phonesOf
  cases hc : CUSTOM_ARPA key with
  | none => exact ⟨_, rfl, heuristicPhones_ne_nil key⟩
  | some v =>
    cases v with
    | inherited => exact absurd hc h
    | array a =>
      refine ⟨_, rfl, ?_⟩
      have hlt := CUSTOM_ARPA_array_lt key a hc
      have hall : ∀ b, b < World.fresh.heap.length → World.fresh.heap.getD b [] ≠ [] := by
        decide
      exact hall a hlt

theorem wordToPhonesPure_ne_nil (w : String) (h1 : cleanWord w ≠ "")
    (h2 : cleanWord w ≠ "constructor") :
    ∃ ph, wordToPhonesPure w = .ok ph ∧ ph ≠ [] := by
  unfold wordToPhonesPure
  simp only [h1, if_false]
  exact phonesOf_ne_nil _ (fun h => h2 (CUSTOM_ARPA_inherited_clean w h))

/-! ## The `Map` of buckets -/

theorem JsMap.get_eq_none {κ ν : Type} [DecidableEq κ] (m : JsMap κ ν) (k : κ) :
    m.get k = none ↔ k ∉ m.map Prod.fst := by
  induction m with
  | nil => simp [JsMap.get]
  | cons p m ih =>
    obtain ⟨k0, v0⟩ := p
    by_cases h : k0 = k
    · simp [JsMap.get, h]
    · have h' : ¬ k = k0 := fun e => h e.symm
      simp [JsMap.get, h, h', ih]

theorem JsMap.mem_of_get {κ ν : Type} [DecidableEq κ] (m : JsMap κ ν) (k : κ) (v : ν)
    (h : m.get k = some v) : (k, v) ∈ m := by
  induction m with
  | nil => simp [JsMap.get] at h
  | cons p m ih =>
    obtain ⟨k0, v0⟩ := p
    by_cases hk : k0 = k
    · simp [JsMap.get, hk] at h
      simp [hk, h]
    · simp [JsMap.get, hk] at h
      exact List.mem_cons_of_mem _ (ih h)

theorem JsMap.keys_set {κ ν : Type} [DecidableEq κ] (m : JsMap κ ν) (k : κ) (v : ν) :
    (m.set k v).map Prod.fst =
      if k ∈ m.map Prod.fst then m.map Prod.fst else m.map Prod.fst ++ [k] := by
  induction m with
  | nil => simp [JsMap.set]
  | cons p m ih =>
    obtain ⟨k0, v0⟩ := p
    by_cases h : k0 = k
    · simp [JsMap.set, h]
    · have h' : ¬ k = k0 := fun e => h e.symm
      simp only [JsMap.set, h, if_false, List.map_cons, ih, List.mem_cons, h', false_or]
      split <;> simp

theorem JsMap.mem_set_iff {κ ν : Type} [DecidableEq κ] (m : JsMap κ ν) (k : κ) (v : ν)
    (hnd : (m.map Prod.fst).Nodup) (p : κ × ν) :
    p ∈ m.set k v ↔ p = (k, v) ∨ (p ∈ m ∧ p.1 ≠ k) := by
  induction m with
  | nil => simp [JsMap.set]
  | cons p0 m ih =>
    obtain ⟨k0, v0⟩ := p0
    rw [List.map_cons, List.nodup_cons] at hnd
    by_cases h : k0 = k
    · subst h
      simp only [JsMap.set, if_true, List.mem_cons]
      constructor
      · rintro (h1 | h1)
        · exact Or.inl h1
        · refine Or.inr ⟨Or.inr h1, ?_⟩
          intro e
          exact hnd.1 (List.mem_map.2 ⟨p, h1, e⟩)
      · rintro (h1 | ⟨h1 | h1, h2⟩)
        · exact Or.inl h1
        · rw [h1] at h2
          exact absurd rfl h2
        · exact Or.inr h1
    · simp only [JsMap.set, h, if_false, List.mem_cons, ih hnd.2]
      constructor
      · rintro (h1 | h1 | h1)
        · refine Or.inr ⟨Or.inl h1, ?_⟩
          rw [h1]
          exact h
        · exact Or.inl h1
        · exact Or.inr ⟨Or.inr h1.1, h1.2⟩
      · rintro (h1 | ⟨h1 | h1, h2⟩)
        · exact Or.inr (Or.inl h1)
        · exact Or.inl h1
        · exact Or.inr (Or.inr ⟨h1, h2⟩)

theorem BucketsWF.push {keys : List String} {m : Nat} {buckets : JsMap String (List Nat)}
    (h : BucketsWF keys m buckets) (k : String) (hk : keys[m]? = some k) :
    BucketsWF keys (m + 1) (bucketPush buckets k m) := by
  unfold bucketPush
  cases hget : buckets.get k with
  | none =>
    have hnot : k ∉ buckets.map Prod.fst := (JsMap.get_eq_none buckets k).1 hget
    have hne : ∀ p ∈ buckets, p.1 ≠ k := by
      intro p hp e
      exact hnot (e ▸ List.mem_map_of_mem _ hp)
    simp only
    refine ⟨?_, ?_, ?_, ?_⟩
    · rw [JsMap.keys_set, if_neg hnot]
      exact List.Nodup.append h.nodupKeys (List.nodup_singleton k) (by simpa using hnot)
    · intro p hp
      rcases (JsMap.mem_set_iff buckets k [m] h.nodupKeys p).1 hp with h1 | h1
      · subst h1; simp
      · exact h.sorted p h1.1
    · intro p hp idx
      rcases (JsMap.mem_set_iff buckets k [m] h.nodupKeys p).1 hp with h1 | h1
      · subst h1
        simp only [List.mem_singleton]
        constructor
        · intro e; subst e; exact ⟨Nat.lt_succ_self _, hk⟩
        · rintro ⟨hlt, hkey⟩
          by_contra hne'
          have hlt' : idx < m := by omega
          obtain ⟨p', hp', hidx⟩ := h.cover idx hlt'
          have := ((h.mem_iff p' hp' idx).1 hidx).2
          rw [hkey] at this
          exact hne p' hp' (Option.some.inj this).symm
      · rw [h.mem_iff p h1.1 idx]
        constructor
        · rintro ⟨hlt, hkey⟩; exact ⟨by omega, hkey⟩
        · rintro ⟨hlt, hkey⟩
          refine ⟨?_, hkey⟩
          by_contra hge
          have : idx = m := by omega
          subst this
          rw [hk] at hkey
          exact h1.2 (Option.some.inj hkey).symm
    · intro idx hlt
      by_cases he : idx = m
      · exact ⟨(k, [m]), (JsMap.mem_set_iff buckets k [m] h.nodupKeys _).2 (Or.inl rfl),
          by simp [he]⟩
      · obtain ⟨p', hp', hidx⟩ := h.cover idx (by omega)
        exact ⟨p', (JsMap.mem_set_iff buckets k [m] h.nodupKeys _).2
          (Or.inr ⟨hp', hne p' hp'⟩), hidx⟩
  | some arr =>
    have hmem : (k, arr) ∈ buckets := JsMap.mem_of_get buckets k arr hget
    have hin : k ∈ buckets.map Prod.fst := List.mem_map_of_mem Prod.fst hmem
    have huniq : ∀ p ∈ buckets, p.1 = k → p = (k, arr) := by
      intro p hp e
      have h1 := (h.nodupKeys)
      obtain ⟨k', a'⟩ := p
      simp only at e
      subst e
      have := List.inj_on_of_nodup_map h1 hp hmem rfl
      exact this
    simp only
    refine ⟨?_, ?_, ?_, ?_⟩
    · rw [JsMap.keys_set, if_pos hin]
      exact h.nodupKeys
    · intro p hp
      rcases (JsMap.mem_set_iff buckets k _ h.nodupKeys p).1 hp with h1 | h1
      · subst h1
        simp only
        rw [List.pairwise_append]
        refine ⟨h.sorted _ hmem, by simp, ?_⟩
        intro a ha b hb
        rw [List.mem_singleton] at hb
        subst hb
        exact ((h.mem_iff _ hmem a).1 ha).1
      · exact h.sorted p h1.1
    · intro p hp idx
      rcases (JsMap.mem_set_iff buckets k _ h.nodupKeys p).1 hp with h1 | h1
      · subst h1
        simp only [List.mem_append, List.mem_singleton]
        rw [h.mem_iff _ hmem idx]
        constructor
        · rintro (⟨hlt, hkey⟩ | e)
          · exact ⟨by omega, hkey⟩
          · subst e; exact ⟨Nat.lt_succ_self _, hk⟩
        · rintro ⟨hlt, hkey⟩
          by_cases he : idx = m
          · exact Or.inr he
          · exact Or.inl ⟨by omega, hkey⟩
      · rw [h.mem_iff p h1.1 idx]
        constructor
        · rintro ⟨hlt, hkey⟩; exact ⟨by omega, hkey⟩
        · rintro ⟨hlt, hkey⟩
          refine ⟨?_, hkey⟩
          by_contra hge
          have : idx = m := by omega
          subst this
          rw [hk] at hkey
          exact h1.2 (Option.some.inj hkey).symm
    · intro idx hlt
      by_cases he : idx = m
      · exact ⟨(k, arr ++ [m]), (JsMap.mem_set_iff buckets k _ h.nodupKeys _).2 (Or.inl rfl),
          by simp [he]⟩
      · obtain ⟨p', hp', hidx⟩ := h.cover idx (by omega)
        by_cases hk' : p'.1 = k
        · have := huniq p' hp' hk'
          subst this
          exact ⟨(k, arr ++ [m]), (JsMap.mem_set_iff buckets k _ h.nodupKeys _).2 (Or.inl rfl),
            by simp [hidx]⟩
        · exact ⟨p', (JsMap.mem_set_iff buckets k _ h.nodupKeys _).2 (Or.inr ⟨hp', hk'⟩), hidx⟩

theorem fillBuckets_wf (keys : List String) :
    ∀ (ks : List String) (m : Nat) (buckets : JsMap String (List Nat)),
      BucketsWF keys m buckets → (∀ j, ks[j]? = keys[m + j]?) → m + ks.length = keys.length →
      BucketsWF keys keys.length (fillBuckets ks m buckets)
  | [], m, buckets, h, _, hlen => by
    simp only [List.length_nil, Nat.add_zero] at hlen
    subst hlen
    exact h
  | k :: ks, m, buckets, h, hks, hlen => by
    unfold fillBuckets
    have hk : keys[m]? = some k := by simpa using (hks 0).symm
    refine fillBuckets_wf keys ks (m + 1) _ (h.push k hk) ?_ ?_
    · intro j
      have := hks (j + 1)
      simp only [List.getElem?_cons_succ] at this
      rw [this]
      congr 1
      omega
    · simp only [List.length_cons] at hlen
      omega

theorem BucketsWF.empty (keys : List String) : BucketsWF keys 0 [] :=
  ⟨by simp, by simp, by simp, by simp⟩

theorem fillBuckets_all (keys : List String) :
    BucketsWF keys keys.length (fillBuckets keys 0 []) :=
  fillBuckets_wf keys keys 0 [] (BucketsWF.empty keys) (by simp) (by simp)

/-! ## The greedy grouping loops -/

theorem joinLoop_spec (join : Nat → Nat → Bool) (a gid : Nat) :
    ∀ (L : List Nat) (st : List Nat × List Int), L.Nodup →
      (joinLoop join a gid L st).1 = st.1 ++ joined join a L st.2 ∧
      ∀ idx : Nat, (joinLoop join a gid L st).2[idx]? =
        if idx ∈ joined join a L st.2 then some (gid : Int) else st.2[idx]?
  | [], st, _ => by simp [joinLoop, joined]
  | b :: L, st, hnd => by
    rw [List.nodup_cons] at hnd
    obtain ⟨hb, hL⟩ := hnd
    unfold joinLoop
    by_cases hfree : st.2[b]? = some (-1)
    · by_cases hj : join a b = true
      · simp only [hfree, ne_eq, not_true_eq_false, if_false, hj, if_true]
        obtain ⟨ih1, ih2⟩ := joinLoop_spec join a gid L (st.1 ++ [b], st.2.set b (gid : Int)) hL
        have hcongr : joined join a L (st.2.set b (gid : Int)) = joined join a L st.2 := by
          unfold joined
          apply List.filter_congr
          intro c hc
          have hne : b ≠ c := fun e => hb (e ▸ hc)
          simp [Grouping.free, List.getElem?_set_ne hne]
        have hcons : joined join a (b :: L) st.2 = b :: joined join a L st.2 := by
          simp [joined, Grouping.free, hfree, hj]
        rw [hcongr] at ih1 ih2
        refine ⟨by rw [ih1, hcons]; simp, ?_⟩
        intro idx
        rw [ih2 idx, hcons]
        by_cases he : idx = b
        · subst he
          have hnot : idx ∉ joined join a L st.2 := fun h => hb (List.mem_filter.1 h).1
          have hlt : idx < st.2.length := by
            by_contra hge
            rw [List.getElem?_eq_none (by omega)] at hfree
            exact absurd hfree (by simp)
          simp [hnot, List.getElem?_set_self hlt]
        · have hne : b ≠ idx := fun e => he e.symm
          simp [he, List.getElem?_set_ne hne]
      · simp only [hfree, ne_eq, not_true_eq_false, if_false, hj]
        have hcons : joined join a (b :: L) st.2 = joined join a L st.2 := by
          simp [joined, Grouping.free, hfree, hj]
        rw [hcons]
        exact joinLoop_spec join a gid L st hL
    · simp only [ne_eq, hfree, not_false_eq_true, if_true]
      have hcons : joined join a (b :: L) st.2 = joined join a L st.2 := by
        simp [joined, Grouping.free, hfree]
      rw [hcons]
      exact joinLoop_spec join a gid L st hL

/-- What one pass of the loop over a bucket does, for an anchor that is in no
group so far: with partners, the group of the anchor and its partners is
appended and its members are marked; without, nothing changes. -/
theorem anchorStep_free (join : Nat → Nat → Bool) (x : Nat) (rest : List Nat) (G : Grouping)
    (hnd : (x :: rest).Nodup) (hfree : G.groupOf[x]? = some (-1)) :
    (joined join x rest G.groupOf ≠ [] →
      (anchorStep join x rest G).groups = G.groups ++ [x :: joined join x rest G.groupOf] ∧
      ∀ idx : Nat, (anchorStep join x rest G).groupOf[idx]? =
        if idx = x ∨ idx ∈ joined join x rest G.groupOf then some (G.groups.length : Int)
        else G.groupOf[idx]?) ∧
    (joined join x rest G.groupOf = [] →
      (anchorStep join x rest G).groups = G.groups ∧
      ∀ idx : Nat, (anchorStep join x rest G).groupOf[idx]? = G.groupOf[idx]?) := by
  rw [List.nodup_cons] at hnd
  obtain ⟨hx, hrest⟩ := hnd
  have hlt : x < G.groupOf.length := by
    by_contra hge
    rw [List.getElem?_eq_none (by omega)] at hfree
    exact absurd hfree (by simp)
  obtain ⟨h1, h2⟩ := joinLoop_spec join x G.groups.length rest
    ([x], G.groupOf.set x (G.groups.length : Int)) hrest
  have hcongr : joined join x rest (G.groupOf.set x (G.groups.length : Int)) =
      joined join x rest G.groupOf := by
    unfold joined
    apply List.filter_congr
    intro c hc
    have hne : x ≠ c := fun e => hx (e ▸ hc)
    simp [Grouping.free, List.getElem?_set_ne hne]
  simp only [hcongr] at h1 h2
  have hnotx : x ∉ joined join x rest G.groupOf := fun h => hx (List.mem_filter.1 h).1
  unfold anchorStep
  simp only [hfree, ne_eq, not_true_eq_false, if_false]
  rw [h1]
  constructor
  · intro hne
    have hlen : ([x] ++ joined join x rest G.groupOf).length > 1 := by
      cases hJ : joined join x rest G.groupOf with
      | nil => exact absurd hJ hne
      | cons c cs => simp
    simp only [hlen, if_true]
    refine ⟨by simp, ?_⟩
    intro idx
    rw [h2 idx]
    by_cases he : idx = x
    · subst he
      simp [hnotx, List.getElem?_set_self hlt]
    · have hne' : x ≠ idx := fun e => he e.symm
      simp [he, List.getElem?_set_ne hne']
  · intro hnil
    simp only [hnil, List.append_nil, List.length_singleton, gt_iff_lt, lt_self_iff_false,
      if_false, true_and]
    intro idx
    have h2x := h2 x
    simp only [hnil, List.not_mem_nil, if_false] at h2 h2x
    by_cases he : idx = x
    · subst he
      have hlt2 : idx < (joinLoop join idx G.groups.length rest
          ([idx], G.groupOf.set idx (G.groups.length : Int))).2.length := by
        by_contra hge
        rw [List.getElem?_eq_none (by omega), List.getElem?_set_self hlt] at h2x
        exact absurd h2x (by simp)
      rw [List.getElem?_set_self hlt2, hfree]
    · have hne' : x ≠ idx := fun e => he e.symm
      rw [List.getElem?_set_ne hne', h2 idx, List.getElem?_set_ne hne']

theorem anchorStep_taken (join : Nat → Nat → Bool) (x : Nat) (rest : List Nat) (G : Grouping)
    (h : G.groupOf[x]? ≠ some (-1)) : anchorStep join x rest G = G := by
  unfold anchorStep
  simp [h]

theorem mem_joined (join : Nat → Nat → Bool) (x : Nat) (rest : List Nat) (groupOf : List Int)
    (b : Nat) :
    b ∈ joined join x rest groupOf ↔ b ∈ rest ∧ groupOf[b]? = some (-1) ∧ join x b = true := by
  simp [joined, Grouping.free]

/-- The groups one pass appends hold entries of the bucket only. -/
theorem anchorStep_groups (join : Nat → Nat → Bool) (x : Nat) (rest : List Nat) (G : Grouping)
    (hnd : (x :: rest).Nodup) :
    ∃ new, (anchorStep join x rest G).groups = G.groups ++ new ∧
      ∀ g ∈ new, ∀ idx ∈ g, idx ∈ x :: rest := by
  by_cases hfree : G.groupOf[x]? = some (-1)
  · obtain ⟨h1, h2⟩ := anchorStep_free join x rest G hnd hfree
    by_cases hJ : joined join x rest G.groupOf = []
    · exact ⟨[], by simp [(h2 hJ).1], by simp⟩
    · refine ⟨[x :: joined join x rest G.groupOf], (h1 hJ).1, ?_⟩
      intro g hg idx hidx
      rw [List.mem_singleton] at hg
      subst hg
      rcases List.mem_cons.1 hidx with h | h
      · exact h ▸ List.mem_cons_self _ _
      · exact List.mem_cons_of_mem _ ((mem_joined ..).1 h).1
  · exact ⟨[], by simp [anchorStep_taken join x rest G hfree], by simp⟩

theorem bucketLoop_groups (join : Nat → Nat → Bool) :
    ∀ (arr : List Nat) (G : Grouping), arr.Nodup →
      ∃ new, (bucketLoop join arr G).groups = G.groups ++ new ∧
        ∀ g ∈ new, ∀ idx ∈ g, idx ∈ arr
  | [], G, _ => ⟨[], by simp [bucketLoop], by simp⟩
  | x :: rest, G, hnd => by
    obtain ⟨n1, e1, m1⟩ := anchorStep_groups join x rest G hnd
    obtain ⟨n2, e2, m2⟩ := bucketLoop_groups join rest (anchorStep join x rest G)
      (List.nodup_cons.1 hnd).2
    refine ⟨n1 ++ n2, by rw [bucketLoop, e2, e1, List.append_assoc], ?_⟩
    intro g hg idx hidx
    rcases List.mem_append.1 hg with h | h
    · exact m1 g h idx hidx
    · exact List.mem_cons_of_mem _ (m2 g h idx hidx)

theorem groupLoop_groups (join : Nat → Nat → Bool) :
    ∀ (arrs : List (List Nat)) (G : Grouping), (∀ arr ∈ arrs, arr.Nodup) →
      ∃ new, (groupLoop join arrs G).groups = G.groups ++ new ∧
        ∀ g ∈ new, ∃ arr ∈ arrs, ∀ idx ∈ g, idx ∈ arr
  | [], G, _ => ⟨[], by simp [groupLoop], by simp⟩
  | arr :: arrs, G, hnd => by
    obtain ⟨n1, e1, m1⟩ := bucketLoop_groups join arr G (hnd arr (List.mem_cons_self _ _))
    obtain ⟨n2, e2, m2⟩ := groupLoop_groups join arrs (bucketLoop join arr G)
      (fun a ha => hnd a (List.mem_cons_of_mem _ ha))
    refine ⟨n1 ++ n2, by rw [groupLoop, e2, e1, List.append_assoc], ?_⟩
    intro g hg
    rcases List.mem_append.1 hg with h | h
    · exact ⟨arr, List.mem_cons_self _ _, m1 g h⟩
    · obtain ⟨a, ha, hm⟩ := m2 g h
      exact ⟨a, List.mem_cons_of_mem _ ha, hm⟩

theorem pairwise_lt_nodup {l : List Nat} (h : l.Pairwise (· < ·)) : l.Nodup :=
  h.imp (fun hab => Nat.ne_of_lt hab)

/-- Every rhyme group lies inside one bucket: its members are indices into
`spans` with one bucket key. -/
theorem rhymeGroups_in_bucket (settings : Settings) (spans : List Span) (g : List Nat)
    (hg : g ∈ rhymeGroups settings spans) :
    ∃ k, ∀ idx ∈ g, idx < spans.length ∧ (spans.map Span.bucketKey)[idx]? = some k := by
  have hwf := fillBuckets_all (spans.map Span.bucketKey)
  unfold rhymeGroups at hg
  obtain ⟨new, e, hm⟩ := groupLoop_groups (tryJoin settings spans)
    ((fillBuckets (spans.map Span.bucketKey) 0 []).map Prod.snd)
    { groups := [], groupOf := List.replicate spans.length (-1) }
    (by
      intro arr harr
      obtain ⟨p, hp, rfl⟩ := List.mem_map.1 harr
      exact pairwise_lt_nodup (hwf.sorted p hp))
  simp only at hg
  rw [e] at hg
  simp only [List.nil_append] at hg
  obtain ⟨arr, harr, hin⟩ := hm g hg
  obtain ⟨p, hp, rfl⟩ := List.mem_map.1 harr
  refine ⟨p.1, fun idx hidx => ?_⟩
  have := (hwf.mem_iff p hp idx).1 (hin idx hidx)
  exact ⟨by simpa using this.1, this.2⟩

/-! ## Two line-final spans with one nucleus and coda -/

theorem anchorStep_together (join : Nat → Nat → Bool) (p q x : Nat) (rest : List Nat)
    (G : Grouping) (hnd : (x :: rest).Nodup) (h : Together p q G) :
    Together p q (anchorStep join x rest G) := by
  by_cases hfree : G.groupOf[x]? = some (-1)
  · obtain ⟨h1, h2⟩ := anchorStep_free join x rest G hnd hfree
    obtain ⟨hp, hq, g, hg, hpg, hqg⟩ := h
    have hpx : p ≠ x := fun e => hp (e ▸ hfree)
    have hqx : q ≠ x := fun e => hq (e ▸ hfree)
    have hpJ : p ∉ joined join x rest G.groupOf := fun hm => hp ((mem_joined ..).1 hm).2.1
    have hqJ : q ∉ joined join x rest G.groupOf := fun hm => hq ((mem_joined ..).1 hm).2.1
    by_cases hJ : joined join x rest G.groupOf = []
    · obtain ⟨e1, e2⟩ := h2 hJ
      exact ⟨by rw [e2]; exact hp, by rw [e2]; exact hq, g, by rw [e1]; exact hg, hpg, hqg⟩
    · obtain ⟨e1, e2⟩ := h1 hJ
      refine ⟨?_, ?_, g, by rw [e1]; exact List.mem_append_left _ hg, hpg, hqg⟩
      · rw [e2]; simpa [hpx, hpJ] using hp
      · rw [e2]; simpa [hqx, hqJ] using hq
  · rw [anchorStep_taken join x rest G hfree]
    exact h

theorem bucketLoop_together (join : Nat → Nat → Bool) (p q : Nat) :
    ∀ (arr : List Nat) (G : Grouping), arr.Nodup → Together p q G →
      Together p q (bucketLoop join arr G)
  | [], G, _, h => by simpa [bucketLoop] using h
  | x :: rest, G, hnd, h => by
    rw [bucketLoop]
    exact bucketLoop_together join p q rest _ (List.nodup_cons.1 hnd).2
      (anchorStep_together join p q x rest G hnd h)

theorem anchorStep_sync (join : Nat → Nat → Bool) (p q x : Nat) (rest : List Nat) (G : Grouping)
    (hsame : ∀ y, join y p = join y q) (hpq : join p q = true) (hlt : p < q)
    (hsorted : (x :: rest).Pairwise (· < ·)) (hmem : p ∈ x :: rest ↔ q ∈ x :: rest)
    (hp : G.groupOf[p]? = some (-1)) (hq : G.groupOf[q]? = some (-1)) :
    (x = p → Together p q (anchorStep join x rest G)) ∧
    (x ≠ p → Sync p q (anchorStep join x rest G) ∧ (p ∈ rest ↔ q ∈ rest)) := by
  have hnd := pairwise_lt_nodup hsorted
  constructor
  · intro hx
    subst hx
    obtain ⟨h1, _⟩ := anchorStep_free join x rest G hnd hp
    have hqrest : q ∈ rest := by
      rcases List.mem_cons.1 (hmem.1 (List.mem_cons_self _ _)) with e | h
      · omega
      · exact h
    have hqJ : q ∈ joined join x rest G.groupOf := (mem_joined ..).2 ⟨hqrest, hq, hpq⟩
    have hJ : joined join x rest G.groupOf ≠ [] := List.ne_nil_of_mem hqJ
    obtain ⟨e1, e2⟩ := h1 hJ
    refine ⟨?_, ?_, x :: joined join x rest G.groupOf, by rw [e1]; simp,
      List.mem_cons_self _ _, List.mem_cons_of_mem _ hqJ⟩
    · rw [e2]; simp
    · rw [e2]; simp [hqJ]
  · intro hx
    have hxq : x ≠ q := by
      intro e
      subst e
      rcases List.mem_cons.1 (hmem.2 (List.mem_cons_self _ _)) with e | h
      · exact hx e.symm
      · have := (List.pairwise_cons.1 hsorted).1 p h
        omega
    have hrest : p ∈ rest ↔ q ∈ rest := by
      constructor
      · intro h
        rcases List.mem_cons.1 (hmem.1 (List.mem_cons_of_mem _ h)) with e | h'
        · exact absurd e.symm hxq
        · exact h'
      · intro h
        rcases List.mem_cons.1 (hmem.2 (List.mem_cons_of_mem _ h)) with e | h'
        · exact absurd e.symm hx
        · exact h'
    refine ⟨?_, hrest⟩
    by_cases hfree : G.groupOf[x]? = some (-1)
    · obtain ⟨h1, h2⟩ := anchorStep_free join x rest G hnd hfree
      have hJiff : p ∈ joined join x rest G.groupOf ↔ q ∈ joined join x rest G.groupOf := by
        rw [mem_joined, mem_joined, hrest, hsame x]
        simp [hp, hq]
      by_cases hJ : joined join x rest G.groupOf = []
      · obtain ⟨_, e2⟩ := h2 hJ
        exact Or.inl ⟨by rw [e2]; exact hp, by rw [e2]; exact hq⟩
      · obtain ⟨e1, e2⟩ := h1 hJ
        by_cases hpJ : p ∈ joined join x rest G.groupOf
        · have hqJ := hJiff.1 hpJ
          refine Or.inr ⟨?_, ?_, x :: joined join x rest G.groupOf, by rw [e1]; simp,
            List.mem_cons_of_mem _ hpJ, List.mem_cons_of_mem _ hqJ⟩
          · rw [e2]; simp [hpJ]
          · rw [e2]; simp [hqJ]
        · have hqJ : q ∉ joined join x rest G.groupOf := fun h => hpJ (hJiff.2 h)
          refine Or.inl ⟨?_, ?_⟩
          · rw [e2]; simpa [Ne.symm hx, hpJ] using hp
          · rw [e2]; simpa [Ne.symm hxq, hqJ] using hq
    · rw [anchorStep_taken join x rest G hfree]
      exact Or.inl ⟨hp, hq⟩

theorem bucketLoop_sync (join : Nat → Nat → Bool) (p q : Nat)
    (hsame : ∀ y, join y p = join y q) (hpq : join p q = true) (hlt : p < q) :
    ∀ (arr : List Nat) (G : Grouping), arr.Pairwise (· < ·) → (p ∈ arr ↔ q ∈ arr) →
      Sync p q G →
      Sync p q (bucketLoop join arr G) ∧ (p ∈ arr → Together p q (bucketLoop join arr G))
  | [], G, _, _, h => by simpa [bucketLoop] using h
  | x :: rest, G, hsorted, hmem, h => by
    rw [bucketLoop]
    have hnd := pairwise_lt_nodup hsorted
    have hndr := (List.nodup_cons.1 hnd).2
    rcases h with ⟨hp, hq⟩ | ht
    · obtain ⟨h1, h2⟩ := anchorStep_sync join p q x rest G hsame hpq hlt hsorted hmem hp hq
      by_cases hx : x = p
      · have := bucketLoop_together join p q rest _ hndr (h1 hx)
        exact ⟨Or.inr this, fun _ => this⟩
      · obtain ⟨hs, hrest⟩ := h2 hx
        obtain ⟨ih1, ih2⟩ := bucketLoop_sync join p q hsame hpq hlt rest _
          (List.pairwise_cons.1 hsorted).2 hrest hs
        refine ⟨ih1, fun hin => ih2 ?_⟩
        rcases List.mem_cons.1 hin with e | h'
        · exact absurd e.symm hx
        · exact h'
    · have := bucketLoop_together join p q rest _ hndr
        (anchorStep_together join p q x rest G hnd ht)
      exact ⟨Or.inr this, fun _ => this⟩

theorem groupLoop_together (join : Nat → Nat → Bool) (p q : Nat) :
    ∀ (arrs : List (List Nat)) (G : Grouping), (∀ arr ∈ arrs, arr.Nodup) → Together p q G →
      Together p q (groupLoop join arrs G)
  | [], G, _, h => by simpa [groupLoop] using h
  | arr :: arrs, G, hnd, h => by
    rw [groupLoop]
    exact groupLoop_together join p q arrs _ (fun a ha => hnd a (List.mem_cons_of_mem _ ha))
      (bucketLoop_together join p q arr G (hnd arr (List.mem_cons_self _ _)) h)

theorem groupLoop_sync (join : Nat → Nat → Bool) (p q : Nat)
    (hsame : ∀ y, join y p = join y q) (hpq : join p q = true) (hlt : p < q) :
    ∀ (arrs : List (List Nat)) (G : Grouping),
      (∀ arr ∈ arrs, arr.Pairwise (· < ·) ∧ (p ∈ arr ↔ q ∈ arr)) → Sync p q G →
      Sync p q (groupLoop join arrs G) ∧
        ((∃ arr ∈ arrs, p ∈ arr) → Together p q (groupLoop join arrs G))
  | [], G, _, h => by simpa [groupLoop] using h
  | arr :: arrs, G, harrs, h => by
    rw [groupLoop]
    obtain ⟨hs, hm⟩ := harrs arr (List.mem_cons_self _ _)
    obtain ⟨b1, b2⟩ := bucketLoop_sync join p q hsame hpq hlt arr G hs hm h
    have hrest : ∀ a ∈ arrs, a.Pairwise (· < ·) ∧ (p ∈ a ↔ q ∈ a) :=
      fun a ha => harrs a (List.mem_cons_of_mem _ ha)
    obtain ⟨ih1, ih2⟩ := groupLoop_sync join p q hsame hpq hlt arrs _ hrest b1
    refine ⟨ih1, ?_⟩
    rintro ⟨a, ha, hpa⟩
    rcases List.mem_cons.1 ha with e | ha'
    · subst e
      exact groupLoop_together join p q arrs _ (fun a ha => pairwise_lt_nodup (hrest a ha).1)
        (b2 hpa)
    · exact ih2 ⟨a, ha', hpa⟩

/-! ## The spans of `analyze` -/

theorem buildSpansPure_spec (settings : Settings) (words : List Token) :
    ∀ (rest : List Token) (i : Nat) (spans : List Span),
      buildSpansPure settings words rest i = .ok spans →
      ∀ s ∈ spans, ∃ j w, rest[j]? = some w ∧ SpanFrom settings words w (i + j) s
  | [], _, spans, h => by
    simp only [buildSpansPure, Except.ok.injEq] at h
    subst h
    simp
  | w :: rest, i, spans, h => by
    unfold buildSpansPure at h
    have lift : ∀ spans', buildSpansPure settings words rest (i + 1) = .ok spans' →
        ∀ s ∈ spans', ∃ j w', (w :: rest)[j]? = some w' ∧
          SpanFrom settings words w' (i + j) s := by
      intro spans' h' s hs
      obtain ⟨j, w', hj, hsf⟩ := buildSpansPure_spec settings words rest (i + 1) spans' h' s hs
      refine ⟨j + 1, w', by simpa using hj, ?_⟩
      have : i + (j + 1) = i + 1 + j := by omega
      rw [this]
      exact hsf
    by_cases hstop : (settings.ignoreStopwords && STOPWORDS.contains w.word) = true
    · rw [if_pos hstop] at h
      exact lift spans h
    · rw [if_neg hstop] at h
      cases hph : wordToPhonesPure w.word with
      | error e => simp [hph] at h
      | ok ph =>
        simp only [hph] at h
        cases hle : isLineEnd i words with
        | error e => simp [hle] at h
        | ok isEnd =>
          simp only [hle] at h
          cases hb : buildSpansPure settings words rest (i + 1) with
          | error e => simp [hb] at h
          | ok spans' =>
            simp only [hb, Except.ok.injEq] at h
            subst h
            intro s hs
            rcases List.mem_cons.1 hs with e | hs'
            · subst e
              refine ⟨0, w, by simp, ⟨rfl, rfl, rfl, ?_, ⟨ph, hph, rfl, rfl⟩, rfl, hle⟩⟩
              intro hi
              simpa [hi] using hstop
            · exact lift spans' hb s hs'

theorem foldl_repStep_mem (reps : List (List (Char × Char) × String)) :
    ∀ (st : List Char × List String) (p : String), p ∈ (reps.foldl repStep st).2 →
      p ∈ st.2 ∨ ∃ rep ∈ reps, p = rep.2 := by
  induction reps with
  | nil => intro st p h; exact Or.inl h
  | cons rep reps ih =>
    intro st p h
    rw [List.foldl_cons] at h
    rcases ih _ p h with h1 | ⟨r, hr, e⟩
    · simp only [repStep, List.mem_append] at h1
      rcases h1 with h2 | h2
      · exact Or.inl h2
      · exact Or.inr ⟨rep, List.mem_cons_self _ _, (List.mem_replicate.1 h2).2⟩
    · exact Or.inr ⟨r, List.mem_cons_of_mem _ hr, e⟩

theorem replaceVowels_mem : ∀ (s : List Char) (p : String), p ∈ (replaceVowels s).2 →
    ∃ c, (c, p) ∈ SINGLE_VOWELS
  | [], p, h => by simp [replaceVowels] at h
  | c :: cs, p, h => by
    unfold replaceVowels at h
    cases hl : SINGLE_VOWELS.lookup c with
    | none =>
      simp only [hl] at h
      exact replaceVowels_mem cs p h
    | some v =>
      simp only [hl, List.mem_cons] at h
      rcases h with e | h'
      · subst e
        exact ⟨c, lookup_some_mem c p SINGLE_VOWELS hl⟩
      · exact replaceVowels_mem cs p h'

theorem consonantPhones_mem : ∀ (s : List Char) (p : String), p ∈ consonantPhones s →
    ∃ c, (c, p) ∈ CONSONANTS
  | [], p, h => by simp [consonantPhones] at h
  | c :: cs, p, h => by
    unfold consonantPhones at h
    cases hl : CONSONANTS.lookup c with
    | none =>
      simp only [hl] at h
      exact consonantPhones_mem cs p h
    | some v =>
      simp only [hl, List.mem_cons] at h
      rcases h with e | h'
      · subst e
        exact ⟨c, lookup_some_mem c p CONSONANTS hl⟩
      · exact consonantPhones_mem cs p h'

theorem heuristicPhones_mem (word : String) (p : String) (h : p ∈ heuristicPhones word) :
    p ∈ PHONES := by
  unfold heuristicPhones at h
  simp only at h
  split at h
  · rw [List.mem_singleton] at h
    subst h
    decide
  · simp only [List.mem_append] at h
    rcases h with ((h | h) | h) | h
    · rcases foldl_repStep_mem REPS _ p h with h1 | ⟨rep, hr, e⟩
      · simp at h1
      · have hall : ∀ r ∈ REPS, r.2 ∈ PHONES := by decide
        exact e ▸ hall rep hr
    · obtain ⟨c, hc⟩ := replaceVowels_mem _ p h
      have hall : ∀ r ∈ SINGLE_VOWELS, r.2 ∈ PHONES := by decide
      exact hall _ hc
    · rw [(List.mem_replicate.1 h).2]
      decide
    · obtain ⟨c, hc⟩ := consonantPhones_mem _ p h
      have hall : ∀ r ∈ CONSONANTS, r.2 ∈ PHONES := by decide
      exact hall _ hc

theorem wordToPhonesPure_mem (w : String) (ph : List String)
    (h : wordToPhonesPure w = .ok ph) : ∀ p ∈ ph, p ∈ PHONES := by
  unfold wordToPhonesPure at h
  by_cases hk : cleanWord w = ""
  · simp only [hk, if_true, Except.ok.injEq] at h
    subst h
    simp
  · simp only [hk, if_false] at h
    unfold phonesOf at h
    cases hc : CUSTOM_ARPA (cleanWord w) with
    | none =>
      simp only [hc, Except.ok.injEq] at h
      subst h
      exact heuristicPhones_mem _
    | some v =>
      cases v with
      | inherited => simp [hc] at h
      | array a =>
        simp only [hc, Except.ok.injEq] at h
        subst h
        have hlt := CUSTOM_ARPA_array_lt _ a hc
        have hall : ∀ b, b < World.fresh.heap.length →
            ∀ p ∈ World.fresh.heap.getD b [], p ∈ PHONES := by decide
        exact hall a hlt

theorem lastVowelBelow_lt (phones : List String) :
    ∀ (n k : Nat), lastVowelBelow phones n = some k → k < n
  | 0, k, h => by simp [lastVowelBelow] at h
  | n + 1, k, h => by
    unfold lastVowelBelow at h
    split at h
    · simp only [Option.some.injEq] at h
      omega
    · have := lastVowelBelow_lt phones n k h
      omega

theorem phonesToNucleusCoda_stripped (ph : List String) (h : ∀ p ∈ ph, p ∈ PHONES) :
    (∀ e ∈ (phonesToNucleusCoda ph).nucleus, e ∈ STRIPPED) ∧
    (∀ e ∈ (phonesToNucleusCoda ph).coda, e ∈ STRIPPED) := by
  have hdrop : ∀ n, ∀ e ∈ (ph.drop n).map stripStress, e ∈ STRIPPED := by
    intro n e he
    obtain ⟨p, hp, rfl⟩ := List.mem_map.1 he
    exact List.mem_map_of_mem _ (h p (List.mem_of_mem_drop hp))
  unfold phonesToNucleusCoda
  cases hl : lastVowelBelow ph ph.length with
  | none => exact ⟨by simp, hdrop _⟩
  | some k =>
    refine ⟨?_, hdrop _⟩
    intro e he
    simp only [List.mem_singleton] at he
    subst he
    have hk := lastVowelBelow_lt ph _ k hl
    rw [List.getD_eq_getElem?_getD, List.getElem?_eq_getElem hk]
    exact List.mem_map_of_mem _ (h _ (List.getElem_mem hk))

theorem SpanFrom.stripped {settings : Settings} {words : List Token} {w : Token} {i : Nat}
    {s : Span} (h : SpanFrom settings words w i s) :
    (∀ e ∈ s.nucleus, e ∈ STRIPPED) ∧ (∀ e ∈ s.coda, e ∈ STRIPPED) := by
  obtain ⟨ph, hph, hn, hc⟩ := h.phones
  rw [hn, hc]
  exact phonesToNucleusCoda_stripped ph (wordToPhonesPure_mem _ ph hph)

theorem comparesSome_of_stripped (coda : List String) (hne : coda ≠ [])
    (h : ∀ e ∈ coda, e ∈ STRIPPED) : comparesSome coda = true := by
  have hall : ∀ e ∈ STRIPPED, e ≠ "" := by decide
  unfold comparesSome
  cases hr : coda.reverse with
  | nil => exact absurd (List.reverse_eq_nil_iff.1 hr) hne
  | cons x xs =>
    have hx : x ∈ coda := by
      rw [← List.mem_reverse, hr]
      exact List.mem_cons_self _ _
    have := hall x (h x hx)
    simp [this]

theorem analyzeFresh_ok (settings : Settings) (text : String) (r : Result)
    (h : analyzeFresh settings text = .ok r) :
    ∃ spans, buildSpansPure settings (tokenize text) (tokenize text) 0 = .ok spans ∧
      r = resultOf settings (tokenize text) spans := by
  rw [analyzeFresh_eq_pure] at h
  unfold analyzePure at h
  simp only at h
  cases hb : buildSpansPure settings (tokenize text) (tokenize text) 0 with
  | error e => simp [hb] at h
  | ok spans =>
    simp only [hb, Except.ok.injEq] at h
    exact ⟨spans, rfl, h.symm⟩

theorem analyzeFresh_spanFrom (settings : Settings) (text : String) (spans : List Span)
    (h : buildSpansPure settings (tokenize text) (tokenize text) 0 = .ok spans)
    (idx : Nat) (s : Span) (hs : spans[idx]? = some s) :
    ∃ w, (tokenize text)[s.i]? = some w ∧ SpanFrom settings (tokenize text) w s.i s := by
  have hmem : s ∈ spans := List.getElem?_mem hs
  obtain ⟨j, w, hj, hsf⟩ := buildSpansPure_spec settings _ _ 0 spans h s hmem
  have hi : s.i = 0 + j := hsf.index
  rw [← hi] at hsf
  refine ⟨w, ?_, hsf⟩
  rw [hi, Nat.zero_add]
  exact hj

/-- The greedy grouping puts two spans of one bucket into one group when the
join test treats them alike and accepts the pair. -/
theorem rhymeGroups_same_group (settings : Settings) (spans : List Span) (p q : Nat)
    (hlt : p < q) (hq : q < spans.length)
    (hkey : (spans.map Span.bucketKey)[p]? = (spans.map Span.bucketKey)[q]?)
    (hsame : ∀ y, tryJoin settings spans y p = tryJoin settings spans y q)
    (hpq : tryJoin settings spans p q = true) :
    ∃ g ∈ rhymeGroups settings spans, p ∈ g ∧ q ∈ g := by
  have hwf := fillBuckets_all (spans.map Span.bucketKey)
  have hlen : (spans.map Span.bucketKey).length = spans.length := by simp
  have hbuckets : ∀ arr ∈ (fillBuckets (spans.map Span.bucketKey) 0 []).map Prod.snd,
      arr.Pairwise (· < ·) ∧ (p ∈ arr ↔ q ∈ arr) := by
    intro arr harr
    obtain ⟨b, hb, rfl⟩ := List.mem_map.1 harr
    refine ⟨hwf.sorted b hb, ?_⟩
    rw [hwf.mem_iff b hb p, hwf.mem_iff b hb q, hkey, hlen]
    constructor
    · rintro ⟨_, h2⟩; exact ⟨hq, h2⟩
    · rintro ⟨_, h2⟩; exact ⟨by omega, h2⟩
  have hinit : Sync p q { groups := [], groupOf := List.replicate spans.length (-1) } := by
    refine Or.inl ⟨?_, ?_⟩
    · simp only
      rw [List.getElem?_eq_getElem (by simp; omega)]
      simp
    · simp only
      rw [List.getElem?_eq_getElem (by simp; omega)]
      simp
  obtain ⟨_, h2⟩ := groupLoop_sync (tryJoin settings spans) p q hsame hpq hlt _ _ hbuckets hinit
  obtain ⟨b, hb, hpb⟩ := hwf.cover p (by rw [hlen]; omega)
  have := h2 ⟨b.2, List.mem_map_of_mem _ hb, hpb⟩
  exact this.2.2

theorem tryJoin_self_pair (settings : Settings) (spans : List Span) (p q : Nat) (sp sq : Span)
    (hp : spans[p]? = some sp) (hq : spans[q]? = some sq)
    (hpe : sp.isEnd = true) (hqe : sq.isEnd = true)
    (hn : sp.nucleus = sq.nucleus) (hc : sp.coda = sq.coda)
    (hd : (if comparesSome sp.coda then (0 : ℚ) else 9 / 50) ≤ settings.perfectThreshold) :
    (∀ y, tryJoin settings spans y p = tryJoin settings spans y q) ∧
    tryJoin settings spans p q = true := by
  have hnc : sq.nc = sp.nc := by simp [Span.nc, hn, hc]
  constructor
  · intro y
    unfold tryJoin
    rw [hp, hq]
    cases spans[y]? with
    | none => rfl
    | some a => simp only [hnc, hpe, hqe]
  · unfold tryJoin
    rw [hp, hq]
    simp only [hnc, hpe, hqe, Bool.and_self, if_true, decide_eq_true_eq]
    rw [rhymeDistance_self]
    exact hd

theorem same_group_of_lt (settings : Settings) (text : String) (r : Result)
    (h : analyzeFresh settings text = .ok r) (hperf : 0 ≤ settings.perfectThreshold)
    (p q : Nat) (sp sq : Span) (hlt : p < q)
    (hp : r.spans[p]? = some sp) (hq : r.spans[q]? = some sq)
    (hpe : sp.isEnd = true) (hqe : sq.isEnd = true)
    (hn : sp.nucleus = sq.nucleus) (hc : sp.coda = sq.coda)
    (hcoda : sp.coda ≠ [] ∨ 9 / 50 ≤ settings.perfectThreshold) :
    ∃ g ∈ r.groups, p ∈ g ∧ q ∈ g := by
  obtain ⟨spans, hb, rfl⟩ := analyzeFresh_ok settings text r h
  simp only [resultOf] at hp hq ⊢
  obtain ⟨wp, _, hsp⟩ := analyzeFresh_spanFrom settings text spans hb p sp hp
  obtain ⟨wq, _, hsq⟩ := analyzeFresh_spanFrom settings text spans hb q sq hq
  have hd : (if comparesSome sp.coda then (0 : ℚ) else 9 / 50) ≤ settings.perfectThreshold := by
    by_cases hcs : comparesSome sp.coda = true
    · simpa [hcs] using hperf
    · simp only [hcs, if_false]
      rcases hcoda with h1 | h1
      · exact absurd (comparesSome_of_stripped sp.coda h1 hsp.stripped.2) hcs
      · exact h1
  obtain ⟨hsame, hpq⟩ := tryJoin_self_pair settings spans p q sp sq hp hq hpe hqe hn hc hd
  have hqlt : q < spans.length := by
    by_contra hge
    rw [List.getElem?_eq_none (by omega)] at hq
    exact absurd hq (by simp)
  have hkey : (spans.map Span.bucketKey)[p]? = (spans.map Span.bucketKey)[q]? := by
    rw [List.getElem?_map, List.getElem?_map, hp, hq]
    simp only [Option.map_some', Option.some.injEq]
    rw [hsp.key, hsq.key]
    simp [Span.nc, hn, hc]
  exact rhymeGroups_same_group settings spans p q hlt hqlt hkey hsame hpq

/-! ## The length of the scheme -/

theorem schemeStep_length (m : JsMap Nat Nat) (st : SchemeState) (l : Nat) :
    (schemeStep m st l).scheme.length = st.scheme.length + 1 := by
  unfold schemeStep
  cases m.get l with
  | none => simp
  | some g =>
    simp only
    cases st.schemeLetters.get g <;> simp

theorem foldl_schemeStep_length (m : JsMap Nat Nat) (ls : List Nat) :
    ∀ st : SchemeState, (ls.foldl (schemeStep m) st).scheme.length = st.scheme.length + ls.length := by
  induction ls with
  | nil => intro st; simp
  | cons l ls ih =>
    intro st
    rw [List.foldl_cons, ih, schemeStep_length, List.length_cons]
    omega

theorem schemeOf_length (spans : List Span) (groups : List (List Nat)) :
    (schemeOf spans groups).length = lineCountOf spans := by
  unfold schemeOf
  simp only
  rw [foldl_schemeStep_length]
  simp

theorem foldl_maxLine (spans : List Span) :
    ∀ m0 : Int,
      m0 ≤ spans.foldl (fun (m : Int) s => max m (s.line : Int)) m0 ∧
      (∀ s ∈ spans, (s.line : Int) ≤ spans.foldl (fun (m : Int) s => max m (s.line : Int)) m0) ∧
      (spans.foldl (fun (m : Int) s => max m (s.line : Int)) m0 = m0 ∨
        ∃ s ∈ spans, spans.foldl (fun (m : Int) s => max m (s.line : Int)) m0 = (s.line : Int)) := by
  induction spans with
  | nil => intro m0; simp
  | cons s spans ih =>
    intro m0
    rw [List.foldl_cons]
    obtain ⟨h1, h2, h3⟩ := ih (max m0 (s.line : Int))
    refine ⟨le_trans (le_max_left _ _) h1, ?_, ?_⟩
    · intro t ht
      rcases List.mem_cons.1 ht with e | ht'
      · subst e
        exact le_trans (le_max_right _ _) h1
      · exact h2 t ht'
    · rcases h3 with e | ⟨t, ht, e⟩
      · rcases max_choice m0 (s.line : Int) with hm | hm
        · exact Or.inl (by rw [e, hm])
        · exact Or.inr ⟨s, List.mem_cons_self _ _, by rw [e, hm]⟩
      · exact Or.inr ⟨t, List.mem_cons_of_mem _ ht, e⟩

/-- The value of `lineCount`: above the line of every span, and one more than
the line of some span unless there is no span. -/
theorem lineCountOf_spec (spans : List Span) :
    (∀ s ∈ spans, s.line < lineCountOf spans) ∧
    (spans = [] → lineCountOf spans = 0) ∧
    (spans ≠ [] → ∃ s ∈ spans, lineCountOf spans = s.line + 1) := by
  obtain ⟨h1, h2, h3⟩ := foldl_maxLine spans (-1)
  unfold lineCountOf
  refine ⟨?_, ?_, ?_⟩
  · intro s hs
    have := h2 s hs
    omega
  · intro e
    subst e
    simp
  · intro hne
    rcases h3 with e | ⟨s, hs, e⟩
    · cases spans with
      | nil => exact absurd rfl hne
      | cons s spans =>
        have := h2 s (List.mem_cons_self _ _)
        omega
    · exact ⟨s, hs, by rw [e]; omega⟩

theorem lineTokens_line (li : Nat) :
    ∀ (parts : List (List Char)) (idx : Nat), ∀ t ∈ lineTokens li parts idx, t.line = li
  | [], _, t, h => by simp [lineTokens] at h
  | p :: ps, idx, t, h => by
    unfold lineTokens at h
    split at h
    · simp only at h
      split at h
      · rcases List.mem_cons.1 h with e | h'
        · subst e; rfl
        · exact lineTokens_line li ps (idx + 1) t h'
      · exact lineTokens_line li ps (idx + 1) t h
    · exact lineTokens_line li ps (idx + 1) t h

theorem tokenizeLines_line :
    ∀ (ls : List (List Char)) (li : Nat), ∀ t ∈ tokenizeLines ls li,
      li ≤ t.line ∧ t.line < li + ls.length
  | [], _, t, h => by simp [tokenizeLines] at h
  | l :: ls, li, t, h => by
    unfold tokenizeLines at h
    rcases List.mem_append.1 h with h1 | h1
    · have := lineTokens_line li _ 0 t h1
      simp only [List.length_cons]
      omega
    · have := tokenizeLines_line ls (li + 1) t h1
      simp only [List.length_cons]
      omega

theorem tokenize_line (text : String) (t : Token) (h : t ∈ tokenize text) :
    t.line < (splitLines text.data).length := by
  have := (tokenizeLines_line _ 0 t h).2
  omega

theorem lineCountOf_le (settings : Settings) (text : String) (spans : List Span)
    (h : buildSpansPure settings (tokenize text) (tokenize text) 0 = .ok spans) :
    lineCountOf spans ≤ (splitLines text.data).length := by
  obtain ⟨_, h2, h3⟩ := lineCountOf_spec spans
  by_cases hne : spans = []
  · rw [h2 hne]; omega
  · obtain ⟨s, hs, e⟩ := h3 hne
    obtain ⟨j, w, hj, hsf⟩ := buildSpansPure_spec settings _ _ 0 spans h s hs
    have := tokenize_line text w (List.getElem?_mem hj)
    rw [e, hsf.line]
    omega

/-! ## The members of the assonance clusters -/

theorem assonanceInner_mem (settings : Settings) (spans : List Span) (arr : List Nat) (i : Nat) :
    ∀ (js : List Nat) (st : List Nat × List Bool),
      ∀ e ∈ (assonanceInner settings spans arr i js st).1,
        e ∈ st.1 ∨ ∃ j ∈ js, e = arr.getD j 0
  | [], st, e, h => Or.inl (by simpa [assonanceInner] using h)
  | j :: js, st, e, h => by
    unfold assonanceInner at h
    have lift : ∀ st', (∀ e ∈ st'.1, e ∈ st.1 ∨ e = arr.getD j 0) →
        e ∈ (assonanceInner settings spans arr i js st').1 →
        e ∈ st.1 ∨ ∃ j' ∈ j :: js, e = arr.getD j' 0 := by
      intro st' hst' he
      rcases assonanceInner_mem settings spans arr i js st' e he with h1 | ⟨j', hj', e'⟩
      · rcases hst' e h1 with h2 | h2
        · exact Or.inl h2
        · exact Or.inr ⟨j, List.mem_cons_self _ _, h2⟩
      · exact Or.inr ⟨j', List.mem_cons_of_mem _ hj', e'⟩
    split at h
    · exact lift st (fun e he => Or.inl he) h
    · simp only at h
      split at h
      · refine lift _ ?_ h
        intro e' he'
        rcases List.mem_append.1 he' with h1 | h1
        · exact Or.inl h1
        · exact Or.inr (List.mem_singleton.1 h1)
      · exact lift st (fun e he => Or.inl he) h

theorem assonanceOuter_mem (settings : Settings) (spans : List Span) (arr : List Nat) :
    ∀ (is : List Nat) (st : List (List Nat) × List Bool),
      ∀ g ∈ (assonanceOuter settings spans arr is st).1,
        g ∈ st.1 ∨ ∀ e ∈ g, ∃ j ∈ is, e = arr.getD j 0
  | [], st, g, h => Or.inl (by simpa [assonanceOuter] using h)
  | i :: is, st, g, h => by
    unfold assonanceOuter at h
    have lift : ∀ st', (∀ g' ∈ st'.1, g' ∈ st.1 ∨ ∀ e ∈ g', ∃ j ∈ i :: is, e = arr.getD j 0) →
        g ∈ (assonanceOuter settings spans arr is st').1 →
        g ∈ st.1 ∨ ∀ e ∈ g, ∃ j ∈ i :: is, e = arr.getD j 0 := by
      intro st' hst' hg
      rcases assonanceOuter_mem settings spans arr is st' g hg with h1 | h1
      · exact hst' g h1
      · refine Or.inr (fun e he => ?_)
        obtain ⟨j, hj, e'⟩ := h1 e he
        exact ⟨j, List.mem_cons_of_mem _ hj, e'⟩
    by_cases hu : st.2.getD i false = true
    · rw [if_pos hu] at h
      exact lift st (fun g' hg' => Or.inl hg') h
    · rw [if_neg hu] at h
      simp only at h
      split at h
      · refine lift _ ?_ h
        intro g' hg'
        rcases List.mem_append.1 hg' with h1 | h1
        · exact Or.inl h1
        · rw [List.mem_singleton] at h1
          subst h1
          refine Or.inr (fun e he => ?_)
          rcases assonanceInner_mem settings spans arr i is _ e he with h2 | ⟨j, hj, e'⟩
          · rw [List.mem_singleton] at h2
            exact ⟨i, List.mem_cons_self _ _, h2⟩
          · exact ⟨j, List.mem_cons_of_mem _ hj, e'⟩
      · refine lift _ ?_ h
        exact fun g' hg' => Or.inl hg'

theorem assonanceLoop_mem (settings : Settings) (spans : List Span) :
    ∀ (arrs : List (List Nat)) (acc : List (List Nat)),
      ∀ g ∈ assonanceLoop settings spans arrs acc,
        g ∈ acc ∨ ∃ arr ∈ arrs, ∀ e ∈ g, e ∈ arr
  | [], acc, g, h => Or.inl (by simpa [assonanceLoop] using h)
  | arr :: arrs, acc, g, h => by
    unfold assonanceLoop at h
    rcases assonanceLoop_mem settings spans arrs _ g h with h1 | ⟨a, ha, hm⟩
    · rcases assonanceOuter_mem settings spans arr _ _ g h1 with h2 | h2
      · exact Or.inl h2
      · refine Or.inr ⟨arr, List.mem_cons_self _ _, fun e he => ?_⟩
        obtain ⟨j, hj, e'⟩ := h2 e he
        have hlt : j < arr.length := List.mem_range.1 hj
        rw [e', List.getD_eq_getElem?_getD, List.getElem?_eq_getElem hlt]
        exact List.getElem_mem hlt
    · exact Or.inr ⟨a, List.mem_cons_of_mem _ ha, hm⟩

/-- Every assonance cluster holds indices into `spans`. -/
theorem assonanceGroups_valid (settings : Settings) (spans : List Span) (g : List Nat)
    (hg : g ∈ assonanceGroups settings spans) : ∀ idx ∈ g, idx < spans.length := by
  unfold assonanceGroups at hg
  split at hg
  · simp only at hg
    have hwf := fillBuckets_all (spans.map (fun s => orUnderscore s.nucleus.head?))
    rcases assonanceLoop_mem settings spans _ _ g hg with h1 | ⟨arr, harr, hm⟩
    · simp at h1
    · obtain ⟨b, hb, rfl⟩ := List.mem_map.1 harr
      intro idx hidx
      have := ((hwf.mem_iff b hb idx).1 (hm idx hidx)).1
      simpa using this
  · simp at hg

/-! ## The join test inside a bucket -/

theorem joinLoop_congr (j1 j2 : Nat → Nat → Bool) (a gid : Nat) :
    ∀ (L : List Nat) (st : List Nat × List Int), (∀ b ∈ L, j1 a b = j2 a b) →
      joinLoop j1 a gid L st = joinLoop j2 a gid L st
  | [], st, _ => by simp [joinLoop]
  | b :: L, st, h => by
    have hb := h b (List.mem_cons_self _ _)
    have hL : ∀ c ∈ L, j1 a c = j2 a c := fun c hc => h c (List.mem_cons_of_mem _ hc)
    unfold joinLoop
    rw [hb, joinLoop_congr j1 j2 a gid L _ hL, joinLoop_congr j1 j2 a gid L _ hL]

theorem bucketLoop_congr (j1 j2 : Nat → Nat → Bool) :
    ∀ (arr : List Nat) (G : Grouping), (∀ a ∈ arr, ∀ b ∈ arr, j1 a b = j2 a b) →
      bucketLoop j1 arr G = bucketLoop j2 arr G
  | [], G, _ => by simp [bucketLoop]
  | x :: rest, G, h => by
    have hx : ∀ b ∈ rest, j1 x b = j2 x b :=
      fun b hb => h x (List.mem_cons_self _ _) b (List.mem_cons_of_mem _ hb)
    have hstep : anchorStep j1 x rest G = anchorStep j2 x rest G := by
      unfold anchorStep
      rw [joinLoop_congr j1 j2 x _ rest _ hx]
    rw [bucketLoop, bucketLoop, hstep]
    exact bucketLoop_congr j1 j2 rest _
      (fun a ha b hb => h a (List.mem_cons_of_mem _ ha) b (List.mem_cons_of_mem _ hb))

theorem groupLoop_congr (j1 j2 : Nat → Nat → Bool) :
    ∀ (arrs : List (List Nat)) (G : Grouping),
      (∀ arr ∈ arrs, ∀ a ∈ arr, ∀ b ∈ arr, j1 a b = j2 a b) →
      groupLoop j1 arrs G = groupLoop j2 arrs G
  | [], G, _ => by simp [groupLoop]
  | arr :: arrs, G, h => by
    rw [groupLoop, groupLoop, bucketLoop_congr j1 j2 arr G (h arr (List.mem_cons_self _ _))]
    exact groupLoop_congr j1 j2 arrs _ (fun a ha => h a (List.mem_cons_of_mem _ ha))

theorem append_sep_inj (c : Char) :
    ∀ (l1 l2 r1 r2 : List Char), c ∉ l1 → c ∉ l2 → l1 ++ c :: r1 = l2 ++ c :: r2 →
      l1 = l2 ∧ r1 = r2
  | [], [], r1, r2, _, _, h => by simpa using h
  | [], d :: l2, r1, r2, _, h2, h => by
    simp only [List.nil_append, List.cons_append, List.cons.injEq] at h
    exact absurd (h.1 ▸ List.mem_cons_self _ _) h2
  | d :: l1, [], r1, r2, h1, _, h => by
    simp only [List.nil_append, List.cons_append, List.cons.injEq] at h
    exact absurd (h.1 ▸ List.mem_cons_self _ _) h1
  | d :: l1, e :: l2, r1, r2, h1, h2, h => by
    simp only [List.cons_append, List.cons.injEq] at h
    obtain ⟨ih1, ih2⟩ := append_sep_inj c l1 l2 r1 r2
      (fun hm => h1 (List.mem_cons_of_mem _ hm)) (fun hm => h2 (List.mem_cons_of_mem _ hm)) h.2
    exact ⟨by rw [h.1, ih1], ih2⟩

theorem orUnderscore_stripped (o : Option String) (h : ∀ e, o = some e → e ∈ STRIPPED) :
    '|' ∉ (orUnderscore o).data ∧ (orUnderscore o = "_" ↔ o = none) := by
  have hall : ∀ e ∈ STRIPPED, '|' ∉ e.data ∧ e ≠ "" ∧ e ≠ "_" := by decide
  cases o with
  | none => exact ⟨by decide, by simp [orUnderscore]⟩
  | some e =>
    obtain ⟨h1, h2, h3⟩ := hall e (h e rfl)
    simp only [orUnderscore, h2, if_false]
    exact ⟨h1, by simp [h3]⟩

theorem orUnderscore_inj (o1 o2 : Option String) (h1 : ∀ e, o1 = some e → e ∈ STRIPPED)
    (h2 : ∀ e, o2 = some e → e ∈ STRIPPED) (h : orUnderscore o1 = orUnderscore o2) : o1 = o2 := by
  have hall : ∀ e ∈ STRIPPED, e ≠ "" ∧ e ≠ "_" := by decide
  cases o1 with
  | none =>
    have := (orUnderscore_stripped o2 h2).2.1 (by rw [← h]; rfl)
    exact this.symm
  | some e1 =>
    cases o2 with
    | none =>
      have := (orUnderscore_stripped (some e1) h1).2.1 (by rw [h]; rfl)
      exact this
    | some e2 =>
      have a1 := (hall e1 (h1 e1 rfl)).1
      have a2 := (hall e2 (h2 e2 rfl)).1
      simp only [orUnderscore, a1, a2, if_false] at h
      rw [h]

theorem bucketKeyOf_inj (a b : NucleusCoda)
    (han : ∀ e ∈ a.nucleus, e ∈ STRIPPED) (hac : ∀ e ∈ a.coda, e ∈ STRIPPED)
    (hbn : ∀ e ∈ b.nucleus, e ∈ STRIPPED) (hbc : ∀ e ∈ b.coda, e ∈ STRIPPED)
    (h : bucketKeyOf a = bucketKeyOf b) :
    a.nucleus.head? = b.nucleus.head? ∧ a.coda.getLast? = b.coda.getLast? := by
  have h1 : ∀ e, a.nucleus.head? = some e → e ∈ STRIPPED :=
    fun e he => han e (List.mem_of_mem_head? he)
  have h2 : ∀ e, b.nucleus.head? = some e → e ∈ STRIPPED :=
    fun e he => hbn e (List.mem_of_mem_head? he)
  have h3 : ∀ e, a.coda.getLast? = some e → e ∈ STRIPPED :=
    fun e he => hac e (List.mem_of_mem_getLast? he)
  have h4 : ∀ e, b.coda.getLast? = some e → e ∈ STRIPPED :=
    fun e he => hbc e (List.mem_of_mem_getLast? he)
  unfold bucketKeyOf at h
  have hd := congrArg String.data h
  simp only [String.data_append] at hd
  rw [List.append_assoc, List.append_assoc] at hd
  simp only [List.singleton_append] at hd
  obtain ⟨e1, e2⟩ := append_sep_inj '|' _ _ _ _ (orUnderscore_stripped _ h1).1
    (orUnderscore_stripped _ h2).1 hd
  exact ⟨orUnderscore_inj _ _ h1 h2 (String.ext e1), orUnderscore_inj _ _ h3 h4 (String.ext e2)⟩

theorem fromEnd_one (c : List String) (e : String) (h : c.getLast? = some e) :
    fromEnd c 1 = e := by
  have hne : c ≠ [] := by
    intro hn
    subst hn
    simp at h
  have hlen : 0 < c.length := List.length_pos.2 hne
  rw [fromEnd_eq_reverse c 0 hlen, List.getD_eq_getElem?_getD]
  have : c.reverse[0]? = c.getLast? := by
    rw [← List.head?_eq_getElem?, List.head?_reverse]
  rw [this, h]
  rfl

theorem foldl_codaStep_bound (aC bC : List String) (L : List Nat) :
    ∀ acc : Nat × Nat, acc.1 + 1 ≤ acc.2 →
      (L.foldl (codaStep aC bC) acc).1 + 1 ≤ (L.foldl (codaStep aC bC) acc).2 ∧
      (L.foldl (codaStep aC bC) acc).2 ≤ acc.2 + L.length := by
  induction L with
  | nil => intro acc h; simpa using h
  | cons i L ih =>
    intro acc h
    rw [List.foldl_cons]
    have hstep : (codaStep aC bC acc i).1 + 1 ≤ (codaStep aC bC acc i).2 ∧
        (codaStep aC bC acc i).2 ≤ acc.2 + 1 := by
      unfold codaStep
      simp only
      split
      · exact ⟨h, by omega⟩
      · split <;> simp <;> omega
    obtain ⟨h1, h2⟩ := ih _ hstep.1
    refine ⟨h1, ?_⟩
    simp only [List.length_cons]
    omega

/-- Two codas with one last phoneme, a non-empty string: the loop of
`codaDistance` compares at most three positions and the last one matches. -/
theorem codaLoop_same_last (aC bC : List String) (e : String) (he : e ≠ "")
    (ha : aC.getLast? = some e) (hb : bC.getLast? = some e) :
    (codaLoop aC bC).1 + 1 ≤ (codaLoop aC bC).2 ∧ (codaLoop aC bC).2 ≤ 3 := by
  have hne : aC ≠ [] := by
    intro hn
    subst hn
    simp at ha
  have hlen : 0 < aC.length := List.length_pos.2 hne
  obtain ⟨m, hm⟩ : ∃ m, min 3 (max aC.length bC.length) = m + 1 :=
    ⟨min 3 (max aC.length bC.length) - 1, by omega⟩
  have hm2 : m ≤ 2 := by omega
  unfold codaLoop
  rw [hm, List.range_succ_eq_map, List.map_cons, List.foldl_cons]
  have hfirst : codaStep aC bC (0, 0) (0 + 1) = (0, 1) := by
    have hce : codaEq e ≠ "" := fun h => he ((codaEq_eq_empty e).1 h)
    simp [codaStep, fromEnd_one aC e ha, fromEnd_one bC e hb, hce]
  rw [hfirst]
  obtain ⟨h1, h2⟩ := foldl_codaStep_bound aC bC
    (List.map (· + 1) (List.map Nat.succ (List.range m))) (0, 1) (by simp)
  refine ⟨h1, ?_⟩
  simp only [List.length_map, List.length_range] at h2
  omega

theorem codaDistance_same_last (aC bC : List String) (ha : ∀ e ∈ aC, e ∈ STRIPPED)
    (hb : ∀ e ∈ bC, e ∈ STRIPPED) (h : aC.getLast? = bC.getLast?) :
    codaDistance aC bC ≤ 2 / 3 := by
  have hall : ∀ e ∈ STRIPPED, e ≠ "" := by decide
  unfold codaDistance
  split
  · norm_num
  · simp only
    split
    · norm_num
    · rename_i hlen hcomp
      cases hl : aC.getLast? with
      | none =>
        have h1 : aC = [] := List.getLast?_eq_none_iff.1 hl
        have h2 : bC = [] := List.getLast?_eq_none_iff.1 (h ▸ hl)
        subst h1; subst h2
        simp at hlen
      | some e =>
        have hea : e ∈ aC := List.mem_of_mem_getLast? hl
        obtain ⟨h1, h2⟩ := codaLoop_same_last aC bC e (hall e (ha e hea)) hl (h ▸ hl)
        have hpos : (0 : ℚ) < ((codaLoop aC bC).2 : ℚ) := by
          have : 0 < (codaLoop aC bC).2 := by omega
          exact_mod_cast this
        rw [div_le_iff₀ hpos]
        have : (codaLoop aC bC).1 * 3 ≤ 2 * (codaLoop aC bC).2 := by omega
        have hq : ((codaLoop aC bC).1 : ℚ) * 3 ≤ 2 * ((codaLoop aC bC).2 : ℚ) := by
          exact_mod_cast this
        linarith

theorem nucleusDistance_same_head (a b : List String) (h : a.head? = b.head?) :
    nucleusDistance a b = 0 := by
  have : vowelClass a = vowelClass b := by
    unfold vowelClass
    rw [h]
  simp [nucleusDistance, this]

/-- Inside a bucket the rhyme distance is at most `0.2`. -/
theorem rhymeDistance_same_bucket (a b : NucleusCoda)
    (han : ∀ e ∈ a.nucleus, e ∈ STRIPPED) (hac : ∀ e ∈ a.coda, e ∈ STRIPPED)
    (hbn : ∀ e ∈ b.nucleus, e ∈ STRIPPED) (hbc : ∀ e ∈ b.coda, e ∈ STRIPPED)
    (h : bucketKeyOf a = bucketKeyOf b) : rhymeDistance a b ≤ 1 / 5 := by
  obtain ⟨h1, h2⟩ := bucketKeyOf_inj a b han hac hbn hbc h
  unfold rhymeDistance
  rw [nucleusDistance_same_head _ _ h1]
  have := codaDistance_same_last a.coda b.coda hac hbc h2
  linarith

theorem buildSpansPure_settings (s1 s2 : Settings) (h : s1.ignoreStopwords = s2.ignoreStopwords)
    (words : List Token) :
    ∀ (rest : List Token) (i : Nat),
      buildSpansPure s1 words rest i = buildSpansPure s2 words rest i
  | [], _ => by simp [buildSpansPure]
  | w :: rest, i => by
    unfold buildSpansPure
    rw [h, buildSpansPure_settings s1 s2 h words rest (i + 1)]

theorem tryJoin_slant (s1 : Settings) (t2 : ℚ) (spans : List Span) (a b : Nat)
    (h1 : 1 / 5 ≤ s1.slantThreshold) (h2 : 1 / 5 ≤ t2)
    (hd : ∀ sa sb, spans[a]? = some sa → spans[b]? = some sb →
      rhymeDistance sa.nc sb.nc ≤ 1 / 5) :
    tryJoin s1 spans a b = tryJoin { s1 with slantThreshold := t2 } spans a b := by
  unfold tryJoin
  cases ha : spans[a]? with
  | none => rfl
  | some sa =>
    cases hb : spans[b]? with
    | none => rfl
    | some sb =>
      simp only
      have hle := hd sa sb ha hb
      by_cases he : (sa.isEnd && sb.isEnd) = true
      · simp only [he, if_true]
      · simp only [he, if_false]
        have e1 : rhymeDistance sa.nc sb.nc ≤ s1.slantThreshold := le_trans hle h1
        have e2 : rhymeDistance sa.nc sb.nc ≤ t2 := le_trans hle h2
        simp [e1, e2]

/-- With both slant thresholds at `0.2` or above the rhyme groups do not depend
on the slant threshold, for spans that the first loop of `analyze` built. -/
theorem rhymeGroups_slant (s1 : Settings) (t2 : ℚ) (words : List Token) (spans : List Span)
    (hb : buildSpansPure s1 words words 0 = .ok spans)
    (h1 : 1 / 5 ≤ s1.slantThreshold) (h2 : 1 / 5 ≤ t2) :
    rhymeGroups { s1 with slantThreshold := t2 } spans = rhymeGroups s1 spans := by
  have hwf := fillBuckets_all (spans.map Span.bucketKey)
  unfold rhymeGroups
  simp only
  rw [groupLoop_congr (tryJoin s1 spans) (tryJoin { s1 with slantThreshold := t2 } spans)]
  intro arr harr a ha b hb'
  obtain ⟨bk, hbk, rfl⟩ := List.mem_map.1 harr
  have ka := ((hwf.mem_iff bk hbk a).1 ha).2
  have kb := ((hwf.mem_iff bk hbk b).1 hb').2
  apply tryJoin_slant s1 t2 spans a b h1 h2
  intro sa sb hsa hsb
  obtain ⟨ja, wa, _, hfa⟩ := buildSpansPure_spec s1 words words 0 spans hb sa
    (List.getElem?_mem hsa)
  obtain ⟨jb, wb, _, hfb⟩ := buildSpansPure_spec s1 words words 0 spans hb sb
    (List.getElem?_mem hsb)
  rw [List.getElem?_map, hsa] at ka
  rw [List.getElem?_map, hsb] at kb
  simp only [Option.map_some', Option.some.injEq] at ka kb
  have hkey : bucketKeyOf sa.nc = bucketKeyOf sb.nc := by
    rw [← hfa.key, ← hfb.key, ka, kb]
  exact rhymeDistance_same_bucket sa.nc sb.nc hfa.stripped.1 hfa.stripped.2
    hfb.stripped.1 hfb.stripped.2 hkey

/-! ## The range of the distances -/

theorem foldl_codaStep_le (aC bC : List String) (L : List Nat) :
    ∀ acc : Nat × Nat, acc.1 ≤ acc.2 →
      (L.foldl (codaStep aC bC) acc).1 ≤ (L.foldl (codaStep aC bC) acc).2 := by
  induction L with
  | nil => intro acc h; simpa using h
  | cons i L ih =>
    intro acc h
    rw [List.foldl_cons]
    apply ih
    unfold codaStep
    simp only
    split
    · exact h
    · split <;> simp <;> omega

theorem codaDistance_range (aC bC : List String) :
    0 ≤ codaDistance aC bC ∧ codaDistance aC bC ≤ 1 := by
  unfold codaDistance
  split
  · constructor <;> norm_num
  · simp only
    split
    · constructor <;> norm_num
    · rename_i hcomp
      have hle : (codaLoop aC bC).1 ≤ (codaLoop aC bC).2 := by
        unfold codaLoop
        exact foldl_codaStep_le aC bC _ (0, 0) (le_refl _)
      have hpos : (0 : ℚ) < ((codaLoop aC bC).2 : ℚ) := by
        have : 0 < (codaLoop aC bC).2 := Nat.pos_of_ne_zero hcomp
        exact_mod_cast this
      constructor
      · exact div_nonneg (by exact_mod_cast Nat.zero_le _) (le_of_lt hpos)
      · rw [div_le_one hpos]
        exact_mod_cast hle

theorem nucleusDistance_values (a b : List String) :
    nucleusDistance a b = 0 ∨ nucleusDistance a b = 1 / 4 ∨ nucleusDistance a b = 1 := by
  unfold nucleusDistance
  simp only
  split
  · exact Or.inl rfl
  · split
    · exact Or.inr (Or.inl rfl)
    · exact Or.inr (Or.inr rfl)

/-! ## The nucleus and the coda -/

theorem lastVowelBelow_some (P : List String) :
    ∀ (n k : Nat), lastVowelBelow P n = some k →
      k < n ∧ isVowelPhone (P.getD k "") = true ∧
      ∀ j, k < j → j < n → isVowelPhone (P.getD j "") = false
  | 0, k, h => by simp [lastVowelBelow] at h
  | n + 1, k, h => by
    unfold lastVowelBelow at h
    by_cases hv : isVowelPhone (P.getD n "") = true
    · rw [if_pos hv] at h
      cases h
      exact ⟨Nat.lt_succ_self _, hv, fun j h1 h2 => by omega⟩
    · rw [if_neg hv] at h
      obtain ⟨h1, h2, h3⟩ := lastVowelBelow_some P n k h
      refine ⟨by omega, h2, fun j hj1 hj2 => ?_⟩
      by_cases hjn : j = n
      · subst hjn; simpa using hv
      · exact h3 j hj1 (by omega)

theorem lastVowelBelow_none (P : List String) :
    ∀ n : Nat, lastVowelBelow P n = none → ∀ j, j < n → isVowelPhone (P.getD j "") = false
  | 0, _, j, hj => by omega
  | n + 1, h, j, hj => by
    unfold lastVowelBelow at h
    by_cases hv : isVowelPhone (P.getD n "") = true
    · rw [if_pos hv] at h
      cases h
    · rw [if_neg hv] at h
      by_cases hjn : j = n
      · subst hjn; simpa using hv
      · exact lastVowelBelow_none P n h j (by omega)

theorem occursIn_append (pat : List Char) :
    ∀ (l r : List Char), occursIn pat l = true → occursIn pat (l ++ r) = true
  | [], r, h => by
    have hp : pat = [] := by
      cases pat with
      | nil => rfl
      | cons c cs => simp [occursIn, List.isPrefixOf] at h
    subst hp
    cases r <;> simp [occursIn, List.isPrefixOf]
  | c :: cs, r, h => by
    simp only [occursIn, Bool.or_eq_true] at h
    simp only [List.cons_append, occursIn, Bool.or_eq_true]
    rcases h with h | h
    · left
      rw [List.isPrefixOf_iff_prefix] at h ⊢
      exact h.trans (List.prefix_append (c :: cs) r)
    · right
      exact occursIn_append pat cs r h

theorem stripStress_prefix (p : String) : ∃ r, p.data = (stripStress p).data ++ r := by
  unfold stripStress
  cases hl : p.data.getLast? with
  | none => exact ⟨[], by simp⟩
  | some c =>
    simp only
    split
    · refine ⟨[c], ?_⟩
      simp only
      have hne : p.data ≠ [] := by
        intro e
        rw [e] at hl
        simp at hl
      have hlast : p.data.getLast hne = c := by
        rw [List.getLast?_eq_getLast _ hne] at hl
        exact Option.some.inj hl
      rw [← hlast]
      exact (List.dropLast_append_getLast hne).symm
    · exact ⟨[], by simp⟩

/-- Removing the stress digit of a phoneme that is no vowel phoneme gives no
vowel phoneme. -/
theorem isVowelPhone_stripStress (q : String) (h : isVowelPhone q = false) :
    isVowelPhone (stripStress q) = false := by
  by_contra hc
  have hc' : isVowelPhone (stripStress q) = true := by simpa using hc
  unfold isVowelPhone at hc' h
  rw [List.any_eq_true] at hc'
  obtain ⟨v, hv, ho⟩ := hc'
  obtain ⟨r, hr⟩ := stripStress_prefix (stripStress q)
  have := occursIn_append v.data _ r ho
  rw [← hr] at this
  have hq : (VOWEL_CODES.any fun v => occursIn v.data (stripStress q).data) = true :=
    List.any_eq_true.2 ⟨v, hv, this⟩
  rw [hq] at h
  cases h

theorem phonesToNucleusCoda_vowel (P : List String) (p : Nat) (hp : p < P.length)
    (hv : isVowelPhone (P.getD p "") = true)
    (hlast : ∀ j, p < j → j < P.length → isVowelPhone (P.getD j "") = false) :
    (phonesToNucleusCoda P).nucleus = [stripStress (P.getD p "")] ∧
    (phonesToNucleusCoda P).coda = (P.drop (p + 1)).map stripStress ∧
    ∀ e ∈ (phonesToNucleusCoda P).coda, isVowelPhone e = false := by
  have hk : lastVowelBelow P P.length = some p := by
    cases hl : lastVowelBelow P P.length with
    | none =>
      have := lastVowelBelow_none P _ hl p hp
      rw [hv] at this
      cases this
    | some k =>
      obtain ⟨h1, h2, h3⟩ := lastVowelBelow_some P _ k hl
      rcases Nat.lt_trichotomy k p with h | h | h
      · have := h3 p h hp
        rw [hv] at this
        cases this
      · rw [h]
      · have := hlast k h h1
        rw [h2] at this
        cases this
  unfold phonesToNucleusCoda
  simp only [hk]
  refine ⟨trivial, trivial, ?_⟩
  intro e he
  obtain ⟨q, hq, rfl⟩ := List.mem_map.1 he
  obtain ⟨i, hi, rfl⟩ := List.getElem_of_mem hq
  rw [List.length_drop] at hi
  rw [List.getElem_drop]
  apply isVowelPhone_stripStress
  have := hlast (p + 1 + i) (by omega) (by omega)
  rw [List.getD_eq_getElem?_getD, List.getElem?_eq_getElem (by omega), Option.getD_some] at this
  exact this

theorem phonesToNucleusCoda_no_vowel (P : List String)
    (h : ∀ x ∈ P, isVowelPhone x = false) :
    (phonesToNucleusCoda P).nucleus = [] ∧
    (phonesToNucleusCoda P).coda = (P.drop (P.length - min 2 P.length)).map stripStress ∧
    (phonesToNucleusCoda P).coda.length = min 2 P.length := by
  have hk : lastVowelBelow P P.length = none := by
    cases hl : lastVowelBelow P P.length with
    | none => rfl
    | some k =>
      obtain ⟨h1, h2, _⟩ := lastVowelBelow_some P _ k hl
      rw [List.getD_eq_getElem?_getD, List.getElem?_eq_getElem h1, Option.getD_some] at h2
      have := h _ (List.getElem_mem h1)
      rw [h2] at this
      cases this
  have hmin : P.length - min 2 P.length = P.length - 2 := by omega
  unfold phonesToNucleusCoda
  simp only [hk, hmin, List.length_map, List.length_drop]
  exact ⟨trivial, trivial, by omega⟩

/-! ## Line-final tokens -/

theorem tokenizeLines_sorted :
    ∀ (ls : List (List Char)) (li : Nat),
      (tokenizeLines ls li).Pairwise (fun a b => a.line ≤ b.line)
  | [], _ => by simp [tokenizeLines]
  | l :: ls, li => by
    unfold tokenizeLines
    rw [List.pairwise_append]
    refine ⟨?_, tokenizeLines_sorted ls (li + 1), ?_⟩
    · rw [List.pairwise_iff_forall_sublist]
      intro a b hab
      have ha := lineTokens_line li _ 0 a (hab.subset (List.mem_cons_self _ _))
      have hb := lineTokens_line li _ 0 b
        (hab.subset (List.mem_cons_of_mem _ (List.mem_singleton_self _)))
      omega
    · intro a ha b hb
      have h1 := lineTokens_line li _ 0 a ha
      have h2 := (tokenizeLines_line ls (li + 1) b hb).1
      omega

theorem tokenize_sorted (text : String) :
    (tokenize text).Pairwise (fun a b => a.line ≤ b.line) :=
  tokenizeLines_sorted _ 0

theorem sorted_line_le (words : List Token) (hs : words.Pairwise (fun a b => a.line ≤ b.line))
    (i j : Nat) (ti tj : Token) (hij : i ≤ j) (hi : words[i]? = some ti)
    (hj : words[j]? = some tj) : ti.line ≤ tj.line := by
  rcases Nat.eq_or_lt_of_le hij with e | hlt
  · subst e
    rw [hi] at hj
    cases hj
    exact le_refl _
  · have hjl : j < words.length := by
      by_contra hge
      rw [List.getElem?_eq_none (by omega)] at hj
      cases hj
    have hil : i < words.length := by omega
    rw [List.getElem?_eq_getElem hil] at hi
    rw [List.getElem?_eq_getElem hjl] at hj
    cases hi
    cases hj
    exact (List.pairwise_iff_getElem.1 hs) i j hil hjl hlt

/-- On tokens with non-decreasing lines, `isLineEnd(i, words)` holds exactly
when no later token is on the line of token `i`. -/
theorem isLineEnd_iff (words : List Token) (hs : words.Pairwise (fun a b => a.line ≤ b.line))
    (i : Nat) (ti : Token) (hi : words[i]? = some ti) :
    ∃ b, isLineEnd i words = .ok b ∧
      (b = true ↔ ∀ j tj, i < j → words[j]? = some tj → tj.line ≠ ti.line) := by
  unfold isLineEnd
  rw [hi]
  simp only
  cases hn : words[i + 1]? with
  | none =>
    refine ⟨true, rfl, ?_⟩
    simp only [true_iff]
    intro j tj hij hj
    have hlen : words.length ≤ i + 1 := by
      by_contra hlt
      rw [List.getElem?_eq_getElem (by omega)] at hn
      cases hn
    rw [List.getElem?_eq_none (by omega)] at hj
    cases hj
  | some next =>
    refine ⟨next.line != ti.line, rfl, ?_⟩
    have hle := sorted_line_le words hs i (i + 1) ti next (by omega) hi hn
    constructor
    · intro hb j tj hij hj
      have hne : next.line ≠ ti.line := by simpa using hb
      have := sorted_line_le words hs (i + 1) j next tj (by omega) hn hj
      omega
    · intro h
      have := h (i + 1) next (by omega) hn
      simpa using this

theorem lineEnd_unique (words : List Token) (hs : words.Pairwise (fun a b => a.line ≤ b.line))
    (i1 i2 : Nat) (t1 t2 : Token) (h1 : words[i1]? = some t1) (h2 : words[i2]? = some t2)
    (e1 : isLineEnd i1 words = .ok true) (e2 : isLineEnd i2 words = .ok true)
    (hl : t1.line = t2.line) : i1 = i2 := by
  obtain ⟨b1, hb1, hiff1⟩ := isLineEnd_iff words hs i1 t1 h1
  obtain ⟨b2, hb2, hiff2⟩ := isLineEnd_iff words hs i2 t2 h2
  rw [e1] at hb1
  rw [e2] at hb2
  cases hb1
  cases hb2
  rcases Nat.lt_trichotomy i1 i2 with h | h | h
  · exact absurd hl.symm (hiff1.1 rfl i2 t2 h h2)
  · exact h
  · exact absurd hl (hiff2.1 rfl i1 t1 h h1)

/-! ## The shape of the rhyme groups -/

theorem anchorStep_wf (join : Nat → Nat → Bool) (x : Nat) (rest : List Nat) (G : Grouping)
    (hs : (x :: rest).Pairwise (· < ·)) (h : GroupsWF join G) :
    GroupsWF join (anchorStep join x rest G) := by
  have hnd := pairwise_lt_nodup hs
  by_cases hfree : G.groupOf[x]? = some (-1)
  · obtain ⟨h1, h2⟩ := anchorStep_free join x rest G hnd hfree
    by_cases hJ : joined join x rest G.groupOf = []
    · obtain ⟨e1, e2⟩ := h2 hJ
      refine ⟨by rw [e1]; exact h.anchored, by rw [e1]; exact h.disjoint, ?_⟩
      intro g hg idx hidx
      rw [e1] at hg
      rw [e2]
      exact h.marked g hg idx hidx
    · obtain ⟨e1, e2⟩ := h1 hJ
      have hsub : (joined join x rest G.groupOf).Sublist rest := List.filter_sublist _
      have hnewfree : ∀ idx ∈ x :: joined join x rest G.groupOf,
          G.groupOf[idx]? = some (-1) := by
        intro idx hidx
        rcases List.mem_cons.1 hidx with e | hm
        · rw [e]; exact hfree
        · exact ((mem_joined ..).1 hm).2.1
      refine ⟨?_, ?_, ?_⟩
      · intro g hg
        rw [e1] at hg
        rcases List.mem_append.1 hg with hg' | hg'
        · exact h.anchored g hg'
        · rw [List.mem_singleton] at hg'
          subst hg'
          refine ⟨x, _, rfl, hJ, ?_, fun b hb => ((mem_joined ..).1 hb).2.2⟩
          exact hs.sublist (List.Sublist.cons₂ x hsub)
      · rw [e1, List.pairwise_append]
        refine ⟨h.disjoint, List.pairwise_singleton _ _, ?_⟩
        intro g hg g' hg'
        rw [List.mem_singleton] at hg'
        subst hg'
        intro idx hi1 hi2
        exact h.marked g hg idx hi1 (hnewfree idx hi2)
      · intro g hg idx hidx
        rw [e1] at hg
        rw [e2]
        rcases List.mem_append.1 hg with hg' | hg'
        · have hm := h.marked g hg' idx hidx
          have hnot : ¬ (idx = x ∨ idx ∈ joined join x rest G.groupOf) := by
            intro hc
            exact hm (hnewfree idx (List.mem_cons.2 hc))
          rw [if_neg hnot]
          exact hm
        · rw [List.mem_singleton] at hg'
          subst hg'
          rw [if_pos (List.mem_cons.1 hidx)]
          intro hc
          have := Option.some.inj hc
          omega
  · rw [anchorStep_taken join x rest G hfree]
    exact h

theorem bucketLoop_wf (join : Nat → Nat → Bool) :
    ∀ (arr : List Nat) (G : Grouping), arr.Pairwise (· < ·) → GroupsWF join G →
      GroupsWF join (bucketLoop join arr G)
  | [], G, _, h => by simpa [bucketLoop] using h
  | x :: rest, G, hs, h => by
    rw [bucketLoop]
    exact bucketLoop_wf join rest _ (List.pairwise_cons.1 hs).2 (anchorStep_wf join x rest G hs h)

theorem groupLoop_wf (join : Nat → Nat → Bool) :
    ∀ (arrs : List (List Nat)) (G : Grouping), (∀ arr ∈ arrs, arr.Pairwise (· < ·)) →
      GroupsWF join G → GroupsWF join (groupLoop join arrs G)
  | [], G, _, h => by simpa [groupLoop] using h
  | arr :: arrs, G, hs, h => by
    rw [groupLoop]
    exact groupLoop_wf join arrs _ (fun a ha => hs a (List.mem_cons_of_mem _ ha))
      (bucketLoop_wf join arr G (hs arr (List.mem_cons_self _ _)) h)

/-- The final `groups` and `groupOf` of the rhyme grouping. -/
theorem rhymeGroups_wf (settings : Settings) (spans : List Span) :
    ∃ G, GroupsWF (tryJoin settings spans) G ∧ G.groups = rhymeGroups settings spans := by
  have hwf := fillBuckets_all (spans.map Span.bucketKey)
  refine ⟨_, groupLoop_wf (tryJoin settings spans)
    ((fillBuckets (spans.map Span.bucketKey) 0 []).map Prod.snd)
    { groups := [], groupOf := List.replicate spans.length (-1) } ?_ ?_, rfl⟩
  · intro arr harr
    obtain ⟨p, hp, rfl⟩ := List.mem_map.1 harr
    exact hwf.sorted p hp
  · exact ⟨by simp, by simp, by simp⟩

theorem tryJoin_true (settings : Settings) (spans : List Span) (a b : Nat)
    (h : tryJoin settings spans a b = true) :
    ∃ sa sb, spans[a]? = some sa ∧ spans[b]? = some sb ∧
      rhymeDistance sa.nc sb.nc ≤
        (if (sa.isEnd && sb.isEnd) = true then settings.perfectThreshold
         else settings.slantThreshold) := by
  unfold tryJoin at h
  cases ha : spans[a]? with
  | none => simp [ha] at h
  | some sa =>
    cases hb : spans[b]? with
    | none => simp [ha, hb] at h
    | some sb =>
      simp only [ha, hb, decide_eq_true_eq] at h
      exact ⟨sa, sb, rfl, rfl, h⟩

/-! ## The scheme -/

theorem lineFinalStep_spec (spans : List Span) (gi : Nat) :
    ∀ (g : List Nat) (m : JsMap Nat Nat) (l : Nat),
      (∀ v, (lineFinalStep spans gi g m).get l = some v →
        m.get l = some v ∨ (v = gi ∧ ∃ idx ∈ g, LineFinalAt spans idx l)) ∧
      ((m.get l ≠ none ∨ ∃ idx ∈ g, LineFinalAt spans idx l) →
        (lineFinalStep spans gi g m).get l ≠ none)
  | [], m, l => by
    simp [lineFinalStep]
  | sIdx :: rest, m, l => by
    unfold lineFinalStep
    have lift : ∀ m', (∀ v, m'.get l = some v →
          m.get l = some v ∨ (v = gi ∧ LineFinalAt spans sIdx l)) →
        ((m.get l ≠ none ∨ LineFinalAt spans sIdx l) → m'.get l ≠ none) →
        (∀ v, (lineFinalStep spans gi rest m').get l = some v →
          m.get l = some v ∨ (v = gi ∧ ∃ idx ∈ sIdx :: rest, LineFinalAt spans idx l)) ∧
        ((m.get l ≠ none ∨ ∃ idx ∈ sIdx :: rest, LineFinalAt spans idx l) →
          (lineFinalStep spans gi rest m').get l ≠ none) := by
      intro m' h1 h2
      obtain ⟨ih1, ih2⟩ := lineFinalStep_spec spans gi rest m' l
      constructor
      · intro v hv
        rcases ih1 v hv with h | ⟨e, idx, hidx, hlf⟩
        · rcases h1 v h with h' | ⟨e, hlf⟩
          · exact Or.inl h'
          · exact Or.inr ⟨e, sIdx, List.mem_cons_self _ _, hlf⟩
        · exact Or.inr ⟨e, idx, List.mem_cons_of_mem _ hidx, hlf⟩
      · rintro (h | ⟨idx, hidx, hlf⟩)
        · exact ih2 (Or.inl (h2 (Or.inl h)))
        · rcases List.mem_cons.1 hidx with e | hr
          · subst e
            exact ih2 (Or.inl (h2 (Or.inr hlf)))
          · exact ih2 (Or.inr ⟨idx, hr, hlf⟩)
    cases hs : spans[sIdx]? with
    | none =>
      simp only
      refine lift m (fun v hv => Or.inl hv) ?_
      rintro (h | ⟨s, hs', _⟩)
      · exact h
      · rw [hs] at hs'
        cases hs'
    | some s =>
      simp only
      by_cases he : s.isEnd = true
      · rw [if_pos he]
        refine lift _ ?_ ?_
        · intro v hv
          rw [JsMap.get_set] at hv
          by_cases hl : s.line = l
          · rw [if_pos hl] at hv
            cases hv
            exact Or.inr ⟨rfl, s, hs, he, hl⟩
          · rw [if_neg hl] at hv
            exact Or.inl hv
        · intro h
          rw [JsMap.get_set]
          by_cases hl : s.line = l
          · rw [if_pos hl]
            simp
          · rw [if_neg hl]
            rcases h with h | ⟨s', hs', _, hl'⟩
            · exact h
            · rw [hs] at hs'
              cases hs'
              exact absurd hl' hl
      · rw [if_neg he]
        refine lift m (fun v hv => Or.inl hv) ?_
        rintro (h | ⟨s', hs', he', _⟩)
        · exact h
        · rw [hs] at hs'
          cases hs'
          exact absurd he' he

theorem lineFinalLoop_spec (spans : List Span) :
    ∀ (gs : List (List Nat)) (gi0 : Nat) (m : JsMap Nat Nat) (l : Nat),
      (∀ v, (lineFinalLoop spans gs gi0 m).get l = some v →
        m.get l = some v ∨
          ∃ k g, gs[k]? = some g ∧ v = gi0 + k ∧ ∃ idx ∈ g, LineFinalAt spans idx l) ∧
      ((m.get l ≠ none ∨ ∃ g ∈ gs, ∃ idx ∈ g, LineFinalAt spans idx l) →
        (lineFinalLoop spans gs gi0 m).get l ≠ none)
  | [], gi0, m, l => by
    simp [lineFinalLoop]
  | g :: gs, gi0, m, l => by
    unfold lineFinalLoop
    obtain ⟨s1, s2⟩ := lineFinalStep_spec spans gi0 g m l
    obtain ⟨ih1, ih2⟩ := lineFinalLoop_spec spans gs (gi0 + 1) (lineFinalStep spans gi0 g m) l
    constructor
    · intro v hv
      rcases ih1 v hv with h | ⟨k, g', hk, e, hx⟩
      · rcases s1 v h with h' | ⟨e, hx⟩
        · exact Or.inl h'
        · exact Or.inr ⟨0, g, by simp, by omega, hx⟩
      · exact Or.inr ⟨k + 1, g', by simpa using hk, by omega, hx⟩
    · rintro (h | ⟨g', hg', hx⟩)
      · exact ih2 (Or.inl (s2 (Or.inl h)))
      · rcases List.mem_cons.1 hg' with e | hr
        · subst e
          exact ih2 (Or.inl (s2 (Or.inr hx)))
        · exact ih2 (Or.inr ⟨g', hr, hx⟩)

theorem JsMap.set_of_get_none {κ ν : Type} [DecidableEq κ] (m : JsMap κ ν) (k : κ) (v : ν)
    (h : m.get k = none) : m.set k v = m ++ [(k, v)] := by
  induction m with
  | nil => simp [JsMap.set]
  | cons p m ih =>
    obtain ⟨k0, v0⟩ := p
    by_cases hk : k0 = k
    · simp [JsMap.get, hk] at h
    · simp only [JsMap.get, hk, if_false] at h
      simp [JsMap.set, hk, ih h]

theorem JsMap.get_index {κ ν : Type} [DecidableEq κ] (m : JsMap κ ν) (k : κ) (v : ν)
    (h : m.get k = some v) : ∃ i : Nat, (m : List (κ × ν))[i]? = some (k, v) := by
  have := JsMap.mem_of_get m k v h
  exact List.mem_iff_getElem?.1 this

theorem schemeStep_inv (M : JsMap Nat Nat) (lines : List Nat) (st : SchemeState) (l : Nat)
    (h : SchemeInv M lines st) : SchemeInv M (lines ++ [l]) (schemeStep M st l) := by
  unfold schemeStep
  cases hM : M.get l with
  | none =>
    simp only
    refine ⟨h.code, h.letters, h.keys, ?_, ?_⟩
    · intro g
      rw [h.seen g]
      constructor
      · rintro ⟨l', hl', e⟩
        exact ⟨l', List.mem_append_left _ hl', e⟩
      · rintro ⟨l', hl', e⟩
        rcases List.mem_append.1 hl' with h1 | h1
        · exact ⟨l', h1, e⟩
        · rw [List.mem_singleton] at h1
          subst h1
          rw [hM] at e
          cases e
    · rw [h.scheme, List.map_append]
      simp [entryOf, hM]
  | some g =>
    simp only
    cases hg : st.schemeLetters.get g with
    | some c =>
      simp only
      refine ⟨h.code, h.letters, h.keys, ?_, ?_⟩
      · intro g'
        rw [h.seen g']
        constructor
        · rintro ⟨l', hl', e⟩
          exact ⟨l', List.mem_append_left _ hl', e⟩
        · rintro ⟨l', hl', e⟩
          rcases List.mem_append.1 hl' with h1 | h1
          · exact ⟨l', h1, e⟩
          · rw [List.mem_singleton] at h1
            subst h1
            rw [hM] at e
            cases e
            have hin : g ∈ st.schemeLetters.map Prod.fst := by
              by_contra hc
              rw [(JsMap.get_eq_none _ _).2 hc] at hg
              cases hg
            exact (h.seen g).1 hin
      · rw [h.scheme, List.map_append]
        simp [entryOf, hM, hg]
    | none =>
      simp only
      have hset := JsMap.set_of_get_none st.schemeLetters g (fromCharCode st.nextCode) hg
      have hnot : g ∉ st.schemeLetters.map Prod.fst := (JsMap.get_eq_none _ _).1 hg
      refine ⟨?_, ?_, ?_, ?_, ?_⟩
      · rw [hset, h.code]
        simp
        omega
      · intro i g' c hi
        rw [hset] at hi
        by_cases hlt : i < st.schemeLetters.length
        · rw [List.getElem?_append_left hlt] at hi
          exact h.letters i g' c hi
        · rw [List.getElem?_append_right (by omega)] at hi
          have hi0 : i - st.schemeLetters.length = 0 := by
            by_contra hne
            rw [List.getElem?_eq_none (by simp; omega)] at hi
            cases hi
          rw [hi0] at hi
          simp only [List.getElem?_cons_zero, Option.some.injEq, Prod.mk.injEq] at hi
          rw [← hi.2, h.code]
          congr 2
          omega
      · rw [hset, List.map_append]
        exact List.Nodup.append h.keys (by simp) (by simpa using hnot)
      · intro g'
        rw [hset, List.map_append, List.mem_append, h.seen g']
        constructor
        · rintro (⟨l', hl', e⟩ | h1)
          · exact ⟨l', List.mem_append_left _ hl', e⟩
          · simp only [List.map_cons, List.map_nil, List.mem_singleton] at h1
            subst h1
            exact ⟨l, by simp, hM⟩
        · rintro ⟨l', hl', e⟩
          rcases List.mem_append.1 hl' with h1 | h1
          · exact Or.inl ⟨l', h1, e⟩
          · rw [List.mem_singleton] at h1
            subst h1
            rw [hM] at e
            cases e
            exact Or.inr (by simp)
      · simp only
        rw [h.scheme, List.map_append]
        congr 1
        · apply List.map_congr_left
          intro l' hl'
          cases hl : M.get l' with
          | none => rfl
          | some g' =>
            have hg' : g' ∈ st.schemeLetters.map Prod.fst := (h.seen g').2 ⟨l', hl', hl⟩
            have hne : g ≠ g' := fun e => hnot (e ▸ hg')
            simp only [entryOf, JsMap.get_set, if_neg hne]
        · simp [entryOf, hM, JsMap.get_set]

theorem foldl_schemeStep_inv (M : JsMap Nat Nat) :
    ∀ (ls lines : List Nat) (st : SchemeState), SchemeInv M lines st →
      SchemeInv M (lines ++ ls) (ls.foldl (schemeStep M) st)
  | [], lines, st, h => by simpa using h
  | l :: ls, lines, st, h => by
    rw [List.foldl_cons]
    have := foldl_schemeStep_inv M ls (lines ++ [l]) _ (schemeStep_inv M lines st l h)
    simpa using this

/-- The scheme as a function of `lineFinalGroup`: entry `l` is the placeholder
when line `l` has no group, else the letter of its group, the character of code
`65 + i` for the `i`-th group met. -/
theorem schemeOf_spec (spans : List Span) (groups : List (List Nat)) :
    ∃ letters : JsMap Nat String,
      (∀ (i g : Nat) (c : String), letters[i]? = some (g, c) → c = fromCharCode (65 + i)) ∧
      (letters.map Prod.fst).Nodup ∧
      (∀ g, g ∈ letters.map Prod.fst ↔
        ∃ l, l < lineCountOf spans ∧ (lineFinalLoop spans groups 0 []).get l = some g) ∧
      ∀ l, l < lineCountOf spans →
        (schemeOf spans groups)[l]? =
          some (entryOf letters ((lineFinalLoop spans groups 0 []).get l)) := by
  have h0 : SchemeInv (lineFinalLoop spans groups 0 []) []
      { schemeLetters := [], nextCode := 65, scheme := [] } :=
    ⟨by simp, by simp, by simp, by simp, by simp⟩
  have h := foldl_schemeStep_inv (lineFinalLoop spans groups 0 []) (List.range (lineCountOf spans))
    [] _ h0
  rw [List.nil_append] at h
  refine ⟨_, h.letters, h.keys, ?_, ?_⟩
  · intro g
    rw [h.seen g]
    simp only [List.mem_range]
  · intro l hl
    unfold schemeOf
    simp only
    rw [h.scheme, List.getElem?_map, List.getElem?_range hl]
    rfl

theorem buildSpansPure_strict (settings : Settings) (words : List Token) :
    ∀ (rest : List Token) (i : Nat) (spans : List Span),
      buildSpansPure settings words rest i = .ok spans →
      spans.Pairwise (fun a b => a.i < b.i) ∧ ∀ s ∈ spans, i ≤ s.i
  | [], _, spans, h => by
    simp only [buildSpansPure, Except.ok.injEq] at h
    subst h
    simp
  | w :: rest, i, spans, h => by
    unfold buildSpansPure at h
    have lift : ∀ spans', buildSpansPure settings words rest (i + 1) = .ok spans' →
        spans'.Pairwise (fun a b => a.i < b.i) ∧ ∀ s ∈ spans', i + 1 ≤ s.i :=
      fun spans' h' => buildSpansPure_strict settings words rest (i + 1) spans' h'
    by_cases hstop : (settings.ignoreStopwords && STOPWORDS.contains w.word) = true
    · rw [if_pos hstop] at h
      obtain ⟨h1, h2⟩ := lift spans h
      exact ⟨h1, fun s hs => by have := h2 s hs; omega⟩
    · rw [if_neg hstop] at h
      cases hph : wordToPhonesPure w.word with
      | error e => simp [hph] at h
      | ok ph =>
        simp only [hph] at h
        cases hle : isLineEnd i words with
        | error e => simp [hle] at h
        | ok isEnd =>
          simp only [hle] at h
          cases hb : buildSpansPure settings words rest (i + 1) with
          | error e => simp [hb] at h
          | ok spans' =>
            simp only [hb, Except.ok.injEq] at h
            subst h
            obtain ⟨h1, h2⟩ := lift spans' hb
            refine ⟨List.pairwise_cons.2 ⟨fun s hs => ?_, h1⟩, ?_⟩
            · have := h2 s hs
              simp only
              omega
            · intro s hs
              rcases List.mem_cons.1 hs with e | hs'
              · subst e
                exact le_refl _
              · have := h2 s hs'
                omega

/-- A line has at most one line-final span. -/
theorem lineFinalAt_unique (settings : Settings) (text : String) (spans : List Span)
    (hb : buildSpansPure settings (tokenize text) (tokenize text) 0 = .ok spans)
    (idx idx' l : Nat) (h : LineFinalAt spans idx l) (h' : LineFinalAt spans idx' l) :
    idx = idx' := by
  obtain ⟨s, hs, he, hl⟩ := h
  obtain ⟨s', hs', he', hl'⟩ := h'
  obtain ⟨w, hw, hsf⟩ := analyzeFresh_spanFrom settings text spans hb idx s hs
  obtain ⟨w', hw', hsf'⟩ := analyzeFresh_spanFrom settings text spans hb idx' s' hs'
  have e1 := hsf.isEnd
  have e2 := hsf'.isEnd
  rw [he] at e1
  rw [he'] at e2
  have hi : s.i = s'.i := lineEnd_unique _ (tokenize_sorted text) s.i s'.i w w' hw hw' e1 e2
    (by rw [← hsf.line, ← hsf'.line, hl, hl'])
  obtain ⟨hstrict, _⟩ := buildSpansPure_strict settings _ _ 0 spans hb
  have hlt : idx < spans.length := by
    by_contra hge
    rw [List.getElem?_eq_none (by omega)] at hs
    cases hs
  have hlt' : idx' < spans.length := by
    by_contra hge
    rw [List.getElem?_eq_none (by omega)] at hs'
    cases hs'
  rw [List.getElem?_eq_getElem hlt] at hs
  rw [List.getElem?_eq_getElem hlt'] at hs'
  cases hs
  cases hs'
  rcases Nat.lt_trichotomy idx idx' with h1 | h1 | h1
  · have := (List.pairwise_iff_getElem.1 hstrict) idx idx' hlt hlt' h1
    omega
  · exact h1
  · have := (List.pairwise_iff_getElem.1 hstrict) idx' idx hlt' hlt h1
    omega

theorem disjoint_index {groups : List (List Nat)} (hd : groups.Pairwise List.Disjoint)
    (i j : Nat) (g g' : List Nat) (hi : groups[i]? = some g) (hj : groups[j]? = some g')
    (x : Nat) (hx : x ∈ g) (hx' : x ∈ g') : i = j := by
  have hil : i < groups.length := by
    by_contra hge
    rw [List.getElem?_eq_none (by omega)] at hi
    cases hi
  have hjl : j < groups.length := by
    by_contra hge
    rw [List.getElem?_eq_none (by omega)] at hj
    cases hj
  rw [List.getElem?_eq_getElem hil] at hi
  rw [List.getElem?_eq_getElem hjl] at hj
  cases hi
  cases hj
  rcases Nat.lt_trichotomy i j with h | h | h
  · exact absurd hx' ((List.pairwise_iff_getElem.1 hd) i j hil hjl h hx)
  · exact h
  · exact absurd hx ((List.pairwise_iff_getElem.1 hd) j i hjl hil h hx')

theorem nodup_bounded_length : ∀ (N : Nat) (l : List Nat), l.Nodup → (∀ x ∈ l, x < N) →
    l.length ≤ N := by
  intro N l hnd hb
  have hsub : l.toFinset ⊆ Finset.range N := by
    intro x hx
    rw [List.mem_toFinset] at hx
    exact Finset.mem_range.2 (hb x hx)
  have := Finset.card_le_card hsub
  rw [List.toFinset_card_of_nodup hnd, Finset.card_range] at this
  exact this

theorem fromCharCode_letters :
    ∀ i, i < 26 → fromCharCode (65 + i) ≠ "-" ∧
      ∀ j, j < 26 → fromCharCode (65 + i) = fromCharCode (65 + j) → i = j := by
  decide

theorem lineFinalGroup_some (spans : List Span) (groups : List (List Nat)) (l v : Nat)
    (h : (lineFinalLoop spans groups 0 []).get l = some v) :
    ∃ g, groups[v]? = some g ∧ ∃ idx ∈ g, LineFinalAt spans idx l := by
  rcases (lineFinalLoop_spec spans groups 0 [] l).1 v h with h1 | ⟨k, g, hk, e, hx⟩
  · simp [JsMap.get] at h1
  · rw [Nat.zero_add] at e
    subst e
    exact ⟨g, hk, hx⟩

theorem lineFinalGroup_none (spans : List Span) (groups : List (List Nat)) (l : Nat)
    (h : (lineFinalLoop spans groups 0 []).get l = none) :
    ¬ ∃ g ∈ groups, ∃ idx ∈ g, LineFinalAt spans idx l := by
  intro hx
  exact (lineFinalLoop_spec spans groups 0 [] l).2 (Or.inr hx) h

/-- The entries of the scheme when at most 26 groups exist: the placeholder for
a line without a group, else the letter of the group of the line; a letter is
not the placeholder and belongs to one group. -/
theorem schemeOf_letters (spans : List Span) (groups : List (List Nat))
    (h26 : groups.length ≤ 26) :
    ∃ letter : Nat → Option String,
      (∀ v v' c, letter v = some c → letter v' = some c → v = v') ∧
      (∀ l, l < lineCountOf spans → (lineFinalLoop spans groups 0 []).get l = none →
        (schemeOf spans groups)[l]? = some "-") ∧
      ∀ l v, l < lineCountOf spans → (lineFinalLoop spans groups 0 []).get l = some v →
        ∃ c, letter v = some c ∧ c ≠ "-" ∧ (schemeOf spans groups)[l]? = some c := by
  obtain ⟨letters, hl, hk, hseen, hsch⟩ := schemeOf_spec spans groups
  have hvlt : ∀ l v, (lineFinalLoop spans groups 0 []).get l = some v → v < groups.length := by
    intro l v hv
    obtain ⟨g, hg, _⟩ := lineFinalGroup_some spans groups l v hv
    by_contra hge
    rw [List.getElem?_eq_none (by omega)] at hg
    cases hg
  have hlen : letters.length ≤ 26 := by
    have := nodup_bounded_length groups.length (letters.map Prod.fst) hk (by
      intro g hg
      obtain ⟨l, _, hv⟩ := (hseen g).1 hg
      exact hvlt l g hv)
    rw [List.length_map] at this
    omega
  have hget : ∀ v c, letters.get v = some c →
      ∃ i, i < 26 ∧ c = fromCharCode (65 + i) ∧
        (letters : List (Nat × String))[i]? = some (v, c) := by
    intro v c hc
    obtain ⟨i, hi⟩ := JsMap.get_index letters v c hc
    have hil : i < letters.length := by
      by_contra hge
      rw [List.getElem?_eq_none (by omega)] at hi
      cases hi
    exact ⟨i, by omega, hl i v c hi, hi⟩
  refine ⟨fun v => letters.get v, ?_, ?_, ?_⟩
  · intro v v' c hc hc'
    obtain ⟨i, hi, e, hidx⟩ := hget v c hc
    obtain ⟨i', hi', e', hidx'⟩ := hget v' c hc'
    have hii : i = i' := (fromCharCode_letters i hi).2 i' hi' (by rw [← e, ← e'])
    subst hii
    rw [hidx] at hidx'
    simp only [Option.some.injEq, Prod.mk.injEq] at hidx'
    exact hidx'.1
  · intro l hlt hnone
    rw [hsch l hlt, hnone]
    rfl
  · intro l v hlt hsome
    have hin : v ∈ letters.map Prod.fst := (hseen v).2 ⟨l, hlt, hsome⟩
    cases hc : letters.get v with
    | none => exact absurd hin ((JsMap.get_eq_none _ _).1 hc)
    | some c =>
      obtain ⟨i, hi, e, _⟩ := hget v c hc
      refine ⟨c, hc, ?_, ?_⟩
      · rw [e]
        exact (fromCharCode_letters i hi).1
      · rw [hsch l hlt, hsome]
        simp [entryOf, hc]

/-! ## The shape of the heuristic phonemes -/

theorem filter_space_cons_blank (f : Char → Bool) (hf : f ' ' = false) (l : List Char) :
    (' ' :: l).filter f = l.filter f := by
  simp [List.filter, hf]

theorem replaceDigraphs_sublist (f : Char → Bool) (hf : f ' ' = false)
    (alts : List (Char × Char)) :
    ∀ s : List Char, ((replaceDigraphs alts s).1.filter f).Sublist (s.filter f)
  | [] => by simp [replaceDigraphs]
  | [c] => by simp [replaceDigraphs]
  | c :: d :: rest => by
    unfold replaceDigraphs
    split
    · simp only
      rw [filter_space_cons_blank f hf]
      exact (replaceDigraphs_sublist f hf alts rest).trans
        (List.Sublist.filter _ ((List.sublist_cons_self d rest).trans
          (List.sublist_cons_self c (d :: rest))))
    · simp only
      have ih := replaceDigraphs_sublist f hf alts (d :: rest)
      by_cases hc : f c = true
      · rw [List.filter_cons_of_pos hc, List.filter_cons_of_pos hc]
        exact List.Sublist.cons₂ c ih
      · rw [List.filter_cons_of_neg hc, List.filter_cons_of_neg hc]
        exact ih

theorem foldl_repStep_sublist (f : Char → Bool) (hf : f ' ' = false)
    (reps : List (List (Char × Char) × String)) :
    ∀ st : List Char × List String,
      ((reps.foldl repStep st).1.filter f).Sublist (st.1.filter f) := by
  induction reps with
  | nil => intro st; exact List.Sublist.refl _
  | cons rep reps ih =>
    intro st
    rw [List.foldl_cons]
    exact (ih _).trans (replaceDigraphs_sublist f hf rep.1 st.1)

theorem replaceVowels_sublist (f : Char → Bool) (hf : f ' ' = false) :
    ∀ s : List Char, ((replaceVowels s).1.filter f).Sublist (s.filter f)
  | [] => by simp [replaceVowels]
  | c :: cs => by
    unfold replaceVowels
    have ih := replaceVowels_sublist f hf cs
    cases hl : SINGLE_VOWELS.lookup c with
    | some p =>
      simp only
      rw [filter_space_cons_blank f hf]
      exact ih.trans (List.Sublist.filter _ (List.sublist_cons_self c cs))
    | none =>
      simp only
      by_cases hc : f c = true
      · rw [List.filter_cons_of_pos hc, List.filter_cons_of_pos hc]
        exact List.Sublist.cons₂ c ih
      · rw [List.filter_cons_of_neg hc, List.filter_cons_of_neg hc]
        exact ih

theorem replaceFinalY_sublist (f : Char → Bool) (hf : f ' ' = false) :
    ∀ s : List Char, ((replaceFinalY s).1.filter f).Sublist (s.filter f)
  | [] => by simp [replaceFinalY]
  | c :: cs => by
    unfold replaceFinalY
    have ih := replaceFinalY_sublist f hf cs
    simp only
    split
    · rw [filter_space_cons_blank f hf]
      exact ih.trans (List.Sublist.filter _ (List.sublist_cons_self c cs))
    · by_cases hc : f c = true
      · rw [List.filter_cons_of_pos hc, List.filter_cons_of_pos hc]
        exact List.Sublist.cons₂ c ih
      · rw [List.filter_cons_of_neg hc, List.filter_cons_of_neg hc]
        exact ih

theorem toLowerCase_cleanWord (x : String) :
    toLowerCase (cleanWord x).data = (cleanWord x).data := by
  have hall : ∀ c ∈ (cleanWord x).data, lowerChar c = [c] := by
    intro c hc
    obtain ⟨h1, h2⟩ := cleanWord_chars x c hc
    unfold lowerChar
    have hu : ¬ c.isUpper = true := by simp [h2]
    have hk : ¬ c = Char.ofNat 0x212A := by
      intro e
      rw [e] at h1
      exact absurd h1 (by decide)
    have hi : ¬ c = Char.ofNat 0x0130 := by
      intro e
      rw [e] at h1
      exact absurd h1 (by decide)
    rw [if_neg hu, if_neg hk, if_neg hi]
  unfold toLowerCase
  generalize (cleanWord x).data = l at hall
  induction l with
  | nil => rfl
  | cons c cs ih =>
    rw [List.flatMap_cons, hall c (List.mem_cons_self _ _),
      ih (fun d hd => hall d (List.mem_cons_of_mem _ hd))]
    rfl

theorem consonantPhones_not_vowel (s : List Char) :
    ∀ p ∈ consonantPhones s, isVowelPhone p = false ∧ stripStress p = p := by
  intro p hp
  obtain ⟨c, hc⟩ := consonantPhones_mem s p hp
  have hall : ∀ r ∈ CONSONANTS, isVowelPhone r.2 = false ∧ stripStress r.2 = r.2 := by decide
  exact hall _ hc

/-- The phonemes of `heuristicPhones` before the consonants are vowel phonemes. -/
theorem heuristic_vowels (st : List Char × List String) (s : List Char) (n : Nat) :
    ∀ p ∈ (REPS.foldl repStep (st.1, [])).2 ++ (replaceVowels s).2 ++ List.replicate n "IY1",
      isVowelPhone p = true := by
  intro p hp
  simp only [List.mem_append] at hp
  rcases hp with (h | h) | h
  · rcases foldl_repStep_mem REPS _ p h with h1 | ⟨rep, hr, e⟩
    · simp at h1
    · have hall : ∀ r ∈ REPS, isVowelPhone r.2 = true := by decide
      exact e ▸ hall rep hr
  · obtain ⟨c, hc⟩ := replaceVowels_mem _ p h
    have hall : ∀ r ∈ SINGLE_VOWELS, isVowelPhone r.2 = true := by decide
    exact hall _ hc
  · rw [(List.mem_replicate.1 h).2]
    decide

/-- A list of vowel phonemes followed by phonemes that are no vowel phonemes:
the nucleus is the last vowel, the coda is all that follows. -/
theorem phonesToNucleusCoda_append (vs cs : List String) (hne : vs ≠ [])
    (hv : ∀ p ∈ vs, isVowelPhone p = true) (hc : ∀ p ∈ cs, isVowelPhone p = false) :
    (phonesToNucleusCoda (vs ++ cs)).nucleus = [stripStress (vs.getLast hne)] ∧
    (phonesToNucleusCoda (vs ++ cs)).coda = cs.map stripStress := by
  have hlen : 0 < vs.length := List.length_pos.2 hne
  have hp : vs.length - 1 < (vs ++ cs).length := by
    rw [List.length_append]; omega
  have hget : (vs ++ cs).getD (vs.length - 1) "" = vs.getLast hne := by
    rw [List.getD_eq_getElem?_getD, List.getElem?_append_left (by omega),
      List.getElem?_eq_getElem (by omega), Option.getD_some, List.getLast_eq_getElem]
  obtain ⟨h1, h2, _⟩ := phonesToNucleusCoda_vowel (vs ++ cs) (vs.length - 1) hp
    (by rw [hget]; exact hv _ (List.getLast_mem hne))
    (by
      intro j hj1 hj2
      rw [List.getD_eq_getElem?_getD, List.getElem?_append_right (by omega)]
      rw [List.length_append] at hj2
      rw [List.getElem?_eq_getElem (by omega), Option.getD_some]
      exact hc _ (List.getElem_mem _))
  rw [hget] at h1
  refine ⟨h1, ?_⟩
  rw [h2]
  have : vs.length - 1 + 1 = vs.length := by omega
  rw [this, List.drop_left]

/-- The phonemes of a lower-case word: vowel phonemes first, then the phonemes
of the consonant letters that the replacements left, in the order of the
word. -/
theorem heuristicPhones_shape (word : String) :
    ∃ vs letters, heuristicPhones word = vs ++ consonantPhones letters ∧
      (∀ p ∈ vs, isVowelPhone p = true) ∧
      (∀ p ∈ consonantPhones letters, isVowelPhone p = false ∧ stripStress p = p) ∧
      letters.Sublist (toLowerCase word.data) := by
  unfold heuristicPhones
  simp only
  split
  · rename_i hzero
    refine ⟨["AH0"], [], by simp [consonantPhones], by decide, by simp [consonantPhones],
      List.nil_sublist _⟩
  · refine ⟨_, _, rfl, ?_, consonantPhones_not_vowel _, ?_⟩
    · exact heuristic_vowels (toLowerCase word.data, []) _ _
    · exact (((replaceFinalY_sublist _ (by decide) _).trans
        (replaceVowels_sublist _ (by decide) _)).trans
        (foldl_repStep_sublist _ (by decide) REPS _)).trans (List.filter_sublist _)

/-- The consonant phonemes are the phonemes of a sublist of the letters, one
phoneme for each letter of the sublist. -/
theorem consonantPhones_letters :
    ∀ s : List Char, ∃ letters : List Char, letters.Sublist s ∧
      List.Forall₂ (fun c p => CONSONANTS.lookup c = some p) letters (consonantPhones s)
  | [] => ⟨[], List.Sublist.refl _, by simp [consonantPhones]⟩
  | ch :: cs => by
    obtain ⟨letters, hs, hf⟩ := consonantPhones_letters cs
    unfold consonantPhones
    cases hl : CONSONANTS.lookup ch with
    | some p => exact ⟨ch :: letters, List.Sublist.cons₂ ch hs, List.Forall₂.cons hl hf⟩
    | none => exact ⟨letters, List.Sublist.cons ch hs, hf⟩

theorem filter_vowels_append (vs cs : List String)
    (hv : ∀ p ∈ vs, isVowelPhone p = true) (hc : ∀ p ∈ cs, isVowelPhone p = false) :
    (vs ++ cs).filter isVowelPhone = vs ∧
    (vs ++ cs).filter (fun p => !isVowelPhone p) = cs := by
  rw [List.filter_append, List.filter_append]
  have h1 : vs.filter isVowelPhone = vs := List.filter_eq_self.2 hv
  have h2 : cs.filter isVowelPhone = [] :=
    List.filter_eq_nil_iff.2 (fun p hp => by simp [hc p hp])
  have h3 : vs.filter (fun p => !isVowelPhone p) = [] :=
    List.filter_eq_nil_iff.2 (fun p hp => by simp [hv p hp])
  have h4 : cs.filter (fun p => !isVowelPhone p) = cs :=
    List.filter_eq_self.2 (fun p hp => by simp [hc p hp])
  rw [h1, h2, h3, h4]
  simp

/-! ## The assonance threshold inside a bucket -/

theorem getD_mem_of_lt (arr : List Nat) (i : Nat) (h : i < arr.length) : arr.getD i 0 ∈ arr := by
  rw [List.getD_eq_getElem?_getD, List.getElem?_eq_getElem h, Option.getD_some]
  exact List.getElem_mem h

/-- When all the nuclei of a bucket are at distance 0, the inner loop of the
assonance grouping does the same under any two thresholds that are not
negative. -/
theorem assonanceInner_threshold (s1 s2 : Settings) (h1 : 0 ≤ s1.assonanceThreshold)
    (h2 : 0 ≤ s2.assonanceThreshold) (spans : List Span) (arr : List Nat)
    (hz : ∀ a ∈ arr, ∀ b ∈ arr, nucleusDistance (nucleusAt spans a) (nucleusAt spans b) = 0)
    (i : Nat) (hi : i < arr.length) :
    ∀ (js : List Nat) (st : List Nat × List Bool), (∀ j ∈ js, j < arr.length) →
      assonanceInner s1 spans arr i js st = assonanceInner s2 spans arr i js st
  | [], st, _ => by simp [assonanceInner]
  | j :: js, st, hjs => by
    have hj : j < arr.length := hjs j (List.mem_cons_self _ _)
    have hrest : ∀ k ∈ js, k < arr.length := fun k hk => hjs k (List.mem_cons_of_mem _ hk)
    have hd := hz _ (getD_mem_of_lt arr i hi) _ (getD_mem_of_lt arr j hj)
    unfold assonanceInner
    simp only [hd, h1, h2, if_true]
    rw [assonanceInner_threshold s1 s2 h1 h2 spans arr hz i hi js _ hrest,
      assonanceInner_threshold s1 s2 h1 h2 spans arr hz i hi js _ hrest]

theorem assonanceOuter_threshold (s1 s2 : Settings) (h1 : 0 ≤ s1.assonanceThreshold)
    (h2 : 0 ≤ s2.assonanceThreshold) (spans : List Span) (arr : List Nat)
    (hz : ∀ a ∈ arr, ∀ b ∈ arr, nucleusDistance (nucleusAt spans a) (nucleusAt spans b) = 0) :
    ∀ (is : List Nat) (st : List (List Nat) × List Bool), (∀ i ∈ is, i < arr.length) →
      assonanceOuter s1 spans arr is st = assonanceOuter s2 spans arr is st
  | [], st, _ => by simp [assonanceOuter]
  | i :: rest, st, his => by
    have hi : i < arr.length := his i (List.mem_cons_self _ _)
    have hrest : ∀ k ∈ rest, k < arr.length := fun k hk => his k (List.mem_cons_of_mem _ hk)
    unfold assonanceOuter
    simp only
    rw [assonanceInner_threshold s1 s2 h1 h2 spans arr hz i hi rest _ hrest,
      assonanceOuter_threshold s1 s2 h1 h2 spans arr hz rest _ hrest,
      assonanceOuter_threshold s1 s2 h1 h2 spans arr hz rest _ hrest,
      assonanceOuter_threshold s1 s2 h1 h2 spans arr hz rest _ hrest]

theorem assonanceLoop_threshold (s1 s2 : Settings) (h1 : 0 ≤ s1.assonanceThreshold)
    (h2 : 0 ≤ s2.assonanceThreshold) (spans : List Span) :
    ∀ (arrs : List (List Nat)) (acc : List (List Nat)),
      (∀ arr ∈ arrs, ∀ a ∈ arr, ∀ b ∈ arr,
        nucleusDistance (nucleusAt spans a) (nucleusAt spans b) = 0) →
      assonanceLoop s1 spans arrs acc = assonanceLoop s2 spans arrs acc
  | [], acc, _ => by simp [assonanceLoop]
  | arr :: arrs, acc, hz => by
    unfold assonanceLoop
    rw [assonanceOuter_threshold s1 s2 h1 h2 spans arr (hz arr (List.mem_cons_self _ _))
        (List.range arr.length) _ (fun i hi => List.mem_range.1 hi),
      assonanceLoop_threshold s1 s2 h1 h2 spans arrs _
        (fun a ha => hz a (List.mem_cons_of_mem _ ha))]

/-- The spans of one assonance bucket have nuclei at distance 0: the key of the
bucket, `nucleus[0]||'_'`, is the whole nucleus. -/
theorem assonance_bucket_distance (spans : List Span)
    (hstr : ∀ s ∈ spans, ∀ e ∈ s.nucleus, e ∈ STRIPPED) :
    ∀ arr ∈ (fillBuckets (spans.map (fun s => orUnderscore s.nucleus.head?)) 0 []).map Prod.snd,
      ∀ a ∈ arr, ∀ b ∈ arr, nucleusDistance (nucleusAt spans a) (nucleusAt spans b) = 0 := by
  intro arr harr a ha b hb
  have hwf := fillBuckets_all (spans.map (fun s => orUnderscore s.nucleus.head?))
  obtain ⟨p, hp, rfl⟩ := List.mem_map.1 harr
  obtain ⟨_, hka⟩ := (hwf.mem_iff p hp a).1 ha
  obtain ⟨_, hkb⟩ := (hwf.mem_iff p hp b).1 hb
  rw [List.getElem?_map] at hka hkb
  cases hsa : spans[a]? with
  | none => rw [hsa] at hka; cases hka
  | some sa =>
    cases hsb : spans[b]? with
    | none => rw [hsb] at hkb; cases hkb
    | some sb =>
      rw [hsa] at hka
      rw [hsb] at hkb
      simp only [Option.map_some', Option.some.injEq] at hka hkb
      have hhead : sa.nucleus.head? = sb.nucleus.head? := by
        refine orUnderscore_inj _ _ ?_ ?_ (hka.trans hkb.symm)
        · intro e he
          exact hstr sa (List.getElem?_mem hsa) e (List.mem_of_mem_head? he)
        · intro e he
          exact hstr sb (List.getElem?_mem hsb) e (List.mem_of_mem_head? he)
      have hna : nucleusAt spans a = sa.nucleus := by simp [nucleusAt, hsa]
      have hnb : nucleusAt spans b = sb.nucleus := by simp [nucleusAt, hsb]
      rw [hna, hnb]
      exact nucleusDistance_same_head _ _ hhead

theorem assonanceGroups_threshold (s1 s2 : Settings) (he : s1.assonanceEnabled = s2.assonanceEnabled)
    (h1 : 0 ≤ s1.assonanceThreshold) (h2 : 0 ≤ s2.assonanceThreshold) (spans : List Span)
    (hstr : ∀ s ∈ spans, ∀ e ∈ s.nucleus, e ∈ STRIPPED) :
    assonanceGroups s1 spans = assonanceGroups s2 spans := by
  unfold assonanceGroups
  rw [he]
  split
  · simp only
    exact assonanceLoop_threshold s1 s2 h1 h2 spans _ [] (assonance_bucket_distance spans hstr)
  · rfl

/-- The result of `analyze` does not depend on a threshold of the assonance
grouping that is not negative. -/
theorem analyzePure_threshold (settings : Settings) (text : String) (t1 t2 : ℚ)
    (h1 : 0 ≤ t1) (h2 : 0 ≤ t2) :
    analyzePure { settings with assonanceThreshold := t1 } text =
      analyzePure { settings with assonanceThreshold := t2 } text := by
  unfold analyzePure
  simp only
  rw [buildSpansPure_settings { settings with assonanceThreshold := t1 }
    { settings with assonanceThreshold := t2 } rfl]
  cases hb : buildSpansPure { settings with assonanceThreshold := t2 } (tokenize text)
      (tokenize text) 0 with
  | error e => rfl
  | ok spans =>
    simp only
    have hstr : ∀ s ∈ spans, ∀ e ∈ s.nucleus, e ∈ STRIPPED := by
      intro s hs
      obtain ⟨j, w, _, hsf⟩ := buildSpansPure_spec _ _ _ 0 spans hb s hs
      exact hsf.stripped.1
    have ha := assonanceGroups_threshold { settings with assonanceThreshold := t1 }
      { settings with assonanceThreshold := t2 } rfl h1 h2 spans hstr
    have hr : rhymeGroups { settings with assonanceThreshold := t1 } spans =
        rhymeGroups { settings with assonanceThreshold := t2 } spans := rfl
    simp only [resultOf, ha, hr]

/-! ## The rhyme groups in double arithmetic -/

/-- The final `groups` and `groupOf` of the rhyme grouping in double
arithmetic. -/
theorem rhymeGroupsDouble_wf (settings : Settings) (spans : List Span) :
    ∃ G, GroupsWF (tryJoinDouble settings spans) G ∧
      G.groups = rhymeGroupsDouble settings spans := by
  have hwf := fillBuckets_all (spans.map Span.bucketKey)
  refine ⟨_, groupLoop_wf (tryJoinDouble settings spans)
    ((fillBuckets (spans.map Span.bucketKey) 0 []).map Prod.snd)
    { groups := [], groupOf := List.replicate spans.length (-1) } ?_ ?_, rfl⟩
  · intro arr harr
    obtain ⟨p, hp, rfl⟩ := List.mem_map.1 harr
    exact hwf.sorted p hp
  · exact ⟨by simp, by simp, by simp⟩

theorem rhymeGroupsDouble_in_bucket (settings : Settings) (spans : List Span) (g : List Nat)
    (hg : g ∈ rhymeGroupsDouble settings spans) :
    ∃ k, ∀ idx ∈ g, idx < spans.length ∧ (spans.map Span.bucketKey)[idx]? = some k := by
  have hwf := fillBuckets_all (spans.map Span.bucketKey)
  unfold rhymeGroupsDouble at hg
  obtain ⟨new, e, hm⟩ := groupLoop_groups (tryJoinDouble settings spans)
    ((fillBuckets (spans.map Span.bucketKey) 0 []).map Prod.snd)
    { groups := [], groupOf := List.replicate spans.length (-1) }
    (by
      intro arr harr
      obtain ⟨p, hp, rfl⟩ := List.mem_map.1 harr
      exact pairwise_lt_nodup (hwf.sorted p hp))
  simp only at hg
  rw [e] at hg
  simp only [List.nil_append] at hg
  obtain ⟨arr, harr, hin⟩ := hm g hg
  obtain ⟨p, hp, rfl⟩ := List.mem_map.1 harr
  refine ⟨p.1, fun idx hidx => ?_⟩
  have := (hwf.mem_iff p hp idx).1 (hin idx hidx)
  exact ⟨by simpa using this.1, this.2⟩

theorem tryJoinDouble_true (settings : Settings) (spans : List Span) (a b : Nat)
    (h : tryJoinDouble settings spans a b = true) :
    ∃ sa sb, spans[a]? = some sa ∧ spans[b]? = some sb ∧
      rhymeDistanceDouble sa.nc sb.nc ≤
        roundDouble (if (sa.isEnd && sb.isEnd) = true then settings.perfectThreshold
          else settings.slantThreshold) := by
  unfold tryJoinDouble at h
  cases ha : spans[a]? with
  | none => simp [ha] at h
  | some sa =>
    cases hb : spans[b]? with
    | none => simp [ha, hb] at h
    | some sb =>
      simp only [ha, hb, decide_eq_true_eq] at h
      exact ⟨sa, sb, rfl, rfl, h⟩

/-- The result of `analyzeDouble`, when it returns one. -/
theorem analyzeDouble_ok (settings : Settings) (W : World) (text : String) (r : Result)
    (h : (analyzeDouble settings W text).1 = .ok r) :
    r.groups = rhymeGroupsDouble settings r.spans := by
  unfold analyzeDouble at h
  simp only at h
  split at h
  · cases h
  · simp only [Except.ok.injEq] at h
    subst h
    rfl

/-! ## The claims -/

/-- C1: on the four-line text `cat / hat / dog / log` the default settings give
the four line-final spans cat, hat, dog, log, exactly the two rhyme groups
`{cat, hat}` and `{dog, log}` (span indices 0, 1 and 2, 3), and the scheme
`A A B B`. -/
theorem analyze_cat_hat_dog_log :
    analyzeFresh DEFAULT_SETTINGS "cat\nhat\ndog\nlog" =
      .ok { words := [⟨"cat", 0, 0⟩, ⟨"hat", 1, 0⟩, ⟨"dog", 2, 0⟩, ⟨"log", 3, 0⟩]
            spans :=
              [⟨0, 0, "cat", ["AE"], ["K", "T"], "AE|T", true⟩,
               ⟨1, 1, "hat", ["AE"], ["HH", "T"], "AE|T", true⟩,
               ⟨2, 2, "dog", ["OW"], ["D", "G"], "OW|G", true⟩,
               ⟨3, 3, "log", ["OW"], ["L", "G"], "OW|G", true⟩]
            groups := [[0, 1], [2, 3]]
            assonance := [[0, 1], [2, 3]]
            scheme := ["A", "A", "B", "B"] } := by
  decide!

/-- C4, counterexample: the phonemes `["OW1"]` (the word "o") have the nucleus
`OW` and an empty coda, and the rhyme distance of that span to itself is
`0.3 * 0.6 = 0.18`, not `0`. -/
theorem rhymeDistance_self_empty_coda :
    phonesToNucleusCoda ["OW1"] = ⟨["OW"], []⟩ ∧
    rhymeDistance (phonesToNucleusCoda ["OW1"]) (phonesToNucleusCoda ["OW1"]) = 9 / 50 ∧
    rhymeDistance (phonesToNucleusCoda ["OW1"]) (phonesToNucleusCoda ["OW1"]) ≠ 0 := by
  decide!

/-- C4, amended: the rhyme distance of a span to itself is `0` when one of the
last three entries of its coda is a non-empty string, and `0.18` otherwise, in
particular for the empty coda. -/
theorem rhymeDistance_self_eq (a : NucleusCoda) :
    rhymeDistance a a = if comparesSome a.coda then 0 else 9 / 50 :=
  rhymeDistance_self a

/-- C5: `rhymeDistance`, `nucleusDistance` and `codaDistance` are symmetric in
their two arguments, for all nucleus/coda pairs. -/
theorem rhymeDistance_symmetric :
    (∀ a b : NucleusCoda, rhymeDistance a b = rhymeDistance b a) ∧
    (∀ x y : List String, nucleusDistance x y = nucleusDistance y x) ∧
    (∀ x y : List String, codaDistance x y = codaDistance y x) := by
  refine ⟨fun a b => ?_, nucleusDistance_comm, codaDistance_comm⟩
  unfold rhymeDistance
  rw [nucleusDistance_comm a.nucleus, codaDistance_comm a.coda]

/-- C7, the failing input: on the one-word text `constructor` the lookup
`CUSTOM_ARPA[key]` finds the function inherited from `Object.prototype`, the
call `ph.slice()` raises a `TypeError`, and `analyze` returns no result. -/
theorem analyze_constructor_raises :
    tokenize "constructor" = [⟨"constructor", 0, 0⟩] ∧
    CUSTOM_ARPA "constructor" = some .inherited ∧
    analyzeFresh DEFAULT_SETTINGS "constructor" = .error .typeError := by
  decide

/-- C8, counterexample: the word `42` cleans to the empty string and
`wordToPhones` returns the empty sequence for it. -/
theorem wordToPhones_digits_empty :
    cleanWord "42" = "" ∧ returnedPhones (wordToPhones World.fresh "42") = .ok [] := by
  decide

/-- C8, amended: in every state an instance can reach, for every string `w`
whose cleaned form is not `constructor`, `wordToPhones(w)` returns a phoneme
sequence, and this sequence is empty only when `w` cleans to the empty
string. -/
theorem wordToPhones_nonempty (settings : Settings) (acts : List Action) (w : String)
    (h : cleanWord w ≠ "constructor") :
    ∃ ph, returnedPhones (wordToPhones (Session.fresh.run settings acts).world w) = .ok ph ∧
      (ph = [] ↔ cleanWord w = "") := by
  have hS : Coherent (Session.fresh.run settings acts) := Coherent.fresh.run settings acts
  rw [(@wordToPhones_coherent (Session.fresh.run settings acts).world
      (Session.fresh.run settings acts).held hS w).1]
  by_cases h1 : cleanWord w = ""
  · exact ⟨[], by simp [wordToPhonesPure, h1], by simp [h1]⟩
  · obtain ⟨ph, hph, hne⟩ := wordToPhonesPure_ne_nil w h1 h
    exact ⟨ph, hph, by simp [hne, h1]⟩

/-- C8, witness: the word `Cat` after an earlier call whose returned array the
caller emptied. -/
theorem wordToPhones_nonempty_witness :
    cleanWord "Cat" ≠ "constructor" ∧
    ∃ ph, returnedPhones (wordToPhones (Session.fresh.run DEFAULT_SETTINGS
        [.callWordToPhones "cat", .mutate 6 []]).world "Cat") = .ok ph ∧
      (ph = [] ↔ cleanWord "Cat" = "") :=
  ⟨by decide, wordToPhones_nonempty DEFAULT_SETTINGS _ "Cat" (by decide)⟩

/-- C9: after any sequence of earlier `wordToPhones` and `analyze` calls and
of mutations of the arrays these calls returned, `wordToPhones(w)` returns what
a new instance returns for `w` (the same phonemes, or the same error), and
`analyze` returns what a new instance returns; in particular a second call of
`analyze` on the same text and settings returns the result of the first. -/
theorem phoneCache_transparent (settings : Settings) (acts : List Action) (w text : String) :
    returnedPhones (wordToPhones (Session.fresh.run settings acts).world w) =
      returnedPhones (wordToPhones World.fresh w) ∧
    (analyze settings (Session.fresh.run settings acts).world text).1 =
      analyzeFresh settings text ∧
    (analyze settings (analyze settings World.fresh text).2 text).1 =
      analyzeFresh settings text := by
  have hS : Coherent (Session.fresh.run settings acts) := Coherent.fresh.run settings acts
  refine ⟨?_, ?_, ?_⟩
  · rw [(@wordToPhones_coherent (Session.fresh.run settings acts).world
      (Session.fresh.run settings acts).held hS w).1]
    exact (@wordToPhones_coherent World.fresh [] Coherent.fresh w).1.symm
  · rw [(@analyze_coherent settings text (Session.fresh.run settings acts).world
      (Session.fresh.run settings acts).held hS).1]
    exact (analyzeFresh_eq_pure settings text).symm
  · have h1 := (@analyze_coherent settings text World.fresh [] Coherent.fresh).2
    rw [(analyze_coherent settings text h1).1]
    exact (analyzeFresh_eq_pure settings text).symm

/-- C2, counterexample: with `perfectThreshold = 0.1` the two lines `eye` and
`eye` give two line-final spans with the same nucleus `EH` and the same, empty,
coda; their rhyme distance is `0.18`, and no rhyme group is reported. -/
theorem identical_open_syllables_not_grouped :
    analyzeFresh { DEFAULT_SETTINGS with perfectThreshold := 1 / 10 } "eye\neye" =
      .ok { words := [⟨"eye", 0, 0⟩, ⟨"eye", 1, 0⟩]
            spans :=
              [⟨0, 0, "eye", ["EH"], [], "EH|_", true⟩,
               ⟨1, 1, "eye", ["EH"], [], "EH|_", true⟩]
            groups := []
            assonance := [[0, 1]]
            scheme := ["-", "-"] } := by
  decide!

/-- C2, amended: for every text and settings with `perfectThreshold ≥ 0`, two
different spans of the result that are both line-final and have the same
nucleus and the same coda are members of one rhyme group, provided the coda is
not empty or `perfectThreshold ≥ 0.18`. -/
theorem identical_tails_same_group (settings : Settings) (text : String) (r : Result)
    (h : analyzeFresh settings text = .ok r) (hperf : 0 ≤ settings.perfectThreshold)
    (p q : Nat) (sp sq : Span) (hne : p ≠ q)
    (hp : r.spans[p]? = some sp) (hq : r.spans[q]? = some sq)
    (hpe : sp.isEnd = true) (hqe : sq.isEnd = true)
    (hn : sp.nucleus = sq.nucleus) (hc : sp.coda = sq.coda)
    (hcoda : sp.coda ≠ [] ∨ 9 / 50 ≤ settings.perfectThreshold) :
    ∃ g ∈ r.groups, p ∈ g ∧ q ∈ g := by
  rcases Nat.lt_or_gt_of_ne hne with hlt | hgt
  · exact same_group_of_lt settings text r h hperf p q sp sq hlt hp hq hpe hqe hn hc hcoda
  · obtain ⟨g, hg, hqg, hpg⟩ := same_group_of_lt settings text r h hperf q p sq sp hgt hq hp
      hqe hpe hn.symm hc.symm (hc ▸ hcoda)
    exact ⟨g, hg, hpg, hqg⟩

/-- C2, witness: the two lines `cat` and `cat` under the default settings. -/
theorem identical_tails_same_group_witness :
    analyzeFresh DEFAULT_SETTINGS "cat\ncat" = .ok resultCatCat ∧
    ∃ g ∈ resultCatCat.groups, 0 ∈ g ∧ 1 ∈ g :=
  ⟨by decide!,
   identical_tails_same_group DEFAULT_SETTINGS "cat\ncat" resultCatCat (by decide!) (by decide!)
     0 1 ⟨0, 0, "cat", ["AE"], ["K", "T"], "AE|T", true⟩
     ⟨1, 1, "cat", ["AE"], ["K", "T"], "AE|T", true⟩
     (by decide) rfl rfl rfl rfl rfl rfl (Or.inl (by decide))⟩

/-- C3, counterexample: the text `cat / hat / the` has three lines, its last
line holds a stopword only, and the scheme has two entries. -/
theorem scheme_shorter_than_lines :
    (splitLines "cat\nhat\nthe".data).length = 3 ∧
    (analyzeFresh DEFAULT_SETTINGS "cat\nhat\nthe").map (fun r => r.scheme) =
      .ok ["A", "A"] := by
  decide!

/-- C3, amended: the scheme has one entry for every line up to the last line
that has a span: its length is `lineCount`, which is above the line of every
span, is `0` when there is no span and else one more than the line of some
span, and is at most the number of lines of the text. -/
theorem scheme_length (settings : Settings) (text : String) (r : Result)
    (h : analyzeFresh settings text = .ok r) :
    r.scheme.length = lineCountOf r.spans ∧
    (∀ s ∈ r.spans, s.line < r.scheme.length) ∧
    (r.spans = [] → r.scheme.length = 0) ∧
    (r.spans ≠ [] → ∃ s ∈ r.spans, r.scheme.length = s.line + 1) ∧
    r.scheme.length ≤ (splitLines text.data).length := by
  obtain ⟨spans, hb, rfl⟩ := analyzeFresh_ok settings text r h
  simp only [resultOf]
  rw [schemeOf_length]
  obtain ⟨h1, h2, h3⟩ := lineCountOf_spec spans
  exact ⟨rfl, h1, h2, h3, lineCountOf_le settings text spans hb⟩

/-- C3, witness: the text `cat / hat / the` under the default settings. -/
theorem scheme_length_witness :
    analyzeFresh DEFAULT_SETTINGS "cat\nhat\nthe" = .ok resultCatHatThe ∧
    resultCatHatThe.scheme.length = lineCountOf resultCatHatThe.spans ∧
    (∀ s ∈ resultCatHatThe.spans, s.line < resultCatHatThe.scheme.length) ∧
    (resultCatHatThe.spans = [] → resultCatHatThe.scheme.length = 0) ∧
    (resultCatHatThe.spans ≠ [] →
      ∃ s ∈ resultCatHatThe.spans, resultCatHatThe.scheme.length = s.line + 1) ∧
    resultCatHatThe.scheme.length ≤ (splitLines "cat\nhat\nthe".data).length :=
  ⟨by decide!, scheme_length DEFAULT_SETTINGS "cat\nhat\nthe" resultCatHatThe (by decide!)⟩

/-- C6, counterexample: on the text `best / melt / melt the` (perfect threshold
`0.18`) the slant threshold `0.1` gives the one group of the two spans `melt`,
spans 1 and 2; the slant threshold `0.5` gives the one group of spans 0 and 2:
span 1 is in a group under the lower threshold and in none under the higher. -/
theorem slant_raise_drops_span :
    (analyzeFresh { DEFAULT_SETTINGS with slantThreshold := 1 / 10 }
      "best\nmelt\nmelt the").map (fun r => r.groups) = .ok [[1, 2]] ∧
    (analyzeFresh { DEFAULT_SETTINGS with slantThreshold := 1 / 2 }
      "best\nmelt\nmelt the").map (fun r => r.groups) = .ok [[0, 2]] := by
  decide!

/-- C6, amended: for two settings that differ only in the slant threshold, both
thresholds at `0.2` (the lower end of the slider) or above, `analyze` returns
the same spans and the same rhyme groups, so every span that is a member of a
group under the lower threshold is a member of a group under the higher. -/
theorem slant_monotone_above_fifth (settings : Settings) (t2 : ℚ) (text : String) (r1 : Result)
    (h1 : 1 / 5 ≤ settings.slantThreshold) (h2 : settings.slantThreshold ≤ t2)
    (h : analyzeFresh settings text = .ok r1) :
    ∃ r2, analyzeFresh { settings with slantThreshold := t2 } text = .ok r2 ∧
      r2.spans = r1.spans ∧ r2.groups = r1.groups ∧
      ∀ idx, (∃ g ∈ r1.groups, idx ∈ g) → ∃ g ∈ r2.groups, idx ∈ g := by
  obtain ⟨spans, hb, rfl⟩ := analyzeFresh_ok settings text r1 h
  have hb2 : buildSpansPure { settings with slantThreshold := t2 } (tokenize text)
      (tokenize text) 0 = .ok spans := by
    rw [← hb]
    exact buildSpansPure_settings { settings with slantThreshold := t2 } settings rfl _ _ _
  have hg := rhymeGroups_slant settings t2 (tokenize text) spans hb h1 (le_trans h1 h2)
  refine ⟨resultOf { settings with slantThreshold := t2 } (tokenize text) spans, ?_, rfl, hg, ?_⟩
  · rw [analyzeFresh_eq_pure]
    unfold analyzePure
    simp only [hb2]
  · intro idx hidx
    simp only [resultOf] at hidx ⊢
    rw [hg]
    exact hidx

/-- C6, witness: the text `best / melt / melt the` with the slant thresholds
`0.5` and `0.8`. -/
theorem slant_monotone_above_fifth_witness :
    (1 : ℚ) / 5 ≤ DEFAULT_SETTINGS.slantThreshold ∧ DEFAULT_SETTINGS.slantThreshold ≤ 8 / 10 ∧
    analyzeFresh DEFAULT_SETTINGS "best\nmelt\nmelt the" = .ok resultBestMelt ∧
    ∃ r2, analyzeFresh { DEFAULT_SETTINGS with slantThreshold := 8 / 10 }
        "best\nmelt\nmelt the" = .ok r2 ∧
      r2.spans = resultBestMelt.spans ∧ r2.groups = resultBestMelt.groups ∧
      ∀ idx, (∃ g ∈ resultBestMelt.groups, idx ∈ g) → ∃ g ∈ r2.groups, idx ∈ g :=
  ⟨by decide!, by decide!, by decide!,
   slant_monotone_above_fifth DEFAULT_SETTINGS (8 / 10) "best\nmelt\nmelt the" resultBestMelt
     (by decide!) (by decide!) (by decide!)⟩

/-- C10: with `ignoreStopwords = true`, no span of the result has a word of the
stopword set, every member of a rhyme group and of an assonance cluster is the
index of such a span, and for the line `the cat` the only span is `cat`, which
is line-final. -/
theorem stopwords_excluded (settings : Settings) (text : String) (r : Result)
    (hs : settings.ignoreStopwords = true) (h : analyzeFresh settings text = .ok r) :
    (∀ s ∈ r.spans, s.word ∉ STOPWORDS) ∧
    (∀ g ∈ r.groups, ∀ idx ∈ g, ∃ s, r.spans[idx]? = some s ∧ s.word ∉ STOPWORDS) ∧
    (∀ g ∈ r.assonance, ∀ idx ∈ g, ∃ s, r.spans[idx]? = some s ∧ s.word ∉ STOPWORDS) ∧
    (analyzeFresh settings "the cat").map (fun r => r.spans) =
      .ok [⟨1, 0, "cat", ["AE"], ["K", "T"], "AE|T", true⟩] := by
  obtain ⟨spans, hb, rfl⟩ := analyzeFresh_ok settings text r h
  have hword : ∀ s ∈ spans, s.word ∉ STOPWORDS := by
    intro s hmem hin
    obtain ⟨j, w, _, hsf⟩ := buildSpansPure_spec settings _ _ 0 spans hb s hmem
    have hc := hsf.notStop hs
    have hmem' : STOPWORDS.contains s.word = true :=
      List.contains_iff_exists_mem_beq.2 ⟨s.word, hin, beq_self_eq_true _⟩
    rw [hc] at hmem'
    exact absurd hmem' (by simp)
  have hidx : ∀ idx, idx < spans.length → ∃ s, spans[idx]? = some s ∧ s.word ∉ STOPWORDS := by
    intro idx hlt
    exact ⟨spans[idx], List.getElem?_eq_getElem hlt, hword _ (List.getElem_mem hlt)⟩
  refine ⟨hword, ?_, ?_, ?_⟩
  · intro g hg idx hi
    obtain ⟨k, hk⟩ := rhymeGroups_in_bucket settings spans g hg
    exact hidx idx (hk idx hi).1
  · intro g hg idx hi
    exact hidx idx (assonanceGroups_valid settings spans g hg idx hi)
  · rw [analyzeFresh_eq_pure]
    have hb' : buildSpansPure DEFAULT_SETTINGS (tokenize "the cat") (tokenize "the cat") 0 =
        .ok [⟨1, 0, "cat", ["AE"], ["K", "T"], "AE|T", true⟩] := by decide
    unfold analyzePure
    simp only
    rw [buildSpansPure_settings settings DEFAULT_SETTINGS (by rw [hs]; rfl), hb']
    rfl

/-- C10, witness: the line `the cat` under the default settings. -/
theorem stopwords_excluded_witness :
    DEFAULT_SETTINGS.ignoreStopwords = true ∧
    analyzeFresh DEFAULT_SETTINGS "the cat" = .ok resultTheCat ∧
    (∀ s ∈ resultTheCat.spans, s.word ∉ STOPWORDS) ∧
    (∀ g ∈ resultTheCat.groups, ∀ idx ∈ g,
      ∃ s, resultTheCat.spans[idx]? = some s ∧ s.word ∉ STOPWORDS) ∧
    (∀ g ∈ resultTheCat.assonance, ∀ idx ∈ g,
      ∃ s, resultTheCat.spans[idx]? = some s ∧ s.word ∉ STOPWORDS) ∧
    (analyzeFresh DEFAULT_SETTINGS "the cat").map (fun r => r.spans) =
      .ok [⟨1, 0, "cat", ["AE"], ["K", "T"], "AE|T", true⟩] :=
  ⟨rfl, by decide!,
   stopwords_excluded DEFAULT_SETTINGS "the cat" resultTheCat rfl (by decide!)⟩

/-- C14: in exact arithmetic, `nucleusDistance` is one of `0`, `1/4`, `1`,
`codaDistance` lies in `[0, 1]`, and `rhymeDistance(a, b)` is
`0.7 * nucleusDistance + 0.3 * codaDistance` and lies in `[0, 1]`. -/
theorem distances_in_unit_interval (a b : NucleusCoda) :
    (nucleusDistance a.nucleus b.nucleus = 0 ∨ nucleusDistance a.nucleus b.nucleus = 1 / 4 ∨
      nucleusDistance a.nucleus b.nucleus = 1) ∧
    (0 ≤ codaDistance a.coda b.coda ∧ codaDistance a.coda b.coda ≤ 1) ∧
    rhymeDistance a b =
      7 / 10 * nucleusDistance a.nucleus b.nucleus + 3 / 10 * codaDistance a.coda b.coda ∧
    (0 ≤ rhymeDistance a b ∧ rhymeDistance a b ≤ 1) := by
  have hn := nucleusDistance_values a.nucleus b.nucleus
  have hc := codaDistance_range a.coda b.coda
  refine ⟨hn, hc, rfl, ?_⟩
  unfold rhymeDistance
  rcases hn with h | h | h <;> rw [h] <;> constructor <;> linarith [hc.1, hc.2]

/-- C18: when position `p` holds the last vowel phoneme of `P`, the nucleus is
the stripped `P[p]`, the coda is the stripped phonemes after `p` in order, and
no entry of the coda is a vowel phoneme; when `P` has no vowel phoneme, the
nucleus is empty and the coda is the last `min(2, |P|)` phonemes, stripped. -/
theorem phonesToNucleusCoda_spec (P : List String) :
    (∀ p, p < P.length → isVowelPhone (P.getD p "") = true →
      (∀ j, p < j → j < P.length → isVowelPhone (P.getD j "") = false) →
      (phonesToNucleusCoda P).nucleus = [stripStress (P.getD p "")] ∧
      (phonesToNucleusCoda P).coda = (P.drop (p + 1)).map stripStress ∧
      ∀ e ∈ (phonesToNucleusCoda P).coda, isVowelPhone e = false) ∧
    ((∀ x ∈ P, isVowelPhone x = false) →
      (phonesToNucleusCoda P).nucleus = [] ∧
      (phonesToNucleusCoda P).coda = (P.drop (P.length - min 2 P.length)).map stripStress ∧
      (phonesToNucleusCoda P).coda.length = min 2 P.length) :=
  ⟨fun p hp hv hlast => phonesToNucleusCoda_vowel P p hp hv hlast,
   fun h => phonesToNucleusCoda_no_vowel P h⟩

/-- C18, witness: the phonemes `K AE1 T` with the last vowel at position 1, and
the phonemes `S T R` without a vowel. -/
theorem phonesToNucleusCoda_spec_witness :
    ((phonesToNucleusCoda ["K", "AE1", "T"]).nucleus = [stripStress "AE1"] ∧
      (phonesToNucleusCoda ["K", "AE1", "T"]).coda = (["T"] : List String).map stripStress ∧
      ∀ e ∈ (phonesToNucleusCoda ["K", "AE1", "T"]).coda, isVowelPhone e = false) ∧
    ((phonesToNucleusCoda ["S", "T", "R"]).nucleus = [] ∧
      (phonesToNucleusCoda ["S", "T", "R"]).coda = (["T", "R"] : List String).map stripStress ∧
      (phonesToNucleusCoda ["S", "T", "R"]).coda.length = 2) :=
  ⟨(phonesToNucleusCoda_spec ["K", "AE1", "T"]).1 1 (by decide) (by decide)
     (fun j h1 h2 => by
       have hj : j = 2 := by simp only [List.length_cons, List.length_nil] at h2; omega
       subst hj
       decide),
   (phonesToNucleusCoda_spec ["S", "T", "R"]).2 (by decide)⟩

/-- C11: the rhyme groups of a result are lists of indices into `spans` without
a repeated entry, each with at least two members, and no index is in two
groups. -/
theorem rhyme_groups_disjoint (settings : Settings) (text : String) (r : Result)
    (h : analyzeFresh settings text = .ok r) :
    (∀ g ∈ r.groups, 2 ≤ g.length ∧ g.Nodup ∧ ∀ idx ∈ g, idx < r.spans.length) ∧
    r.groups.Pairwise List.Disjoint := by
  obtain ⟨spans, _, rfl⟩ := analyzeFresh_ok settings text r h
  simp only [resultOf]
  obtain ⟨G, hG, hgroups⟩ := rhymeGroups_wf settings spans
  rw [← hgroups]
  refine ⟨?_, hG.disjoint⟩
  intro g hg
  obtain ⟨a, J, rfl, hJ, hs, _⟩ := hG.anchored g hg
  refine ⟨?_, pairwise_lt_nodup hs, ?_⟩
  · cases J with
    | nil => exact absurd rfl hJ
    | cons b bs => simp
  · intro idx hidx
    rw [hgroups] at hg
    obtain ⟨k, hk⟩ := rhymeGroups_in_bucket settings spans _ hg
    exact (hk idx hidx).1

/-- C11, witness: the three lines `best`, `melt` and `melt the`. -/
theorem rhyme_groups_disjoint_witness :
    analyzeFresh DEFAULT_SETTINGS "best\nmelt\nmelt the" = .ok resultBestMelt ∧
    (∀ g ∈ resultBestMelt.groups,
      2 ≤ g.length ∧ g.Nodup ∧ ∀ idx ∈ g, idx < resultBestMelt.spans.length) ∧
    resultBestMelt.groups.Pairwise List.Disjoint :=
  ⟨by decide!,
   rhyme_groups_disjoint DEFAULT_SETTINGS "best\nmelt\nmelt the" resultBestMelt (by decide!)⟩

/-- C16: the tokens of a text have non-decreasing line indices; for every token
index `i`, `isLineEnd(i, tokens)` is true exactly when no later token has the
line of token `i`; and two line-final tokens of one line are the same token. -/
theorem isLineEnd_last_of_line (text : String) :
    (tokenize text).Pairwise (fun a b => a.line ≤ b.line) ∧
    (∀ i ti, (tokenize text)[i]? = some ti →
      ∃ b, isLineEnd i (tokenize text) = .ok b ∧
        (b = true ↔ ∀ j tj, i < j → (tokenize text)[j]? = some tj → tj.line ≠ ti.line)) ∧
    (∀ i1 i2 t1 t2, (tokenize text)[i1]? = some t1 → (tokenize text)[i2]? = some t2 →
      isLineEnd i1 (tokenize text) = .ok true → isLineEnd i2 (tokenize text) = .ok true →
      t1.line = t2.line → i1 = i2) :=
  ⟨tokenize_sorted text,
   fun i ti hi => isLineEnd_iff _ (tokenize_sorted text) i ti hi,
   fun i1 i2 t1 t2 h1 h2 e1 e2 hl =>
     lineEnd_unique _ (tokenize_sorted text) i1 i2 t1 t2 h1 h2 e1 e2 hl⟩

/-- C16, witness: in `the cat / sat` the token `cat` (index 1) is line-final. -/
theorem isLineEnd_last_of_line_witness :
    (tokenize "the cat\nsat")[1]? = some ⟨"cat", 0, 1⟩ ∧
    ∃ b, isLineEnd 1 (tokenize "the cat\nsat") = .ok b ∧
      (b = true ↔ ∀ j tj, 1 < j → (tokenize "the cat\nsat")[j]? = some tj →
        tj.line ≠ (⟨"cat", 0, 1⟩ : Token).line) :=
  ⟨by decide, (isLineEnd_last_of_line "the cat\nsat").2.1 1 ⟨"cat", 0, 1⟩ (by decide)⟩

/-- C17: in every rhyme group that `analyze` returns, in whatever state of the
cache, the members are in ascending span order, and every member `b` after the
first member `a` has the bucket key of `a` and a rhyme distance to `a`, computed
in double arithmetic as the source computes it, of at most `perfectThreshold`
when both are line-final, of at most `slantThreshold` otherwise. -/
theorem rhyme_group_anchored (settings : Settings) (W : World) (text : String) (r : Result)
    (h : (analyzeDouble settings W text).1 = .ok r) :
    ∀ g ∈ r.groups, g.Pairwise (· < ·) ∧
      ∃ a rest, g = a :: rest ∧
        ∀ b ∈ rest, ∃ sa sb, r.spans[a]? = some sa ∧ r.spans[b]? = some sb ∧
          sa.bucketKey = sb.bucketKey ∧
          rhymeDistanceDouble sa.nc sb.nc ≤
            roundDouble (if (sa.isEnd && sb.isEnd) = true then settings.perfectThreshold
              else settings.slantThreshold) := by
  have hgr := analyzeDouble_ok settings W text r h
  rw [hgr]
  obtain ⟨G, hG, hgroups⟩ := rhymeGroupsDouble_wf settings r.spans
  intro g hg
  obtain ⟨k, hk⟩ := rhymeGroupsDouble_in_bucket settings r.spans g hg
  rw [← hgroups] at hg
  obtain ⟨a, J, rfl, _, hs, hjoin⟩ := hG.anchored g hg
  refine ⟨hs, a, J, rfl, ?_⟩
  intro b hb
  obtain ⟨sa, sb, hsa, hsb, hd⟩ := tryJoinDouble_true settings r.spans a b (hjoin b hb)
  refine ⟨sa, sb, hsa, hsb, ?_, hd⟩
  have ka := (hk a (List.mem_cons_self _ _)).2
  have kb := (hk b (List.mem_cons_of_mem _ hb)).2
  rw [List.getElem?_map, hsa] at ka
  rw [List.getElem?_map, hsb] at kb
  simp only [Option.map_some', Option.some.injEq] at ka kb
  rw [ka, kb]

/-- C17, witness: the lines `best` and `melt` with `perfectThreshold` set to
`0.19999999999999998`. The source computes `0.7*0 + 0.3*(2/3)` as
`0.19999999999999998`, not as `1/5`, so the two line-final spans form the group
`[0, 1]`, and the bound of the theorem holds with equality. -/
theorem rhyme_group_anchored_witness :
    (analyzeDouble
        { DEFAULT_SETTINGS with perfectThreshold := 19999999999999998 / 100000000000000000 }
        World.fresh "best\nmelt").1 = .ok resultBestMeltNear ∧
    rhymeDistanceDouble ⟨["EH"], ["B", "S", "T"]⟩ ⟨["EH"], ["M", "L", "T"]⟩ =
      roundDouble (19999999999999998 / 100000000000000000) ∧
    ∀ g ∈ resultBestMeltNear.groups, g.Pairwise (· < ·) ∧
      ∃ a rest, g = a :: rest ∧
        ∀ b ∈ rest, ∃ sa sb, resultBestMeltNear.spans[a]? = some sa ∧
          resultBestMeltNear.spans[b]? = some sb ∧ sa.bucketKey = sb.bucketKey ∧
          rhymeDistanceDouble sa.nc sb.nc ≤
            roundDouble (if (sa.isEnd && sb.isEnd) = true then
                (19999999999999998 / 100000000000000000 : ℚ)
              else DEFAULT_SETTINGS.slantThreshold) :=
  ⟨by decide!, by decide!,
   rhyme_group_anchored
     { DEFAULT_SETTINGS with perfectThreshold := 19999999999999998 / 100000000000000000 }
     World.fresh "best\nmelt" resultBestMeltNear (by decide!)⟩

/-- C12: when `analyze` reports at most 26 rhyme groups, the scheme entry of a
line is the placeholder exactly when no line-final span of the line is a member
of a rhyme group, and two entries that are not the placeholder are equal
exactly when the line-final spans of their lines are members of one group. -/
theorem scheme_entries (settings : Settings) (text : String) (r : Result)
    (h : analyzeFresh settings text = .ok r) (h26 : r.groups.length ≤ 26) :
    (∀ l, l < r.scheme.length →
      (r.scheme[l]? = some "-" ↔
        ¬ ∃ g ∈ r.groups, ∃ idx ∈ g, LineFinalAt r.spans idx l)) ∧
    (∀ l1 l2 e1 e2, r.scheme[l1]? = some e1 → r.scheme[l2]? = some e2 →
      e1 ≠ "-" → e2 ≠ "-" →
      (e1 = e2 ↔ ∃ g ∈ r.groups,
        (∃ idx ∈ g, LineFinalAt r.spans idx l1) ∧ (∃ idx ∈ g, LineFinalAt r.spans idx l2))) := by
  obtain ⟨spans, hb, rfl⟩ := analyzeFresh_ok settings text r h
  simp only [resultOf] at h26 ⊢
  obtain ⟨G, hG, hgroups⟩ := rhymeGroups_wf settings spans
  have hdis : (rhymeGroups settings spans).Pairwise List.Disjoint := hgroups ▸ hG.disjoint
  obtain ⟨letter, hinj, hnone, hsome⟩ := schemeOf_letters spans (rhymeGroups settings spans) h26
  have hlen := schemeOf_length spans (rhymeGroups settings spans)
  have hlt : ∀ l e, (schemeOf spans (rhymeGroups settings spans))[l]? = some e →
      l < lineCountOf spans := by
    intro l e he
    by_contra hge
    rw [List.getElem?_eq_none (by omega)] at he
    cases he
  have hentry : ∀ l e, (schemeOf spans (rhymeGroups settings spans))[l]? = some e → e ≠ "-" →
      ∃ v, (lineFinalLoop spans (rhymeGroups settings spans) 0 []).get l = some v ∧
        letter v = some e := by
    intro l e he hne
    cases hM : (lineFinalLoop spans (rhymeGroups settings spans) 0 []).get l with
    | none =>
      rw [hnone l (hlt l e he) hM] at he
      exact absurd (Option.some.inj he).symm hne
    | some v =>
      obtain ⟨c, hc, _, hsc⟩ := hsome l v (hlt l e he) hM
      rw [hsc] at he
      cases he
      exact ⟨v, rfl, hc⟩
  constructor
  · intro l hl
    rw [hlen] at hl
    cases hM : (lineFinalLoop spans (rhymeGroups settings spans) 0 []).get l with
    | none =>
      have := lineFinalGroup_none spans _ l hM
      simp only [hnone l hl hM, true_iff]
      exact this
    | some v =>
      obtain ⟨c, _, hne, hsc⟩ := hsome l v hl hM
      obtain ⟨g, hg, hx⟩ := lineFinalGroup_some spans _ l v hM
      rw [hsc]
      constructor
      · intro e
        exact absurd (Option.some.inj e) hne
      · intro hno
        exact absurd ⟨g, List.getElem?_mem hg, hx⟩ hno
  · intro l1 l2 e1 e2 h1 h2 hne1 hne2
    obtain ⟨v1, hv1, hc1⟩ := hentry l1 e1 h1 hne1
    obtain ⟨v2, hv2, hc2⟩ := hentry l2 e2 h2 hne2
    obtain ⟨g1, hg1, i1, hi1, hf1⟩ := lineFinalGroup_some spans _ l1 v1 hv1
    obtain ⟨g2, hg2, i2, hi2, hf2⟩ := lineFinalGroup_some spans _ l2 v2 hv2
    constructor
    · intro e
      subst e
      have hv : v1 = v2 := hinj v1 v2 e1 hc1 hc2
      subst hv
      rw [hg1] at hg2
      cases hg2
      exact ⟨g1, List.getElem?_mem hg1, ⟨i1, hi1, hf1⟩, ⟨i2, hi2, hf2⟩⟩
    · rintro ⟨g, hg, ⟨j1, hj1, hjf1⟩, ⟨j2, hj2, hjf2⟩⟩
      obtain ⟨k, hk⟩ := List.mem_iff_getElem?.1 hg
      have e1' : i1 = j1 := lineFinalAt_unique settings text spans hb i1 j1 l1 hf1 hjf1
      have e2' : i2 = j2 := lineFinalAt_unique settings text spans hb i2 j2 l2 hf2 hjf2
      have hk1 : v1 = k := disjoint_index hdis v1 k g1 g hg1 hk i1 hi1 (e1' ▸ hj1)
      have hk2 : v2 = k := disjoint_index hdis v2 k g2 g hg2 hk i2 hi2 (e2' ▸ hj2)
      rw [hk1] at hc1
      rw [hk2] at hc2
      rw [hc1] at hc2
      exact Option.some.inj hc2

/-- C12, witness: the three lines `best`, `melt` and `melt the`. -/
theorem scheme_entries_witness :
    analyzeFresh DEFAULT_SETTINGS "best\nmelt\nmelt the" = .ok resultBestMelt ∧
    resultBestMelt.groups.length ≤ 26 ∧
    (∀ l, l < resultBestMelt.scheme.length →
      (resultBestMelt.scheme[l]? = some "-" ↔
        ¬ ∃ g ∈ resultBestMelt.groups, ∃ idx ∈ g, LineFinalAt resultBestMelt.spans idx l)) ∧
    (∀ l1 l2 e1 e2, resultBestMelt.scheme[l1]? = some e1 → resultBestMelt.scheme[l2]? = some e2 →
      e1 ≠ "-" → e2 ≠ "-" →
      (e1 = e2 ↔ ∃ g ∈ resultBestMelt.groups,
        (∃ idx ∈ g, LineFinalAt resultBestMelt.spans idx l1) ∧
        (∃ idx ∈ g, LineFinalAt resultBestMelt.spans idx l2))) :=
  ⟨by decide!, by decide,
   scheme_entries DEFAULT_SETTINGS "best\nmelt\nmelt the" resultBestMelt (by decide!)
     (by decide)⟩

/-- C20: with `ignoreStopwords = true`, when the last token of a line is a
stopword, no span of that line is line-final, and the scheme entry of the
line, when the scheme reaches the line, is the placeholder. -/
theorem stopword_line_end (settings : Settings) (text : String) (r : Result)
    (hs : settings.ignoreStopwords = true) (h : analyzeFresh settings text = .ok r)
    (k : Nat) (t : Token) (hk : (tokenize text)[k]? = some t)
    (hlast : ∀ j tj, k < j → (tokenize text)[j]? = some tj → tj.line ≠ t.line)
    (hstop : t.word ∈ STOPWORDS) :
    (∀ s ∈ r.spans, s.line = t.line → s.isEnd = false) ∧
    (t.line < r.scheme.length → r.scheme[t.line]? = some "-") := by
  obtain ⟨spans, hb, rfl⟩ := analyzeFresh_ok settings text r h
  simp only [resultOf]
  have hk_end : isLineEnd k (tokenize text) = .ok true := by
    obtain ⟨b, hb1, hiff⟩ := isLineEnd_iff _ (tokenize_sorted text) k t hk
    rw [hb1, hiff.2 hlast]
  have hno : ∀ s ∈ spans, s.line = t.line → s.isEnd = false := by
    intro s hmem hline
    by_contra hne
    have he : s.isEnd = true := by simpa using hne
    obtain ⟨j, w, hj, hsf⟩ := buildSpansPure_spec settings _ _ 0 spans hb s hmem
    rw [Nat.zero_add] at hsf
    have hje := hsf.isEnd
    rw [he] at hje
    have hjk : j = k := lineEnd_unique _ (tokenize_sorted text) j k w t hj hk hje hk_end
      (by rw [← hsf.line, hline])
    subst hjk
    rw [hk] at hj
    cases hj
    have hc := hsf.notStop hs
    have hmem' : STOPWORDS.contains s.word = true :=
      List.contains_iff_exists_mem_beq.2 ⟨t.word, hstop, by rw [hsf.word]; exact beq_self_eq_true _⟩
    rw [hc] at hmem'
    cases hmem'
  refine ⟨hno, ?_⟩
  intro hlt
  rw [schemeOf_length] at hlt
  obtain ⟨letters, _, _, _, hsch⟩ := schemeOf_spec spans (rhymeGroups settings spans)
  rw [hsch _ hlt]
  cases hM : (lineFinalLoop spans (rhymeGroups settings spans) 0 []).get t.line with
  | none => rfl
  | some v =>
    obtain ⟨g, _, idx, _, s, hsp, he, hl⟩ := lineFinalGroup_some spans _ _ v hM
    have := hno s (List.getElem?_mem hsp) hl
    rw [he] at this
    cases this

/-- C19: for every cleaned word `w`, `heuristicPhones w` is its vowel phonemes
followed by its consonant phonemes; the consonant phonemes are, one for one, the
phonemes of letters that occur in this order in `w`; and when there is a vowel
phoneme, the coda of `phonesToNucleusCoda` is the list of all the consonant
phonemes, those of the letters before the vowel included. -/
theorem heuristicPhones_vowels_first (x : String) :
    heuristicPhones (cleanWord x) =
      (heuristicPhones (cleanWord x)).filter isVowelPhone ++
        (heuristicPhones (cleanWord x)).filter (fun p => !isVowelPhone p) ∧
    (∃ letters : List Char, letters.Sublist (cleanWord x).data ∧
      List.Forall₂ (fun c p => CONSONANTS.lookup c = some p) letters
        ((heuristicPhones (cleanWord x)).filter (fun p => !isVowelPhone p))) ∧
    ((∃ p ∈ heuristicPhones (cleanWord x), isVowelPhone p = true) →
      (phonesToNucleusCoda (heuristicPhones (cleanWord x))).coda =
        (heuristicPhones (cleanWord x)).filter (fun p => !isVowelPhone p)) := by
  obtain ⟨vs, rest, hph, hv, hc, hsub⟩ := heuristicPhones_shape (cleanWord x)
  rw [toLowerCase_cleanWord] at hsub
  have hc1 : ∀ p ∈ consonantPhones rest, isVowelPhone p = false := fun p hp => (hc p hp).1
  obtain ⟨hf1, hf2⟩ := filter_vowels_append vs (consonantPhones rest) hv hc1
  rw [hph, hf1, hf2]
  refine ⟨rfl, ?_, ?_⟩
  · obtain ⟨letters, hs, hfa⟩ := consonantPhones_letters rest
    exact ⟨letters, hs.trans hsub, hfa⟩
  · rintro ⟨p, hp, hpv⟩
    have hne : vs ≠ [] := by
      intro e
      rw [e, List.nil_append] at hp
      rw [hc1 p hp] at hpv
      exact absurd hpv (by decide)
    rw [(phonesToNucleusCoda_append vs (consonantPhones rest) hne hv hc1).2]
    have hid : ∀ l : List String, (∀ p ∈ l, stripStress p = p) → l.map stripStress = l := by
      intro l
      induction l with
      | nil => intro _; rfl
      | cons a l ih =>
        intro h
        rw [List.map_cons, h a (List.mem_cons_self _ _),
          ih (fun p hp => h p (List.mem_cons_of_mem _ hp))]
    exact hid _ (fun p hp => (hc p hp).2)

/-- C19 at the word `stray`: the phonemes are `AY1 S T R`, the vowel first, and
the coda is `S T R`, the consonants written before the vowel. -/
theorem heuristicPhones_vowels_first_witness :
    heuristicPhones (cleanWord "stray") = ["AY1", "S", "T", "R"] ∧
    (∃ p ∈ heuristicPhones (cleanWord "stray"), isVowelPhone p = true) ∧
    (phonesToNucleusCoda (heuristicPhones (cleanWord "stray"))).coda = ["S", "T", "R"] := by
  have hv : ∃ p ∈ heuristicPhones (cleanWord "stray"), isVowelPhone p = true :=
    ⟨"AY1", by decide, by decide⟩
  refine ⟨by decide, hv, ?_⟩
  rw [(heuristicPhones_vowels_first "stray").2.2 hv]
  decide

/-- C20, witness: in `cat the` / `hat` the first line ends in the stopword
`the`; its only span `cat` is not line-final and its scheme entry is the
placeholder. -/
theorem stopword_line_end_witness :
    analyzeFresh DEFAULT_SETTINGS "cat the\nhat" = .ok resultCatTheHat ∧
    (∀ s ∈ resultCatTheHat.spans, s.line = 0 → s.isEnd = false) ∧
    (0 < resultCatTheHat.scheme.length → resultCatTheHat.scheme[0]? = some "-") :=
  ⟨by decide!,
   stopword_line_end DEFAULT_SETTINGS "cat the\nhat" resultCatTheHat (by decide) (by decide!)
     1 ⟨"the", 0, 1⟩ (by decide)
     (fun j tj hj hget => by
       have ht : tokenize "cat the\nhat" = [⟨"cat", 0, 0⟩, ⟨"the", 0, 1⟩, ⟨"hat", 1, 0⟩] := by
         decide
       rw [ht] at hget
       rcases j with _ | _ | _ | j
       · omega
       · omega
       · simp at hget
         subst hget
         decide
       · simp at hget)
     (by decide)⟩

set_option maxRecDepth 1000000 in
/-- C13, the failing input: on the 54 lines of `TWENTY_SEVEN_COUPLETS` under the
default settings `analyze` finds 27 rhyme groups, and the scheme entries of the
last two lines are `[`, the character after `Z`, which is neither the
placeholder nor a letter. -/
theorem scheme_twenty_seventh_group :
    (analyzeFresh DEFAULT_SETTINGS TWENTY_SEVEN_COUPLETS).map
        (fun r => (r.groups.length, r.scheme)) =
      .ok (27,
      ["A", "A", "B", "B", "C", "C", "D", "D", "E", "E", "F", "F", "G", "G",
       "H", "H", "I", "I", "J", "J", "K", "K", "L", "L", "M", "M", "N", "N",
       "O", "O", "P", "P", "Q", "Q", "R", "R", "S", "S", "T", "T", "U", "U",
       "V", "V", "W", "W", "X", "X", "Y", "Y", "Z", "Z", "[", "["]) := by
  decide!

/-- C15, the divergence: for every text and every two values of
`assonanceThreshold` that are not negative (the slider range `[0.1, 1.0]` among
them), all other settings equal, `analyze` returns the same result, so the
same assonance clusters; the sensitivity setting has no effect. -/
theorem assonanceThreshold_without_effect (settings : Settings) (text : String) (t1 t2 : ℚ)
    (h1 : 0 ≤ t1) (h2 : 0 ≤ t2) :
    analyzeFresh { settings with assonanceThreshold := t1 } text =
      analyzeFresh { settings with assonanceThreshold := t2 } text := by
  rw [analyzeFresh_eq_pure, analyzeFresh_eq_pure]
  exact analyzePure_threshold settings text t1 t2 h1 h2

/-- C15, witness: the lines `bit` and `bee` have nuclei `IH` and `IY` at
distance `0.25`; with the threshold `1.0` as with the threshold `0.1` they are
in no assonance cluster. -/
theorem assonanceThreshold_without_effect_witness :
    nucleusDistance ["IH"] ["IY"] = 1 / 4 ∧
    (analyzeFresh { DEFAULT_SETTINGS with assonanceThreshold := 1 } "bit\nbee").map
        (fun r => (r.spans.map (fun s => s.nucleus), r.assonance)) =
      .ok ([["IH"], ["IY"]], []) ∧
    analyzeFresh { DEFAULT_SETTINGS with assonanceThreshold := 1 / 10 } "bit\nbee" =
      analyzeFresh { DEFAULT_SETTINGS with assonanceThreshold := 1 } "bit\nbee" :=
  ⟨by decide!, by decide!,
   assonanceThreshold_without_effect DEFAULT_SETTINGS "bit\nbee" (1 / 10) 1
     (by norm_num) (by norm_num)⟩

end Rhymer
